import Mathlib

/-!
Verification of the GDPR Obfuscator core (src/gdpr_obfuscator.py and
src/gdpr_obfuscator_mvp.py) against its natural-language specification.

The Python code is shallowly embedded here.  Python strings are modelled as
`List Char`; the byte level (UTF-8 encoding / decoding) is abstracted away, so
"bytes" results are represented by the decoded text (or, for Parquet, by the
decoded table).  The standard-library behaviour the code relies on is embedded
faithfully to CPython 3.11:

* the `csv` module's default dialect reader state machine (`_csv.c`), including
  blank-line skipping at `DictReader` level, `restkey` / `restval` handling,
  `QUOTE_MINIMAL` writing with the single-empty-field rule and the constant
  `csv.Error` message for a stray carriage return;
* `json.loads` / `json.dumps` (default options: `ensure_ascii`, separators
  with a space, strict control-character handling).  IEEE-754 float literals
  (and the `NaN` / `Infinity` extensions) cannot be shallowly embedded and are
  outside the modelled JSON number grammar, which covers integers only;
  likewise lone UTF-16 surrogate escapes, which `str` in CPython can carry but
  a Lean `Char` cannot, are outside the modelled string domain;
* `pandas` dataframes for the Parquet transform are modelled as named-column
  tables; the Parquet container (de)serialisation is abstracted as identity.

Python `dict` objects are modelled as insertion-ordered association lists with
update-in-place assignment, matching CPython's ordering guarantees.
-/

/-- Python exception kinds raised by the embedded code.  The spec's taxonomy
maps onto these as: ValidationError / FormatError / UnsupportedFormatError are
all raised as `ValueError` by the code (distinguished by message), `csv.Error`
and `json.JSONDecodeError` are format errors, and `keyError` / `typeError` /
`attributeError` are error kinds outside the spec's taxonomy. -/
inductive PyErr where
  | valueError (msg : List Char)
  | csvError (msg : List Char)
  | jsonDecodeError
  | typeError (msg : List Char)
  | keyError (key : List Char)
  | attributeError (msg : List Char)
  | notFound (msg : List Char)
  | unicodeDecodeError
  | arrowInvalid
deriving Repr, DecidableEq

/-- Python dict assignment `d[k] = v` on an insertion-ordered association
list: update in place if the key is present, else append. -/
def setA [DecidableEq K] : List (K × V) → K → V → List (K × V)
  | [], k, v => [(k, v)]
  | (k', v') :: t, k, v => if k' = k then (k, v) :: t else (k', v') :: setA t k v

/-- Python dict lookup `d[k]` (first matching key; unique when built by
`setA`). -/
def getA [DecidableEq K] : List (K × V) → K → Option V
  | [], _ => none
  | (k', v') :: t, k => if k' = k then some v' else getA t k

/-- Python membership test `k in d` on a dict. -/
def memA [DecidableEq K] (d : List (K × V)) (k : K) : Bool :=
  (getA d k).isSome

/-- Test that `p` is a prefix of `u` (Python `str.startswith`). -/
def hasPre : List Char → List Char → Bool
  | [], _ => true
  | _ :: _, [] => false
  | p :: ps, c :: cs => p = c && hasPre ps cs

/-- Python `s.split(sep, 1)` restricted to the informative case: `none` when
`sep` does not occur, otherwise the parts before and after its first
occurrence. -/
def splitOnce (sep : Char) : List Char → Option (List Char × List Char)
  | [] => none
  | c :: cs =>
    if c = sep then some ([], cs)
    else
      match splitOnce sep cs with
      | none => none
      | some (a, b) => some (c :: a, b)

/-- Python substring test `n in hay` for strings. -/
def substrB (n : List Char) : List Char → Bool
  | [] => hasPre n []
  | c :: t => hasPre n (c :: t) || substrB n t

/-- Concatenate with a separator (Python `sep.join`). -/
def joinSep (sep : List Char) : List (List Char) → List Char
  | [] => []
  | [x] => x
  | x :: y :: t => x ++ sep ++ joinSep sep (y :: t)

/-- The fixed Redaction Marker written in place of every targeted value. -/
def marker : List Char := ['*', '*', '*']

/-! ## The csv module: reader state machine

CPython's `_csv.c` parser for the default dialect (delimiter `,`, quote `"`,
doublequote, non-strict, input via `io.StringIO` whose line iteration splits
on LF only).  A record is a list of fields; blank lines yield the empty
record, which `DictReader` skips for data rows but not for the header.  The
`Option` component carries the `csv.Error` message raised on a carriage
return that is not part of a line ending; records completed before the error
are still reported, matching the reader's lazy iteration. -/

/-- Parser states of `_csv.c` with their accumulated fields. -/
inductive CsvSt where
  | startRecord
  | startField (rec : List (List Char))
  | inField (fld : List Char) (rec : List (List Char))
  | inQuoted (fld : List Char) (rec : List (List Char))
  | quoteInQuoted (fld : List Char) (rec : List (List Char))
  | eatCrnl (rec : List (List Char))
deriving Repr, DecidableEq

/-- Message of the `csv.Error` raised on a stray carriage return. -/
def csvErrMsg : List Char :=
  ("new-line character seen in unquoted field - do you need to open the file "
    ++ "in universal-newline mode?").data

/-- Cons a completed record onto a parse continuation. -/
def consRec (r : List (List Char)) (p : List (List (List Char)) × Option (List Char)) :
    List (List (List Char)) × Option (List Char) :=
  (r :: p.1, p.2)

/-- Records emitted at end of input from a given parser state (the reader's
non-strict EOF handling: a pending field or quoted field is saved). -/
def csvEnd : CsvSt → List (List (List Char))
  | .startRecord => []
  | .startField rec => [rec ++ [[]]]
  | .inField fld rec => [rec ++ [fld]]
  | .inQuoted fld rec => [rec ++ [fld]]
  | .quoteInQuoted fld rec => [rec ++ [fld]]
  | .eatCrnl rec => [rec]

/-- One-pass execution of the csv reader state machine over the whole input. -/
def csvRun : CsvSt → List Char → List (List (List Char)) × Option (List Char)
  | st, [] => (csvEnd st, none)
  | .startRecord, c :: cs =>
    if c = '\n' then consRec [] (csvRun .startRecord cs)
    else if c = '\r' then csvRun (.eatCrnl []) cs
    else if c = '"' then csvRun (.inQuoted [] []) cs
    else if c = ',' then csvRun (.startField [[]]) cs
    else csvRun (.inField [c] []) cs
  | .startField rec, c :: cs =>
    if c = '\n' then consRec (rec ++ [[]]) (csvRun .startRecord cs)
    else if c = '\r' then csvRun (.eatCrnl (rec ++ [[]])) cs
    else if c = '"' then csvRun (.inQuoted [] rec) cs
    else if c = ',' then csvRun (.startField (rec ++ [[]])) cs
    else csvRun (.inField [c] rec) cs
  | .inField fld rec, c :: cs =>
    if c = '\n' then consRec (rec ++ [fld]) (csvRun .startRecord cs)
    else if c = '\r' then csvRun (.eatCrnl (rec ++ [fld])) cs
    else if c = ',' then csvRun (.startField (rec ++ [fld])) cs
    else csvRun (.inField (fld ++ [c]) rec) cs
  | .inQuoted fld rec, c :: cs =>
    if c = '"' then csvRun (.quoteInQuoted fld rec) cs
    else csvRun (.inQuoted (fld ++ [c]) rec) cs
  | .quoteInQuoted fld rec, c :: cs =>
    if c = '"' then csvRun (.inQuoted (fld ++ ['"']) rec) cs
    else if c = ',' then csvRun (.startField (rec ++ [fld])) cs
    else if c = '\n' then consRec (rec ++ [fld]) (csvRun .startRecord cs)
    else if c = '\r' then csvRun (.eatCrnl (rec ++ [fld])) cs
    else csvRun (.inField (fld ++ [c]) rec) cs
  | .eatCrnl rec, c :: cs =>
    if c = '\n' then consRec rec (csvRun .startRecord cs)
    else if c = '\r' then csvRun (.eatCrnl rec) cs
    else ([], some csvErrMsg)

/-- All records of `csv.reader(io.StringIO(data))`, with a possible trailing
`csv.Error`. -/
def parseCSV (data : List Char) : List (List (List Char)) × Option (List Char) :=
  csvRun .startRecord data

/-! ## The csv module: DictReader rows and QUOTE_MINIMAL writing -/

/-- Value of one entry of a `DictReader` row: a string cell, Python `None`
(the reader's `restval` for a missing trailing field), or the `restkey` list
of surplus fields. -/
inductive CVal where
  | str (s : List Char)
  | null
  | extras (vs : List (List Char))
deriving Repr, DecidableEq

/-- Key of a `DictReader` row dict: a field name, or Python `None`
(`restkey`). -/
abbrev CKey := Option (List Char)

/-- Row dictionaries produced by `DictReader`. -/
abbrev CDict := List (CKey × CVal)

/-- Python `dict(zip(fieldnames, row))`: insert the zipped pairs in order
(later duplicate field names overwrite in place). -/
def zipUpd (fieldnames row : List (List Char)) : CDict :=
  (List.zip fieldnames row).foldl (fun d kv => setA d (some kv.1) (.str kv.2)) []

/-- One `DictReader` data row as a dict: `dict(zip(fieldnames, row))`, then
surplus fields under the `None` restkey, or missing trailing field names set
to the `None` restval. -/
def mkRowDict (fieldnames row : List (List Char)) : CDict :=
  let d := zipUpd fieldnames row
  if fieldnames.length < row.length then
    setA d none (.extras (row.drop fieldnames.length))
  else
    (fieldnames.drop row.length).foldl (fun d k => setA d (some k) .null) d

/-- The obfuscation loop body of `obfuscate_csv`: for each target field name
present in the row dict, overwrite its value with the marker. -/
def redactRowDict (pii : List (List Char)) (d : CDict) : CDict :=
  pii.foldl (fun d f => if memA d (some f) then setA d (some f) (.str marker) else d) d

/-- Quote test of `QUOTE_MINIMAL`: the field contains the delimiter, the
quote character, or a line-terminator character. -/
def needsQuote (f : List Char) : Bool :=
  f.any fun c => c = ',' || c = '"' || c = '\r' || c = '\n'

/-- Double each quote character (the writer's doublequote escaping). -/
def escQ : List Char → List Char
  | [] => []
  | c :: t => if c = '"' then '"' :: '"' :: escQ t else c :: escQ t

/-- Render one field under `QUOTE_MINIMAL`. -/
def quoteField (f : List Char) : List Char :=
  if needsQuote f then '"' :: (escQ f ++ ['"']) else f

/-- Render one record as the csv writer does: comma-joined minimally quoted
fields, the single-empty-field record written as a pair of quotes, and the
default `\r\n` line terminator. -/
def writeLine (cells : List (List Char)) : List Char :=
  (if cells = [[]] then ['"', '"'] else joinSep [','] (cells.map quoteField)) ++ ['\r', '\n']

/-- Python `repr` of a row-dict key, as used in the `DictWriter` wrong-fields
message (`repr(None)` is the only case reachable from this code). -/
def reprCKey : CKey → List Char
  | none => "None".data
  | some s => Char.ofNat 39 :: s ++ [Char.ofNat 39]

/-- Render one cell value as the csv writer does: strings unchanged, `None`
as the empty string.  A `restkey` list would be rendered via `str`, but the
wrong-fields check always raises first in this code, so that branch is
unreachable. -/
def renderCVal : CVal → List Char
  | .str s => s
  | .null => []
  | .extras vs => '[' :: joinSep (", ".data) ((vs.map some).map reprCKey) ++ [']']

/-- Write one row dict via `DictWriter.writerow` (default
`extrasaction="raise"`, `restval=""`): raise `ValueError` when the dict has a
key outside the field names, else render each field name's value. -/
def writeDictRow (fieldnames : List (List Char)) (d : CDict) : Except PyErr (List Char) :=
  let wrong := (d.map Prod.fst).filter fun k =>
    match k with
    | none => true
    | some s => !(fieldnames.contains s)
  if wrong = [] then
    .ok (writeLine (fieldnames.map fun h =>
      match getA d (some h) with
      | some v => renderCVal v
      | none => []))
  else
    .error (.valueError ("dict contains fields not in fieldnames: ".data
      ++ joinSep (", ".data) (wrong.map reprCKey)))

/-- The cells `DictWriter` renders for one redacted data row: one cell per
field name, looked up in the row dict (strings as-is, the `None` restval as
the empty string). -/
def rowCells (fieldnames pii r : List (List Char)) : List (List Char) :=
  fieldnames.map fun h =>
    match getA (redactRowDict pii (mkRowDict fieldnames r)) (some h) with
    | some v => renderCVal v
    | none => []

/-- Row loop of the delimited-text transform: redact and write each
non-blank data row in order. -/
def obfuscate_rows (fieldnames pii_fields : List (List Char)) :
    List (List (List Char)) → Except PyErr (List (List Char))
  | [] => .ok []
  | r :: rs =>
    match writeDictRow fieldnames (redactRowDict pii_fields (mkRowDict fieldnames r)) with
    | .error e => .error e
    | .ok line =>
      match obfuscate_rows fieldnames pii_fields rs with
      | .error e => .error e
      | .ok lines => .ok (line :: lines)

/-- The delimited-text transform `obfuscate_csv` of src/gdpr_obfuscator.py
(the identical inline CSV logic of src/gdpr_obfuscator_mvp.py's
`obfuscate_csv_from_json` is covered by the same embedding).  The returned
UTF-8 bytes are represented by the output text.  The reader is lazy in
Python, so records completed before a `csv.Error` are written (and may raise
the writer's `ValueError`) before the reader's error surfaces; the output is
discarded on any raise, which this eager embedding reproduces by ordering the
error cases identically. -/
def obfuscate_csv (data : List Char) (pii_fields : List (List Char)) :
    Except PyErr (List Char) :=
  match parseCSV data with
  | (records, perr) =>
    match records with
    | [] =>
      match perr with
      | some e => .error (.csvError e)
      | none => .error (.valueError "CSV file has no header row.".data)
    | fieldnames :: rest =>
      match obfuscate_rows fieldnames pii_fields (rest.filter fun r => r ≠ []) with
      | .error e => .error e
      | .ok lines =>
        match perr with
        | some e => .error (.csvError e)
        | none => .ok (writeLine fieldnames ++ lines.flatten)

/-! ## The json module: values, dumps, loads

JSON values with integer numbers only (IEEE-754 floats, `NaN` and `Infinity`
are outside the shallow embedding).  Objects are insertion-ordered
association lists; `json.loads` builds them with last-wins update, so parsed
objects have pairwise-distinct keys. -/

/-- A Python value decoded from JSON. -/
inductive JVal where
  | str (s : List Char)
  | int (n : Int)
  | bool (b : Bool)
  | null
  | arr (items : List JVal)
  | obj (fields : List (List Char × JVal))
deriving Repr

/-- Decimal digits of a natural number. -/
def natToChars (n : Nat) : List Char :=
  if n < 10 then [Char.ofNat (48 + n)]
  else natToChars (n / 10) ++ [Char.ofNat (48 + n % 10)]
decreasing_by exact Nat.div_lt_self (by omega) (by omega)

/-- Decimal rendering of an integer (`json.dumps` of an int). -/
def intToChars : Int → List Char
  | .ofNat n => natToChars n
  | .negSucc m => '-' :: natToChars (m + 1)

/-- Lowercase hex digit. -/
def hexDigit (n : Nat) : Char :=
  Char.ofNat (if n < 10 then 48 + n else 87 + n)

/-- Four lowercase hex digits of a value below 2^16. -/
def hex4 (n : Nat) : List Char :=
  [hexDigit (n / 4096 % 16), hexDigit (n / 256 % 16), hexDigit (n / 16 % 16), hexDigit (n % 16)]

/-- Escape one character as `json.dumps` does with `ensure_ascii=True`:
shorthand escapes, printable ASCII verbatim, `\uXXXX` otherwise, with a
UTF-16 surrogate pair above the basic multilingual plane. -/
def escJChar (c : Char) : List Char :=
  if c = '"' then ['\\', '"']
  else if c = '\\' then ['\\', '\\']
  else if c = '\n' then ['\\', 'n']
  else if c = '\r' then ['\\', 'r']
  else if c = '\t' then ['\\', 't']
  else if c.toNat = 8 then ['\\', 'b']
  else if c.toNat = 12 then ['\\', 'f']
  else if 32 ≤ c.toNat ∧ c.toNat ≤ 126 then [c]
  else if c.toNat < 65536 then '\\' :: 'u' :: hex4 c.toNat
  else
    '\\' :: 'u' :: hex4 (55296 + (c.toNat - 65536) / 1024)
      ++ '\\' :: 'u' :: hex4 (56320 + (c.toNat - 65536) % 1024)

/-- Render a string literal as `json.dumps` does. -/
def dumpJStr (s : List Char) : List Char :=
  '"' :: (s.map escJChar).flatten ++ ['"']

mutual

/-- Serialise a value as `json.dumps` does with default options (item
separator a comma and a space, key separator a colon and a space). -/
def dumpsJson : JVal → List Char
  | .str s => dumpJStr s
  | .int n => intToChars n
  | .bool true => "true".data
  | .bool false => "false".data
  | .null => "null".data
  | .arr items => '[' :: joinSep (", ".data) (dumpsArr items) ++ [']']
  | .obj fields => '{' :: joinSep (", ".data) (dumpsObj fields) ++ ['}']
termination_by v => sizeOf v
decreasing_by
  all_goals simp_wf

/-- Serialised items of an array. -/
def dumpsArr : List JVal → List (List Char)
  | [] => []
  | x :: xs => dumpsJson x :: dumpsArr xs
termination_by l => sizeOf l
decreasing_by
  all_goals simp_wf
  all_goals omega

/-- Serialised members of an object. -/
def dumpsObj : List (List Char × JVal) → List (List Char)
  | [] => []
  | kv :: t => (dumpJStr kv.1 ++ ": ".data ++ dumpsJson kv.2) :: dumpsObj t
termination_by l => sizeOf l
decreasing_by
  all_goals simp_wf
  obtain ⟨a, b⟩ := kv
  simp
  omega

end

/-- Whitespace skipping of the json scanner (space, tab, LF, CR). -/
def skipWs : List Char → List Char
  | [] => []
  | c :: cs => if c = ' ' || c = '\t' || c = '\n' || c = '\r' then skipWs cs else c :: cs

/-- Value of one hex digit (both cases accepted, as in `json.loads`). -/
def hexVal (c : Char) : Option Nat :=
  if '0' ≤ c ∧ c ≤ '9' then some (c.toNat - 48)
  else if 'a' ≤ c ∧ c ≤ 'f' then some (c.toNat - 87)
  else if 'A' ≤ c ∧ c ≤ 'F' then some (c.toNat - 55)
  else none

/-- Read four hex digits. -/
def parseHex4 : List Char → Option (Nat × List Char)
  | a :: b :: c :: d :: rest =>
    match hexVal a, hexVal b, hexVal c, hexVal d with
    | some x, some y, some z, some w => some (((x * 16 + y) * 16 + z) * 16 + w, rest)
    | _, _, _, _ => none
  | _ => none

/-- Body of a JSON string literal after the opening quote, in strict mode:
unescaped control characters are rejected; escapes including `\uXXXX` and
UTF-16 surrogate pairs are decoded.  Lone surrogates (which CPython's `str`
can carry but a Lean `Char` cannot) are outside the model and rejected. -/
def parseStrBody : Nat → List Char → Option (List Char × List Char)
  | 0, _ => none
  | fuel + 1, cs =>
    match cs with
    | [] => none
    | c :: rest =>
      if c = '"' then some ([], rest)
      else if c = '\\' then
        match rest with
        | [] => none
        | e :: rest2 =>
          if e = '"' then (parseStrBody fuel rest2).map fun p => ('"' :: p.1, p.2)
          else if e = '\\' then (parseStrBody fuel rest2).map fun p => ('\\' :: p.1, p.2)
          else if e = '/' then (parseStrBody fuel rest2).map fun p => ('/' :: p.1, p.2)
          else if e = 'b' then (parseStrBody fuel rest2).map fun p => (Char.ofNat 8 :: p.1, p.2)
          else if e = 'f' then (parseStrBody fuel rest2).map fun p => (Char.ofNat 12 :: p.1, p.2)
          else if e = 'n' then (parseStrBody fuel rest2).map fun p => ('\n' :: p.1, p.2)
          else if e = 'r' then (parseStrBody fuel rest2).map fun p => ('\r' :: p.1, p.2)
          else if e = 't' then (parseStrBody fuel rest2).map fun p => ('\t' :: p.1, p.2)
          else if e = 'u' then
            match parseHex4 rest2 with
            | none => none
            | some (v, rest3) =>
              if 55296 ≤ v ∧ v < 56320 then
                match rest3 with
                | b1 :: b2 :: rest4 =>
                  if b1 = '\\' ∧ b2 = 'u' then
                    match parseHex4 rest4 with
                    | none => none
                    | some (lo, rest5) =>
                      if 56320 ≤ lo ∧ lo < 57344 then
                        (parseStrBody fuel rest5).map fun p =>
                          (Char.ofNat (65536 + (v - 55296) * 1024 + (lo - 56320)) :: p.1, p.2)
                      else none
                  else none
                | _ => none
              else if 56320 ≤ v ∧ v < 57344 then none
              else (parseStrBody fuel rest3).map fun p => (Char.ofNat v :: p.1, p.2)
          else none
      else if c.toNat < 32 then none
      else (parseStrBody fuel rest).map fun p => (c :: p.1, p.2)

/-- Collect leading decimal digits. -/
def takeDigits : List Char → List Char × List Char
  | [] => ([], [])
  | c :: cs =>
    if '0' ≤ c ∧ c ≤ '9' then
      let (ds, r) := takeDigits cs
      (c :: ds, r)
    else ([], c :: cs)

/-- Numeric value of a digit string. -/
def digitsToNat (ds : List Char) : Nat :=
  ds.foldl (fun a c => a * 10 + (c.toNat - 48)) 0

/-- Head begins a float continuation (`.`, `e`, `E`) — such number literals
are floats, which are outside the model. -/
def isFloatCont : List Char → Bool
  | [] => false
  | c :: _ => c = '.' || c = 'e' || c = 'E'

/-- Unsigned integer literal of the JSON grammar (`0` or a nonzero-led digit
string). -/
def parseUIntLit : List Char → Option (Nat × List Char)
  | [] => none
  | c :: rest =>
    if c = '0' then
      if isFloatCont rest then none else some (0, rest)
    else if '1' ≤ c ∧ c ≤ '9' then
      let (ds, r) := takeDigits rest
      if isFloatCont r then none else some (digitsToNat (c :: ds), r)
    else none

/-- Signed integer literal. -/
def parseIntLit : List Char → Option (Int × List Char)
  | [] => none
  | c :: rest =>
    if c = '-' then (parseUIntLit rest).map fun p => (-(p.1 : Int), p.2)
    else (parseUIntLit (c :: rest)).map fun p => ((p.1 : Int), p.2)

mutual

/-- Scan one JSON value (the json scanner's `scan_once`), fueled. -/
def parseVal : Nat → List Char → Option (JVal × List Char)
  | 0, _ => none
  | fuel + 1, cs =>
    match cs with
    | [] => none
    | c :: rest =>
      if c = '"' then (parseStrBody (rest.length + 1) rest).map fun p => (.str p.1, p.2)
      else if c = '[' then
        match skipWs rest with
        | [] => none
        | c2 :: r2 => if c2 = ']' then some (.arr [], r2) else parseArrLoop fuel [] (c2 :: r2)
      else if c = '{' then
        match skipWs rest with
        | [] => none
        | c2 :: r2 => if c2 = '}' then some (.obj [], r2) else parseObjLoop fuel [] (c2 :: r2)
      else if c = 't' then
        if hasPre ("rue".data) rest then some (.bool true, rest.drop 3) else none
      else if c = 'f' then
        if hasPre ("alse".data) rest then some (.bool false, rest.drop 4) else none
      else if c = 'n' then
        if hasPre ("ull".data) rest then some (.null, rest.drop 3) else none
      else if c = '-' ∨ ('0' ≤ c ∧ c ≤ '9') then
        (parseIntLit (c :: rest)).map fun p => (.int p.1, p.2)
      else none

/-- Array items after at least one is present. -/
def parseArrLoop : Nat → List JVal → List Char → Option (JVal × List Char)
  | 0, _, _ => none
  | fuel + 1, acc, cs =>
    match parseVal fuel cs with
    | none => none
    | some (v, r) =>
      match skipWs r with
      | [] => none
      | c :: r2 =>
        if c = ',' then parseArrLoop fuel (acc ++ [v]) (skipWs r2)
        else if c = ']' then some (.arr (acc ++ [v]), r2)
        else none

/-- Object members after at least one is present; accumulated with last-wins
dict insertion, as `json.loads` builds its dict. -/
def parseObjLoop : Nat → List (List Char × JVal) → List Char → Option (JVal × List Char)
  | 0, _, _ => none
  | fuel + 1, acc, cs =>
    match cs with
    | [] => none
    | c :: rest =>
      if c = '"' then
        match parseStrBody (rest.length + 1) rest with
        | none => none
        | some (k, r) =>
          match skipWs r with
          | [] => none
          | c2 :: r2 =>
            if c2 = ':' then
              match parseVal fuel (skipWs r2) with
              | none => none
              | some (v, r3) =>
                match skipWs r3 with
                | [] => none
                | c3 :: r5 =>
                  if c3 = ',' then parseObjLoop fuel (setA acc k v) (skipWs r5)
                  else if c3 = '}' then some (.obj (setA acc k v), r5)
                  else none
            else none
      else none

end

/-- Ample fuel for the scanner on a given input: every two fuel ticks consume
at least one character along any call chain. -/
def jsonFuel (data : List Char) : Nat := 2 * data.length + 2

/-- Whole-document `json.loads`: leading and trailing whitespace allowed,
anything else trailing is an error. -/
def parseJsonTop (data : List Char) : Option JVal :=
  match parseVal (jsonFuel data) (skipWs data) with
  | some (v, rest) => if skipWs rest = [] then some v else none
  | none => none

/-! ## The record-list transform -/

/-- Message of the `TypeError` from `field in row` when `row` is not a
container (the membership test iterates its right operand). -/
def inNotIterableMsg (ty : List Char) : List Char :=
  "argument of type '".data ++ ty ++ "' is not iterable".data

/-- Message of the `TypeError` from `for row in data_list` when the parsed
document is not iterable. -/
def notIterableMsg (ty : List Char) : List Char :=
  Char.ofNat 39 :: ty ++ "' object is not iterable".data

/-- Message of the `TypeError` from assigning into a string row. -/
def strAssignMsg : List Char :=
  "'str' object does not support item assignment".data

/-- Message of the `TypeError` from `row[field] = ...` when `row` is a list. -/
def listIdxMsg : List Char :=
  "list indices must be integers or slices, not str".data

/-- Python equality of a string against a JSON value (a `str` never equals a
non-`str`). -/
def pyEqStr (f : List Char) : JVal → Bool
  | .str s => f = s
  | _ => false

/-- Inner loop of `obfuscate_json` for one row: for each target field, test
`field in row` under Python semantics for the row's type and assign the
marker when present.  Only mapping rows support the assignment; a string row
with a matching substring, or a list row containing the field, raises
`TypeError`, as does membership on a non-container row. -/
def redactStep (f : List Char) (row : JVal) : Except PyErr JVal :=
  match row with
  | .obj kvs =>
    if memA kvs f then .ok (.obj (setA kvs f (.str marker))) else .ok (.obj kvs)
  | .str s => if substrB f s then .error (.typeError strAssignMsg) else .ok (.str s)
  | .arr xs => if xs.any (pyEqStr f) then .error (.typeError listIdxMsg) else .ok (.arr xs)
  | .int _ => .error (.typeError (inNotIterableMsg ("int".data)))
  | .bool _ => .error (.typeError (inNotIterableMsg ("bool".data)))
  | .null => .error (.typeError (inNotIterableMsg ("NoneType".data)))

/-- Fold of `redactStep` over the target fields, in order. -/
def processRow : List (List Char) → JVal → Except PyErr JVal
  | [], row => .ok row
  | f :: rest, row =>
    match redactStep f row with
    | .error e => .error e
    | .ok row' => processRow rest row'

/-- Pure form of the row loop on a mapping record: for each target field
present in the record, overwrite its value with the marker (string literal
regardless of the original value's type). -/
def redactObj (pii : List (List Char)) (kvs : List (List Char × JVal)) :
    List (List Char × JVal) :=
  pii.foldl (fun kvs f => if memA kvs f then setA kvs f (.str marker) else kvs) kvs

/-- Row-by-row processing of a parsed list document (rows mutated in
place). -/
def processRows (pii : List (List Char)) : List JVal → Except PyErr (List JVal)
  | [] => .ok []
  | r :: rs =>
    match processRow pii r with
    | .error e => .error e
    | .ok r' =>
      match processRows pii rs with
      | .error e => .error e
      | .ok rs' => .ok (r' :: rs')

/-- Iterating a dict document yields its keys, each hitting the row loop as a
string row; nothing is modified when no error is raised. -/
def checkKeys (pii : List (List Char)) : List (List Char × JVal) → Except PyErr Unit
  | [] => .ok ()
  | kv :: t =>
    match processRow pii (.str kv.1) with
    | .error e => .error e
    | .ok _ => checkKeys pii t

/-- Iterating a string document yields its characters as one-character string
rows. -/
def checkChars (pii : List (List Char)) : List Char → Except PyErr Unit
  | [] => .ok ()
  | c :: t =>
    match processRow pii (.str [c]) with
    | .error e => .error e
    | .ok _ => checkChars pii t

/-- Outer loop of `obfuscate_json` over the parsed document: a list is
processed row by row; iterating a dict yields its keys and iterating a
string yields its characters, each hitting the row loop as a string row;
other values are not iterable. -/
def processTop (pii : List (List Char)) : JVal → Except PyErr JVal
  | .arr items =>
    match processRows pii items with
    | .error e => .error e
    | .ok items' => .ok (.arr items')
  | .obj kvs =>
    match checkKeys pii kvs with
    | .error e => .error e
    | .ok _ => .ok (.obj kvs)
  | .str s =>
    match checkChars pii s with
    | .error e => .error e
    | .ok _ => .ok (.str s)
  | .int _ => .error (.typeError (notIterableMsg ("int".data)))
  | .bool _ => .error (.typeError (notIterableMsg ("bool".data)))
  | .null => .error (.typeError (notIterableMsg ("NoneType".data)))

/-- The record-list transform `obfuscate_json` of src/gdpr_obfuscator.py:
`json.loads`, the two redaction loops, `json.dumps` back to bytes
(represented by the output text). -/
def obfuscate_json (data : List Char) (pii_fields : List (List Char)) :
    Except PyErr (List Char) :=
  match parseJsonTop data with
  | none => .error .jsonDecodeError
  | some v => (processTop pii_fields v).map dumpsJson

/-! ## The columnar transform -/

/-- A cell value of a dataframe column. -/
inductive PqVal where
  | str (s : List Char)
  | int (n : Int)
  | bool (b : Bool)
  | null
deriving Repr, DecidableEq

/-- One dataframe column: its pandas dtype name and its cells. -/
structure PqCol where
  dtype : List Char
  vals : List PqVal
deriving Repr, DecidableEq

/-- A dataframe as read from a Parquet container: named columns in order. -/
structure PqTable where
  cols : List (List Char × PqCol)
deriving Repr, DecidableEq

/-- The column produced by assigning the marker over an existing column:
object dtype, one marker per row. -/
def redactedCol (c : PqCol) : PqCol :=
  ⟨"object".data, List.replicate c.vals.length (.str marker)⟩

/-- Column assignment `df[name] = "***"`: every column of that name becomes
an object-dtype column of markers, one per row; other columns untouched. -/
def setCol (t : PqTable) (name : List Char) : PqTable :=
  ⟨t.cols.map fun nc => if nc.1 = name then (nc.1, redactedCol nc.2) else nc⟩

/-- Column names of a table (`df.columns`). -/
def colNames (t : PqTable) : List (List Char) :=
  t.cols.map Prod.fst

/-- The columnar transform `obfuscate_parquet` of src/gdpr_obfuscator.py at
table level: for each target field among the column names, assign the marker
column.  Reading the Parquet bytes into the dataframe and writing the
dataframe back (`index=False`) are abstracted as identity on the table. -/
def obfuscate_parquet (t : PqTable) (pii_fields : List (List Char)) : PqTable :=
  pii_fields.foldl (fun t f => if (colNames t).contains f then setCol t f else t) t

/-! ## Location resolver and dispatcher -/

/-- The inline S3 URL validation of `obfuscate_file` (identical in
`obfuscate_csv_from_json`): require the fixed scheme, then split the
remainder on the first slash into bucket and key. -/
def parseS3Url (s3_url : List Char) : Except PyErr (List Char × List Char) :=
  if !hasPre ("s3://".data) s3_url then
    .error (.valueError "Invalid S3 URL: Must start with 's3://'".data)
  else
    match splitOnce '/' (s3_url.drop 5) with
    | none => .error (.valueError "Invalid S3 URL: Must be in the form s3://bucket/key".data)
    | some (bucket, key) => .ok (bucket, key)

/-- Python `key.endswith(suffix)`. -/
def endsW (u suffx : List Char) : Bool :=
  hasPre suffx.reverse u.reverse

/-- Coerce the request's `pii_fields` entries to strings: the modelled domain
requires a list of strings (other shapes would flow untyped into the loops
and are outside the embedding). -/
def extractStrList : List JVal → Except PyErr (List (List Char))
  | [] => .ok []
  | JVal.str f :: t => (extractStrList t).map fun fs => f :: fs
  | _ :: _ => .error (.typeError "non-string field name".data)

/-- A fetched or produced byte stream: UTF-8 text (carried decoded) or a
Parquet container (carried as its table). -/
inductive ByteStream where
  | text (s : List Char)
  | parquetTable (t : PqTable)

/-- The entry point `obfuscate_file` of src/gdpr_obfuscator.py.  The S3
client is the injected `fetch` capability.  Order of effects follows the
source: parse the input JSON, subscript the two request keys (`KeyError`
when absent), validate the URL shape, fetch, then dispatch on the key's
suffix.  The embedding requires `pii_fields` to be a list of strings (other
shapes would flow into the loops untyped and are outside the modelled
domain), and represents a text/parquet content mismatch by the decode error
the respective reader would raise. -/
def obfuscate_file (fetch : List Char → List Char → Except PyErr ByteStream)
    (json_input_str : List Char) : Except PyErr ByteStream :=
  match parseJsonTop json_input_str with
  | none => .error .jsonDecodeError
  | some (JVal.arr _) => .error (.typeError listIdxMsg)
  | some (JVal.obj kvs) =>
    match getA kvs ("file_to_obfuscate".data) with
    | none => .error (.keyError ("file_to_obfuscate".data))
    | some urlv =>
      match getA kvs ("pii_fields".data) with
      | none => .error (.keyError ("pii_fields".data))
      | some piiv =>
        match urlv with
        | JVal.str s3_url =>
          match (match piiv with
                 | JVal.arr items => extractStrList items
                 | _ => Except.error (PyErr.typeError ("non-list pii_fields".data))) with
          | .error e => .error e
          | .ok pii_fields =>
            match parseS3Url s3_url with
            | .error e => .error e
            | .ok (bucket, key) =>
              match fetch bucket key with
              | .error e => .error e
              | .ok content =>
                if endsW key (".csv".data) then
                  match content with
                  | .text s => (obfuscate_csv s pii_fields).map .text
                  | .parquetTable _ => .error .unicodeDecodeError
                else if endsW key (".json".data) then
                  match content with
                  | .text s => (obfuscate_json s pii_fields).map .text
                  | .parquetTable _ => .error .unicodeDecodeError
                else if endsW key (".parquet".data) then
                  match content with
                  | .parquetTable t => .ok (.parquetTable (obfuscate_parquet t pii_fields))
                  | .text _ => .error .arrowInvalid
                else
                  .error (.valueError
                    ("Unsupported file type. Only CSV, JSON, and Parquet are supported.".data))
        | _ => .error (.attributeError ("object has no attribute 'startswith'".data))
  | some _ => .error (.typeError ("value is not subscriptable".data))

/-! ## Auxiliary structure for the json scanner proofs -/

/-- Characters that may legitimately follow a serialised value inside a
`json.dumps` document: end of input, the item separator, or a closing
bracket.  None of these can extend a number literal. -/
def sepOk : List Char → Bool
  | [] => true
  | c :: _ => c = ',' || c = ']' || c = '}'

/-- Pairwise distinctness of a key list (executable form of `List.Nodup`). -/
def nodupB : List (List Char) → Bool
  | [] => true
  | k :: t => !t.contains k && nodupB t

mutual

/-- Values in the image of `json.loads`: every object layer has pairwise
distinct keys (`loads` builds dicts, so duplicate keys collapse). -/
def wfJ : JVal → Bool
  | .arr items => wfArr items
  | .obj fields => nodupB (fields.map Prod.fst) && wfObj fields
  | _ => true
termination_by v => sizeOf v
decreasing_by
  all_goals simp_wf

/-- Well-formedness of every item of an array. -/
def wfArr : List JVal → Bool
  | [] => true
  | x :: xs => wfJ x && wfArr xs
termination_by l => sizeOf l
decreasing_by
  all_goals simp_wf
  all_goals omega

/-- Well-formedness of every member value of an object. -/
def wfObj : List (List Char × JVal) → Bool
  | [] => true
  | kv :: t => wfJ kv.2 && wfObj t
termination_by l => sizeOf l
decreasing_by
  all_goals simp_wf
  obtain ⟨a, b⟩ := kv
  simp
  omega

end

mutual

/-- Scanner fuel sufficient to parse the serialisation of a value. -/
def jfuelV : JVal → Nat
  | .arr items => 1 + jfuelArr items
  | .obj fields => 1 + jfuelObj fields
  | _ => 1
termination_by v => sizeOf v
decreasing_by
  all_goals simp_wf

/-- Fuel for the array-items loop. -/
def jfuelArr : List JVal → Nat
  | [] => 1
  | x :: xs => 1 + jfuelV x + jfuelArr xs
termination_by l => sizeOf l
decreasing_by
  all_goals simp_wf
  all_goals omega

/-- Fuel for the object-members loop. -/
def jfuelObj : List (List Char × JVal) → Nat
  | [] => 1
  | kv :: t => 1 + jfuelV kv.2 + jfuelObj t
termination_by l => sizeOf l
decreasing_by
  all_goals simp_wf
  obtain ⟨a, b⟩ := kv
  simp
  omega

end

/-! ## Basic lemmas about the string and dict helpers -/

theorem hasPre_iff_append (p : List Char) :
    ∀ u, hasPre p u = true ↔ ∃ r, u = p ++ r := by
  induction p with
  | nil => intro u; simp [hasPre]
  | cons c cs ih =>
    intro u
    cases u with
    | nil => simp [hasPre]
    | cons d ds =>
      simp only [hasPre, Bool.and_eq_true, decide_eq_true_eq, ih, List.cons_append,
        List.cons.injEq]
      constructor
      · rintro ⟨rfl, r, rfl⟩; exact ⟨r, rfl, rfl⟩
      · rintro ⟨r, rfl, rfl⟩; exact ⟨rfl, r, rfl⟩

theorem splitOnce_eq_some_iff (sep : Char) :
    ∀ s a b, splitOnce sep s = some (a, b) ↔ (s = a ++ sep :: b ∧ a.contains sep = false) := by
  intro s
  induction s with
  | nil =>
    intro a b
    simp only [splitOnce]
    constructor
    · intro h; cases h
    · rintro ⟨h, -⟩; exact absurd h (by simp)
  | cons c cs ih =>
    intro a b
    simp only [splitOnce]
    by_cases hc : c = sep
    · subst hc
      simp only [if_pos rfl]
      constructor
      · rintro h
        injection h with h
        injection h with h1 h2
        subst h1; subst h2
        simp
      · rintro ⟨h, hcont⟩
        cases a with
        | nil => simp at h; simp [h]
        | cons a0 at' =>
          simp only [List.cons_append, List.cons.injEq] at h
          obtain ⟨rfl, -⟩ := h
          simp [List.contains_cons] at hcont
    · simp only [if_neg hc]
      cases hs : splitOnce sep cs with
      | none =>
        constructor
        · intro h; cases h
        · rintro ⟨h, hcont⟩
          exfalso
          cases a with
          | nil =>
            simp only [List.nil_append, List.cons.injEq] at h
            exact hc h.1
          | cons a0 at' =>
            simp only [List.cons_append, List.cons.injEq] at h
            obtain ⟨rfl, htl⟩ := h
            simp only [List.contains_cons, Bool.or_eq_false_iff] at hcont
            have := (ih at' b).mpr ⟨htl, hcont.2⟩
            rw [hs] at this; cases this
      | some p =>
        obtain ⟨a', b'⟩ := p
        have hchar := ih a' b'
        rw [hs] at hchar
        obtain ⟨h1, h2⟩ := hchar.mp rfl
        constructor
        · intro h
          injection h with h
          injection h with h3 h4
          subst h3; subst h4
          constructor
          · simp [h1]
          · simp only [List.contains_cons, Bool.or_eq_false_iff]
            refine ⟨?_, h2⟩
            simp only [beq_eq_false_iff_ne, ne_eq]
            exact fun hh => hc hh.symm
        · rintro ⟨h, hcont⟩
          cases a with
          | nil =>
            simp only [List.nil_append, List.cons.injEq] at h
            exact absurd h.1 hc
          | cons a0 at' =>
            simp only [List.cons_append, List.cons.injEq] at h
            obtain ⟨rfl, htl⟩ := h
            simp only [List.contains_cons, Bool.or_eq_false_iff] at hcont
            have := (ih at' b).mpr ⟨htl, hcont.2⟩
            rw [hs] at this
            injection this with this
            injection this with h5 h6
            subst h5; subst h6
            rfl

theorem getA_setA [DecidableEq K] (d : List (K × V)) (k k' : K) (v : V) :
    getA (setA d k v) k' = if k' = k then some v else getA d k' := by
  induction d with
  | nil =>
    simp only [setA, getA]
    by_cases h : k = k'
    · rw [if_pos h, if_pos h.symm]
    · rw [if_neg h, if_neg fun hh => h hh.symm]
  | cons kv t ih =>
    obtain ⟨k0, v0⟩ := kv
    simp only [setA]
    by_cases h0 : k0 = k
    · subst h0
      simp only [if_pos rfl, getA]
      by_cases h1 : k0 = k'
      · subst h1; simp
      · rw [if_neg h1, if_neg h1, if_neg fun hh => h1 hh.symm]
    · rw [if_neg h0]
      simp only [getA]
      by_cases h1 : k0 = k'
      · subst h1
        rw [if_pos rfl, if_pos rfl, if_neg h0]
      · rw [if_neg h1, if_neg h1, ih]

theorem keys_setA_of_mem [DecidableEq K] (d : List (K × V)) (k : K) (v : V)
    (h : memA d k = true) : (setA d k v).map Prod.fst = d.map Prod.fst := by
  induction d with
  | nil => simp [memA, getA] at h
  | cons kv t ih =>
    obtain ⟨k0, v0⟩ := kv
    simp only [setA]
    by_cases h0 : k0 = k
    · subst h0; simp
    · rw [if_neg h0]
      simp only [List.map_cons, List.cons.injEq, true_and]
      apply ih
      simpa [memA, getA, if_neg h0] using h

theorem memA_setA [DecidableEq K] (d : List (K × V)) (k k' : K) (v : V) :
    memA (setA d k v) k' = (k' = k || memA d k') := by
  simp only [memA, getA_setA]
  by_cases h : k' = k <;> simp [h]

theorem endsW_iff_suffix (u s : List Char) :
    endsW u s = true ↔ s.IsSuffix u := by
  rw [endsW, hasPre_iff_append]
  constructor
  · rintro ⟨r, hr⟩
    refine ⟨r.reverse, ?_⟩
    have := congrArg List.reverse hr
    simp at this
    exact this.symm
  · rintro ⟨r, rfl⟩
    exact ⟨r.reverse, by simp⟩

/-! ## C2: the location resolver -/

/-- C2 (amended): the resolver succeeds, yielding a (container, path) pair,
exactly when the location identifier is the fixed scheme prefix followed by a
slash-free container segment, a slash, and a path segment — either segment
may be empty; a missing prefix or missing separator raises `ValueError`
(ValidationError) with the respective message before any fetch is attempted.
The original claim's requirement that empty segments be rejected does not
hold (see the counterexample). -/
theorem parseS3Url_characterization :
    (∀ u b k, parseS3Url u = Except.ok (b, k) ↔
      (u = "s3://".data ++ b ++ '/' :: k ∧ b.contains '/' = false)) ∧
    (∀ u, hasPre ("s3://".data) u = false →
      parseS3Url u = Except.error (PyErr.valueError ("Invalid S3 URL: Must start with 's3://'".data))) ∧
    (∀ u, hasPre ("s3://".data) u = true → (u.drop 5).contains '/' = false →
      parseS3Url u =
        Except.error (PyErr.valueError ("Invalid S3 URL: Must be in the form s3://bucket/key".data))) := by
  refine ⟨?_, ?_, ?_⟩
  · intro u b k
    constructor
    · intro h
      rw [parseS3Url] at h
      by_cases hp : hasPre ("s3://".data) u = true
      · rw [hp] at h
        simp only [Bool.not_true, Bool.false_eq_true, if_false] at h
        cases hs : splitOnce '/' (u.drop 5) with
        | none => rw [hs] at h; cases h
        | some p =>
          obtain ⟨b', k'⟩ := p
          rw [hs] at h
          injection h with h
          injection h with h1 h2
          subst h1; subst h2
          obtain ⟨r, rfl⟩ := (hasPre_iff_append _ _).mp hp
          have hdrop : (("s3://".data ++ r).drop 5) = r := by
            have : ("s3://".data).length = 5 := rfl
            rw [← this, List.drop_left]
          rw [hdrop] at hs
          obtain ⟨rfl, hcont⟩ := (splitOnce_eq_some_iff _ _ _ _).mp hs
          exact ⟨by simp, hcont⟩
      · rw [Bool.not_eq_true] at hp
        rw [hp] at h
        simp only [Bool.not_false, if_true] at h
        cases h
    · rintro ⟨rfl, hcont⟩
      have hp : hasPre ("s3://".data) ("s3://".data ++ b ++ '/' :: k) = true := by
        rw [hasPre_iff_append]
        exact ⟨b ++ '/' :: k, by simp⟩
      rw [parseS3Url, hp]
      simp only [Bool.not_true, Bool.false_eq_true, if_false]
      have hdrop : (("s3://".data ++ b ++ '/' :: k).drop 5) = b ++ '/' :: k := by
        have h5 : ("s3://".data).length = 5 := rfl
        rw [List.append_assoc, ← h5, List.drop_left]
      rw [hdrop, (splitOnce_eq_some_iff '/' (b ++ '/' :: k) b k).mpr ⟨rfl, hcont⟩]
  · intro u hp
    rw [parseS3Url, hp]
    simp
  · intro u hp hs
    rw [parseS3Url, hp]
    simp only [Bool.not_true, Bool.false_eq_true, if_false]
    cases hsplit : splitOnce '/' (u.drop 5) with
    | none => rfl
    | some p =>
      obtain ⟨a, b⟩ := p
      obtain ⟨heq, -⟩ := (splitOnce_eq_some_iff _ _ _ _).mp hsplit
      rw [heq] at hs
      simp at hs

/-- C2 counterexample: a location identifier with an empty container segment,
which the claim says must raise a ValidationError, is accepted by the code
and resolves to an empty container name. -/
theorem parseS3Url_counterexample :
    parseS3Url ("s3:///x".data) = Except.ok ([], ['x']) := by
  rfl

/-- C2 witness: the characterization applied at concrete identifiers, one per
branch. -/
theorem parseS3Url_characterization_witness :
    parseS3Url ("s3://bucket/key.csv".data) = Except.ok ("bucket".data, "key.csv".data) ∧
    parseS3Url ("invalid_url".data) =
      Except.error (PyErr.valueError ("Invalid S3 URL: Must start with 's3://'".data)) ∧
    parseS3Url ("s3://bucket".data) =
      Except.error (PyErr.valueError ("Invalid S3 URL: Must be in the form s3://bucket/key".data)) :=
  ⟨(parseS3Url_characterization.1 _ _ _).mpr (by decide),
   parseS3Url_characterization.2.1 _ (by decide),
   parseS3Url_characterization.2.2 _ (by decide) (by decide)⟩

/-! ## C5: the columnar transform -/

theorem setCol_as_map (t : PqTable) (name : List Char) :
    setCol t name =
      ⟨t.cols.map fun nc => if nc.1 = name then (nc.1, redactedCol nc.2) else nc⟩ := by
  rfl

theorem obfuscate_parquet_as_map (pii : List (List Char)) :
    ∀ t : PqTable, obfuscate_parquet t pii =
      ⟨t.cols.map fun nc => if pii.contains nc.1 then (nc.1, redactedCol nc.2) else nc⟩ := by
  induction pii with
  | nil =>
    intro t
    obtain ⟨cols⟩ := t
    simp only [obfuscate_parquet, List.foldl_nil, List.contains_nil, Bool.false_eq_true,
      if_false, PqTable.mk.injEq]
    exact (List.map_id' cols).symm
  | cons f rest ih =>
    intro t
    have hstep : obfuscate_parquet t (f :: rest) =
        obfuscate_parquet (if (colNames t).contains f then setCol t f else t) rest := by
      simp only [obfuscate_parquet, List.foldl_cons]
    rw [hstep, ih]
    by_cases h : (colNames t).contains f = true
    · rw [if_pos h, setCol_as_map]
      simp only [List.map_map, PqTable.mk.injEq]
      apply List.map_congr_left
      intro nc _
      by_cases hf : nc.1 = f
      · have hbeq : (nc.1 == f) = true := beq_iff_eq.mpr hf
        have hidem : redactedCol (redactedCol nc.2) = redactedCol nc.2 := by
          simp [redactedCol]
        simp only [Function.comp_apply, if_pos hf, List.contains_cons, hbeq, Bool.true_or,
          hidem]
        by_cases hr : rest.contains nc.1 = true
        · simp [hr]
        · simp [hr]
      · have hbeq : (nc.1 == f) = false := by
          simp only [beq_eq_false_iff_ne, ne_eq]
          exact hf
        simp only [Function.comp_apply, if_neg hf, List.contains_cons, hbeq, Bool.false_or]
    · rw [Bool.not_eq_true] at h
      rw [if_neg (by rw [h]; exact Bool.false_ne_true)]
      simp only [PqTable.mk.injEq]
      apply List.map_congr_left
      intro nc hnc
      have hf : (nc.1 == f) = false := by
        simp only [beq_eq_false_iff_ne, ne_eq]
        intro hh
        have hmem : f ∈ colNames t := by
          rw [← hh]
          exact List.mem_map_of_mem Prod.fst hnc
        have hcont : (colNames t).contains f = true := List.elem_iff.mpr hmem
        rw [h] at hcont; cases hcont
      simp only [List.contains_cons, hf, Bool.false_or]

/-- C5: for every columnar table and target-field list, the transform turns
each column whose name is in the target list into an object-dtype column of
markers of the same row count (type widened to text), leaves every other
column exactly as it was (values and dtype), and preserves the column names,
the column order and the per-column row count. -/
theorem obfuscate_parquet_spec (t : PqTable) (pii : List (List Char)) :
    obfuscate_parquet t pii =
      ⟨t.cols.map fun nc => if pii.contains nc.1 then (nc.1, redactedCol nc.2) else nc⟩ ∧
    colNames (obfuscate_parquet t pii) = colNames t ∧
    (obfuscate_parquet t pii).cols.map (fun nc => nc.2.vals.length) =
      t.cols.map (fun nc => nc.2.vals.length) ∧
    (∀ name col, (name, col) ∈ t.cols → pii.contains name = false →
      (name, col) ∈ (obfuscate_parquet t pii).cols) ∧
    (∀ name col, (name, col) ∈ (obfuscate_parquet t pii).cols → pii.contains name = true →
      col.dtype = "object".data ∧ ∀ v ∈ col.vals, v = PqVal.str marker) := by
  have hmain := obfuscate_parquet_as_map pii t
  refine ⟨hmain, ?_, ?_, ?_, ?_⟩
  · rw [hmain]
    simp only [colNames, List.map_map]
    apply List.map_congr_left
    intro nc _
    by_cases h : nc.1 ∈ pii <;> simp [h]
  · rw [hmain]
    simp only [List.map_map]
    apply List.map_congr_left
    intro nc _
    by_cases h : nc.1 ∈ pii <;> simp [h, redactedCol]
  · intro name col hmem hni
    rw [hmain]
    simp only [List.mem_map]
    refine ⟨(name, col), hmem, ?_⟩
    have hnm : name ∉ pii := by
      intro hm
      have hc : pii.contains name = true := List.elem_eq_true_of_mem hm
      rw [hni] at hc; cases hc
    simp [hnm]
  · intro name col hmem hyes
    rw [hmain] at hmem
    simp only [List.mem_map] at hmem
    obtain ⟨nc, hnc, heq⟩ := hmem
    by_cases h : pii.contains nc.1 = true
    · rw [if_pos h] at heq
      have h2 : redactedCol nc.2 = col := congrArg Prod.snd heq
      refine ⟨?_, ?_⟩
      · rw [← h2]; rfl
      · intro v hv
        rw [← h2] at hv
        simp only [redactedCol] at hv
        exact List.eq_of_mem_replicate hv
    · rw [if_neg h] at heq
      have h1 : nc.1 = name := congrArg Prod.fst heq
      rw [h1] at h
      exact absurd hyes h

/-- C5 witness: the per-column facts applied at a concrete two-column table. -/
theorem obfuscate_parquet_spec_witness :
    ("id".data, PqCol.mk ("int64".data) [PqVal.int 1, PqVal.int 2]) ∈
      (obfuscate_parquet
        ⟨[("id".data, ⟨"int64".data, [PqVal.int 1, PqVal.int 2]⟩),
          ("name".data, ⟨"object".data, [PqVal.str ("John".data), PqVal.str ("Jane".data)]⟩)]⟩
        ["name".data]).cols :=
  (obfuscate_parquet_spec _ _).2.2.2.1 _ _ (by decide) (by decide)

/-! ## C10 and C6: the entry point -/

theorem extractStrList_map_str (pii : List (List Char)) :
    extractStrList (pii.map JVal.str) = Except.ok pii := by
  induction pii with
  | nil => rfl
  | cons f t ih => simp [extractStrList, ih, Except.map]

/-- C10: for every request object parsed from the input JSON that lacks the
`file_to_obfuscate` key, or has it but lacks the `pii_fields` key, the entry
point raises `KeyError` naming that key — an error kind outside the spec's
taxonomy — regardless of the fetch capability (so before any fetch) and
before any location validation (the present key's value is not inspected). -/
theorem obfuscate_file_missing_keys :
    ∀ (fetch : List Char → List Char → Except PyErr ByteStream) (s : List Char)
      (kvs : List (List Char × JVal)),
      parseJsonTop s = some (JVal.obj kvs) →
      (getA kvs ("file_to_obfuscate".data) = none →
        obfuscate_file fetch s = Except.error (PyErr.keyError ("file_to_obfuscate".data))) ∧
      (∀ u, getA kvs ("file_to_obfuscate".data) = some u →
        getA kvs ("pii_fields".data) = none →
        obfuscate_file fetch s = Except.error (PyErr.keyError ("pii_fields".data))) := by
  intro fetch s kvs hparse
  constructor
  · intro hurl
    simp only [obfuscate_file, hparse, hurl]
  · intro u hurl hpii
    simp only [obfuscate_file, hparse, hurl, hpii]

/-- C10 witness: a concrete empty request object, and a concrete request
with only the location key (whose value is not even a valid location),
under an arbitrary concrete fetch capability. -/
theorem obfuscate_file_missing_keys_witness :
    obfuscate_file (fun _ _ => Except.ok (ByteStream.text [])) ("\x7b\x7d".data) =
      Except.error (PyErr.keyError ("file_to_obfuscate".data)) ∧
    obfuscate_file (fun _ _ => Except.ok (ByteStream.text []))
        ("\x7b\"file_to_obfuscate\": \"invalid_url\"\x7d".data) =
      Except.error (PyErr.keyError ("pii_fields".data)) :=
  ⟨(obfuscate_file_missing_keys _ _ [] (by rfl)).1 (by rfl),
   (obfuscate_file_missing_keys _ _ [("file_to_obfuscate".data, JVal.str ("invalid_url".data))]
      (by rfl)).2 _ (by rfl) (by rfl)⟩

/-- C6: for every resolved and fetched request, the dispatcher selects the
transform by a case-sensitive suffix match of the path against `.csv`,
`.json`, `.parquet` in that order: a `.csv` path goes to the delimited-text
transform, a `.json` path to the record-list transform, a `.parquet` path to
the columnar transform, and a path matching none of the three suffixes fails
with the unsupported-file-type `ValueError` (UnsupportedFormatError). -/
theorem obfuscate_file_dispatch :
    ∀ (fetch : List Char → List Char → Except PyErr ByteStream) (s : List Char)
      (kvs : List (List Char × JVal)) (u : List Char) (pii : List (List Char))
      (bucket key : List Char) (content : ByteStream),
      parseJsonTop s = some (JVal.obj kvs) →
      getA kvs ("file_to_obfuscate".data) = some (JVal.str u) →
      getA kvs ("pii_fields".data) = some (JVal.arr (pii.map JVal.str)) →
      parseS3Url u = Except.ok (bucket, key) →
      fetch bucket key = Except.ok content →
      ((".csv".data.IsSuffix key → ∀ txt, content = ByteStream.text txt →
          obfuscate_file fetch s = (obfuscate_csv txt pii).map ByteStream.text) ∧
       (¬ ".csv".data.IsSuffix key → ".json".data.IsSuffix key →
          ∀ txt, content = ByteStream.text txt →
          obfuscate_file fetch s = (obfuscate_json txt pii).map ByteStream.text) ∧
       (¬ ".csv".data.IsSuffix key → ¬ ".json".data.IsSuffix key →
          ".parquet".data.IsSuffix key → ∀ tbl, content = ByteStream.parquetTable tbl →
          obfuscate_file fetch s =
            Except.ok (ByteStream.parquetTable (obfuscate_parquet tbl pii))) ∧
       (¬ ".csv".data.IsSuffix key → ¬ ".json".data.IsSuffix key →
          ¬ ".parquet".data.IsSuffix key →
          obfuscate_file fetch s = Except.error (PyErr.valueError
            ("Unsupported file type. Only CSV, JSON, and Parquet are supported.".data)))) := by
  intro fetch s kvs u pii bucket key content hparse hurl hpii hs3 hfetch
  refine ⟨?_, ?_, ?_, ?_⟩
  · intro hcsv txt hct
    subst hct
    have h1 : endsW key (".csv".data) = true := (endsW_iff_suffix _ _).mpr hcsv
    simp only [obfuscate_file, hparse, hurl, hpii, extractStrList_map_str, hs3, hfetch, h1,
      if_true]
  · intro hncsv hjson txt hct
    subst hct
    have h1 : endsW key (".csv".data) = false := by
      rw [← Bool.not_eq_true, endsW_iff_suffix]
      exact hncsv
    have h2 : endsW key (".json".data) = true := (endsW_iff_suffix _ _).mpr hjson
    simp only [obfuscate_file, hparse, hurl, hpii, extractStrList_map_str, hs3, hfetch, h1, h2,
      Bool.false_eq_true, if_false, if_true]
  · intro hncsv hnjson hpq tbl hct
    subst hct
    have h1 : endsW key (".csv".data) = false := by
      rw [← Bool.not_eq_true, endsW_iff_suffix]
      exact hncsv
    have h2 : endsW key (".json".data) = false := by
      rw [← Bool.not_eq_true, endsW_iff_suffix]
      exact hnjson
    have h3 : endsW key (".parquet".data) = true := (endsW_iff_suffix _ _).mpr hpq
    simp only [obfuscate_file, hparse, hurl, hpii, extractStrList_map_str, hs3, hfetch, h1, h2,
      h3, Bool.false_eq_true, if_false, if_true]
  · intro hncsv hnjson hnpq
    have h1 : endsW key (".csv".data) = false := by
      rw [← Bool.not_eq_true, endsW_iff_suffix]
      exact hncsv
    have h2 : endsW key (".json".data) = false := by
      rw [← Bool.not_eq_true, endsW_iff_suffix]
      exact hnjson
    have h3 : endsW key (".parquet".data) = false := by
      rw [← Bool.not_eq_true, endsW_iff_suffix]
      exact hnpq
    simp only [obfuscate_file, hparse, hurl, hpii, extractStrList_map_str, hs3, hfetch, h1, h2,
      h3, Bool.false_eq_true, if_false]

/-- C6 witness: the spec's own scenario, a `data/file.txt` path (which also
exercises case-sensitivity indirectly: no lowercase suffix matches), reaches
the UnsupportedFormatError branch. -/
theorem obfuscate_file_dispatch_witness :
    obfuscate_file (fun _ _ => Except.ok (ByteStream.text ("some content".data)))
        ("\x7b\"file_to_obfuscate\": \"s3://bucket/data/file.txt\", \"pii_fields\": []\x7d".data) =
      Except.error (PyErr.valueError
        ("Unsupported file type. Only CSV, JSON, and Parquet are supported.".data)) :=
  (obfuscate_file_dispatch _ _
      [("file_to_obfuscate".data, JVal.str ("s3://bucket/data/file.txt".data)),
       ("pii_fields".data, JVal.arr [])]
      ("s3://bucket/data/file.txt".data) [] ("bucket".data) ("data/file.txt".data)
      (ByteStream.text ("some content".data))
      (by rfl) (by rfl) (by rfl) (by rfl) (by rfl)).2.2.2
    (by decide) (by decide) (by decide)

/-! ## C9: the missing-header error -/

theorem csvRun_eq_nil_iff :
    ∀ (cs : List Char) (st : CsvSt),
      csvRun st cs = ([], none) → st = CsvSt.startRecord ∧ cs = [] := by
  intro cs
  induction cs with
  | nil =>
    intro st h
    cases st with
    | startRecord => exact ⟨rfl, rfl⟩
    | startField rec => simp [csvRun, csvEnd] at h
    | inField fld rec => simp [csvRun, csvEnd] at h
    | inQuoted fld rec => simp [csvRun, csvEnd] at h
    | quoteInQuoted fld rec => simp [csvRun, csvEnd] at h
    | eatCrnl rec => simp [csvRun, csvEnd] at h
  | cons c cs ih =>
    intro st h
    exfalso
    cases st <;>
      simp only [csvRun] at h <;>
      split_ifs at h <;>
      first
        | exact CsvSt.noConfusion (ih _ h).1
        | simp [consRec, Prod.ext_iff] at h

theorem obfuscate_rows_error_shape :
    ∀ (rows : List (List (List Char))) (fieldnames pii : List (List Char)) (e : PyErr),
      obfuscate_rows fieldnames pii rows = Except.error e →
      ∃ j, e = PyErr.valueError ("dict contains fields not in fieldnames: ".data ++ j) := by
  intro rows
  induction rows with
  | nil =>
    intro fieldnames pii e h
    simp [obfuscate_rows] at h
  | cons r rs ihr =>
    intro fieldnames pii e h
    rw [obfuscate_rows] at h
    rcases hw : writeDictRow fieldnames
        (redactRowDict pii (mkRowDict fieldnames r)) with e' | line
    · rw [hw] at h
      simp only [Except.error.injEq] at h
      subst h
      rw [writeDictRow] at hw
      by_cases hwrong : ((redactRowDict pii (mkRowDict fieldnames r)).map
          Prod.fst).filter (fun k =>
            match k with
            | none => true
            | some s => !(fieldnames.contains s)) = []
      · rw [if_pos hwrong] at hw
        cases hw
      · rw [if_neg hwrong] at hw
        simp only [Except.error.injEq] at hw
        exact ⟨_, hw.symm⟩
    · rw [hw] at h
      cases hrs : obfuscate_rows fieldnames pii rs with
      | error e2 =>
        rw [hrs] at h
        simp only [Except.error.injEq] at h
        subst h
        exact ihr _ _ _ hrs
      | ok lines =>
        rw [hrs] at h
        cases h

theorem wrongFields_msg_ne_header (j : List Char) :
    PyErr.valueError ("dict contains fields not in fieldnames: ".data ++ j) ≠
      PyErr.valueError ("CSV file has no header row.".data) := by
  intro h
  have h2 := PyErr.valueError.inj h
  have h3 : ('d' :: ("ict contains fields not in fieldnames: ".data ++ j)) =
      "CSV file has no header row.".data := by
    rw [← h2]
    rfl
  injection h3 with h4 h5
  exact absurd h4 (by decide)

/-- C9: empty delimited-text content (and only such content can leave the
reader without any record while raising no reader error) fails with the
missing-header `ValueError` (a FormatError); any content whose first record
exists never takes that error branch; and content with no header record
never returns output. -/
theorem obfuscate_csv_header_error :
    (∀ pii, obfuscate_csv [] pii =
      Except.error (PyErr.valueError ("CSV file has no header row.".data))) ∧
    (∀ data pii, (parseCSV data).1 ≠ [] →
      obfuscate_csv data pii ≠
        Except.error (PyErr.valueError ("CSV file has no header row.".data))) ∧
    (∀ data pii out, (parseCSV data).1 = [] → obfuscate_csv data pii ≠ Except.ok out) ∧
    (∀ data, parseCSV data = ([], none) ↔ data = []) := by
  refine ⟨?_, ?_, ?_, ?_⟩
  · intro pii
    rfl
  · intro data pii hne hcontra
    rw [obfuscate_csv] at hcontra
    rcases hps : parseCSV data with ⟨records, perr⟩
    rw [hps] at hcontra hne
    simp only at hne
    cases records with
    | nil => exact hne rfl
    | cons fieldnames rest =>
      simp only at hcontra
      cases hrows : obfuscate_rows fieldnames pii (rest.filter fun r => r ≠ []) with
      | error e =>
        rw [hrows] at hcontra
        simp only [Except.error.injEq] at hcontra
        obtain ⟨j, rfl⟩ := obfuscate_rows_error_shape _ _ _ _ hrows
        exact wrongFields_msg_ne_header j hcontra
      | ok lines =>
        rw [hrows] at hcontra
        cases perr with
        | some e2 => simp at hcontra
        | none => simp at hcontra
  · intro data pii out hnil hcontra
    rw [obfuscate_csv] at hcontra
    rcases hps : parseCSV data with ⟨records, perr⟩
    rw [hps] at hcontra hnil
    simp only at hnil
    subst hnil
    cases perr <;> simp at hcontra
  · intro data
    constructor
    · intro h
      exact (csvRun_eq_nil_iff data CsvSt.startRecord h).2
    · rintro rfl
      rfl

/-- C9 witness: the two informative branches at concrete inputs: empty
content errors, and a header-only file does not take the header branch (it
succeeds). -/
theorem obfuscate_csv_header_error_witness :
    obfuscate_csv [] ["name".data] =
      Except.error (PyErr.valueError ("CSV file has no header row.".data)) ∧
    obfuscate_csv ("id,name\n".data) ["name".data] ≠
      Except.error (PyErr.valueError ("CSV file has no header row.".data)) :=
  ⟨obfuscate_csv_header_error.1 _,
   obfuscate_csv_header_error.2.1 _ _ (by decide)⟩

/-! ## C3 and C4: the record-list transform -/

theorem processRow_obj (pii : List (List Char)) :
    ∀ kvs, processRow pii (JVal.obj kvs) = Except.ok (JVal.obj (redactObj pii kvs)) := by
  induction pii with
  | nil => intro kvs; rfl
  | cons f rest ih =>
    intro kvs
    simp only [processRow, redactStep, redactObj, List.foldl_cons]
    by_cases h : memA kvs f = true
    · rw [if_pos h, if_pos h]
      exact ih (setA kvs f (.str marker))
    · rw [if_neg h, if_neg h]
      exact ih kvs

theorem processRows_map_obj (pii : List (List Char)) :
    ∀ kvss : List (List (List Char × JVal)),
      processRows pii (kvss.map JVal.obj) =
        Except.ok ((kvss.map fun kvs => JVal.obj (redactObj pii kvs))) := by
  intro kvss
  induction kvss with
  | nil => rfl
  | cons kvs t ih =>
    simp only [List.map_cons, processRows, processRow_obj, ih]

theorem getA_redactObj (k : List Char) :
    ∀ (pii : List (List Char)) (kvs : List (List Char × JVal)),
      getA (redactObj pii kvs) k =
        if k ∈ pii ∧ (getA kvs k).isSome = true then some (JVal.str marker)
        else getA kvs k := by
  intro pii
  induction pii with
  | nil =>
    intro kvs
    simp [redactObj]
  | cons f rest ih =>
    intro kvs
    have hstep : redactObj (f :: rest) kvs =
        redactObj rest (if memA kvs f = true then setA kvs f (.str marker) else kvs) := by
      simp only [redactObj, List.foldl_cons]
    rw [hstep, ih]
    by_cases hm : memA kvs f = true
    · rw [if_pos hm]
      rw [getA_setA]
      by_cases hk : k = f
      · subst hk
        have hks : (getA kvs k).isSome = true := hm
        simp [hks]
      · rw [if_neg hk]
        by_cases hr : k ∈ rest ∧ (getA kvs k).isSome = true
      
        · rw [if_pos hr, if_pos ⟨List.mem_cons_of_mem f hr.1, hr.2⟩]
        · rw [if_neg hr]
          rw [if_neg ?hneg]
          case hneg =>
            rintro ⟨hkmem, hksome⟩
            rcases List.mem_cons.mp hkmem with h1 | h1
            · exact hk h1
            · exact hr ⟨h1, hksome⟩
    · rw [if_neg hm]
      by_cases hr : k ∈ rest ∧ (getA kvs k).isSome = true
      · rw [if_pos hr, if_pos ⟨List.mem_cons_of_mem f hr.1, hr.2⟩]
      · rw [if_neg hr]
        rw [if_neg ?hneg2]
        case hneg2 =>
          rintro ⟨hkmem, hksome⟩
          rcases List.mem_cons.mp hkmem with h1 | h1
          · subst h1
            exact hm hksome
          · exact hr ⟨h1, hksome⟩

theorem keys_redactObj :
    ∀ (pii : List (List Char)) (kvs : List (List Char × JVal)),
      (redactObj pii kvs).map Prod.fst = kvs.map Prod.fst := by
  intro pii
  induction pii with
  | nil => intro kvs; rfl
  | cons f rest ih =>
    intro kvs
    have hstep : redactObj (f :: rest) kvs =
        redactObj rest (if memA kvs f = true then setA kvs f (.str marker) else kvs) := by
      simp only [redactObj, List.foldl_cons]
    rw [hstep, ih]
    by_cases h : memA kvs f = true
    · rw [if_pos h, keys_setA_of_mem _ _ _ h]
    · rw [if_neg h]

theorem redactObj_id_of_absent (pii : List (List Char)) :
    ∀ kvs, (∀ f ∈ pii, memA kvs f = false) → redactObj pii kvs = kvs := by
  induction pii with
  | nil => intro kvs _; rfl
  | cons f rest ih =>
    intro kvs h
    have hf := h f (List.mem_cons_self f rest)
    simp only [redactObj, List.foldl_cons, hf, Bool.false_eq_true, if_false]
    exact ih kvs fun g hg => h g (List.mem_cons_of_mem f hg)

theorem redactStep_error_shape (f : List Char) (row : JVal) (e : PyErr) :
    redactStep f row = Except.error e → ∃ m, e = PyErr.typeError m := by
  intro h
  cases row with
  | obj kvs =>
    rw [redactStep] at h
    by_cases hm : memA kvs f = true
    · rw [if_pos hm] at h; cases h
    · rw [if_neg hm] at h; cases h
  | str s =>
    rw [redactStep] at h
    by_cases hm : substrB f s = true
    · rw [if_pos hm] at h
      exact ⟨_, (Except.error.inj h).symm⟩
    · rw [if_neg hm] at h; cases h
  | arr xs =>
    rw [redactStep] at h
    by_cases hm : xs.any (pyEqStr f) = true
    · rw [if_pos hm] at h
      exact ⟨_, (Except.error.inj h).symm⟩
    · rw [if_neg hm] at h; cases h
  | int n => exact ⟨_, (Except.error.inj h).symm⟩
  | bool b => exact ⟨_, (Except.error.inj h).symm⟩
  | null => exact ⟨_, (Except.error.inj h).symm⟩

theorem processRow_error_shape :
    ∀ (pii : List (List Char)) (row : JVal) (e : PyErr),
      processRow pii row = Except.error e → ∃ m, e = PyErr.typeError m := by
  intro pii
  induction pii with
  | nil => intro row e h; cases h
  | cons f rest ih =>
    intro row e h
    rw [processRow] at h
    rcases hs : redactStep f row with e' | row'
    · rw [hs] at h
      exact (Except.error.inj h) ▸ redactStep_error_shape f row e' hs
    · rw [hs] at h
      exact ih row' e h

theorem processTop_error_shape :
    ∀ (pii : List (List Char)) (v : JVal) (e : PyErr),
      processTop pii v = Except.error e → ∃ m, e = PyErr.typeError m := by
  have hrows : ∀ (pii : List (List Char)) (items : List JVal) (e : PyErr),
      processRows pii items = Except.error e → ∃ m, e = PyErr.typeError m := by
    intro pii items
    induction items with
    | nil => intro e h; cases h
    | cons r rs ih =>
      intro e h
      rw [processRows] at h
      rcases h1 : processRow pii r with e' | r'
      · rw [h1] at h
        exact (Except.error.inj h) ▸ processRow_error_shape pii r e' h1
      · rw [h1] at h
        rcases h2 : processRows pii rs with e2 | rs'
        · rw [h2] at h
          exact (Except.error.inj h) ▸ ih e2 h2
        · rw [h2] at h; cases h
  have hkeys : ∀ (pii : List (List Char)) (kvs : List (List Char × JVal)) (e : PyErr),
      checkKeys pii kvs = Except.error e → ∃ m, e = PyErr.typeError m := by
    intro pii kvs
    induction kvs with
    | nil => intro e h; cases h
    | cons kv t ih =>
      intro e h
      rw [checkKeys] at h
      rcases h1 : processRow pii (JVal.str kv.1) with e' | r'
      · rw [h1] at h
        exact (Except.error.inj h) ▸ processRow_error_shape pii _ e' h1
      · rw [h1] at h
        exact ih e h
  have hchars : ∀ (pii : List (List Char)) (s : List Char) (e : PyErr),
      checkChars pii s = Except.error e → ∃ m, e = PyErr.typeError m := by
    intro pii s
    induction s with
    | nil => intro e h; cases h
    | cons c t ih =>
      intro e h
      rw [checkChars] at h
      rcases h1 : processRow pii (JVal.str [c]) with e' | r'
      · rw [h1] at h
        exact (Except.error.inj h) ▸ processRow_error_shape pii _ e' h1
      · rw [h1] at h
        exact ih e h
  intro pii v e h
  cases v with
  | arr items =>
    rw [processTop] at h
    rcases h1 : processRows pii items with e' | items'
    · rw [h1] at h
      exact (Except.error.inj h) ▸ hrows pii items e' h1
    · rw [h1] at h; cases h
  | obj kvs =>
    rw [processTop] at h
    rcases h1 : checkKeys pii kvs with e' | u
    · rw [h1] at h
      exact (Except.error.inj h) ▸ hkeys pii kvs e' h1
    · rw [h1] at h; cases h
  | str s =>
    rw [processTop] at h
    rcases h1 : checkChars pii s with e' | u
    · rw [h1] at h
      exact (Except.error.inj h) ▸ hchars pii s e' h1
    · rw [h1] at h; cases h
  | int n => exact ⟨_, (Except.error.inj h).symm⟩
  | bool b => exact ⟨_, (Except.error.inj h).symm⟩
  | null => exact ⟨_, (Except.error.inj h).symm⟩

/-- C3 counterexample: content that parses as a mapping, not a sequence of
records, on which the claim requires a FormatError — yet the transform
succeeds and returns the document unchanged. -/
theorem dumpsJson_obj_nil : dumpsJson (JVal.obj []) = "\x7b\x7d".data := by
  simp [dumpsJson, dumpsObj, joinSep]

theorem obfuscate_json_nonlist_counterexample :
    obfuscate_json ("\x7b\x7d".data) ["name".data] = Except.ok ("\x7b\x7d".data) := by
  have hp : parseJsonTop ("\x7b\x7d".data) = some (JVal.obj []) := rfl
  have ht : processTop ["name".data] (JVal.obj []) = Except.ok (JVal.obj []) := rfl
  simp only [obfuscate_json, hp, ht, Except.map, dumpsJson_obj_nil]

/-- C3 (amended): the record-list transform fails with the
`json.JSONDecodeError` FormatError exactly when the content does not parse
as JSON at all; content parsing to a value other than a sequence of records
is not necessarily rejected — any JSON object document is accepted unchanged
whenever none of its keys trips the redaction loop, for example the empty
object under every target list (non-iterable documents instead raise a
`TypeError`, outside the FormatError kind). -/
theorem obfuscate_json_format_error_iff :
    (∀ data pii, parseJsonTop data = none →
      obfuscate_json data pii = Except.error PyErr.jsonDecodeError) ∧
    (∀ data pii v, parseJsonTop data = some v →
      obfuscate_json data pii ≠ Except.error PyErr.jsonDecodeError) ∧
    (∀ pii, obfuscate_json ("\x7b\x7d".data) pii = Except.ok ("\x7b\x7d".data)) := by
  refine ⟨?_, ?_, ?_⟩
  · intro data pii h
    rw [obfuscate_json, h]
  · intro data pii v h hcontra
    simp only [obfuscate_json, h] at hcontra
    rcases hp : processTop pii v with e | v'
    · rw [hp] at hcontra
      simp only [Except.map] at hcontra
      obtain ⟨m, rfl⟩ := processTop_error_shape pii v e hp
      cases Except.error.inj hcontra
    · rw [hp] at hcontra
      simp only [Except.map] at hcontra
      cases hcontra
  · intro pii
    have hp : parseJsonTop ("\x7b\x7d".data) = some (JVal.obj []) := rfl
    have ht : processTop pii (JVal.obj []) = Except.ok (JVal.obj []) := rfl
    simp only [obfuscate_json, hp, ht, Except.map, dumpsJson_obj_nil]

/-- C3 witness: both informative branches at concrete inputs: unparseable
content raises the FormatError, parseable non-list content does not. -/
theorem obfuscate_json_format_error_iff_witness :
    obfuscate_json ("not json".data) ["name".data] = Except.error PyErr.jsonDecodeError ∧
    obfuscate_json ("3".data) ["name".data] ≠ Except.error PyErr.jsonDecodeError :=
  ⟨obfuscate_json_format_error_iff.1 _ _ (by rfl),
   obfuscate_json_format_error_iff.2.1 _ _ (JVal.int 3) (by rfl)⟩

/-- C4: for every JSON input parsing to a sequence of mapping records and
every target list, the transform succeeds with the re-serialised sequence in
which each record is independently redacted: a key of the record that is in
the target list has its value overwritten with the string marker regardless
of its original type, every other key keeps its original value, the key set
and order of each record are unchanged, and a record containing no target
key is returned exactly as it was (even if the key occurs in another
record). -/
theorem obfuscate_json_redacts_records :
    ∀ (data : List Char) (pii : List (List Char)) (kvss : List (List (List Char × JVal))),
      parseJsonTop data = some (JVal.arr (kvss.map JVal.obj)) →
      obfuscate_json data pii =
        Except.ok (dumpsJson (JVal.arr (kvss.map fun kvs => JVal.obj (redactObj pii kvs)))) ∧
      (∀ kvs ∈ kvss, ∀ k,
        getA (redactObj pii kvs) k =
          if k ∈ pii ∧ (getA kvs k).isSome = true then some (JVal.str marker)
          else getA kvs k) ∧
      (∀ kvs ∈ kvss, (redactObj pii kvs).map Prod.fst = kvs.map Prod.fst) ∧
      (∀ kvs ∈ kvss, (∀ f ∈ pii, memA kvs f = false) → redactObj pii kvs = kvs) := by
  intro data pii kvss hparse
  refine ⟨?_, ?_, ?_, ?_⟩
  · simp only [obfuscate_json, hparse, processTop, processRows_map_obj, Except.map]
  · intro kvs _ k
    exact getA_redactObj k pii kvs
  · intro kvs _
    exact keys_redactObj pii kvs
  · intro kvs _ h
    exact redactObj_id_of_absent pii kvs h

/-- C4 witness: the two-record scenario of the repository's JSON test, with
an absent-in-one-record target field. -/
theorem obfuscate_json_redacts_records_witness :
    obfuscate_json ("[\x7b\"id\": 1, \"name\": \"John\"\x7d, \x7b\"id\": 2\x7d]".data)
        ["name".data] =
      Except.ok ("[\x7b\"id\": 1, \"name\": \"***\"\x7d, \x7b\"id\": 2\x7d]".data) := by
  have h := (obfuscate_json_redacts_records
      ("[\x7b\"id\": 1, \"name\": \"John\"\x7d, \x7b\"id\": 2\x7d]".data) ["name".data]
      [[("id".data, JVal.int 1), ("name".data, JVal.str ("John".data))],
       [("id".data, JVal.int 2)]] (by rfl)).1
  rw [h]
  have hred : (([[("id".data, JVal.int 1), ("name".data, JVal.str ("John".data))],
      [("id".data, JVal.int 2)]].map fun kvs => JVal.obj (redactObj ["name".data] kvs))) =
      [JVal.obj [("id".data, JVal.int 1), ("name".data, JVal.str marker)],
       JVal.obj [("id".data, JVal.int 2)]] := by
    rfl
  rw [hred]
  simp only [dumpsJson, dumpsArr, dumpsObj, dumpJStr, joinSep, intToChars, marker]
  have h1 : natToChars 1 = ['1'] := by rw [natToChars]; rfl
  have h2 : natToChars 2 = ['2'] := by rw [natToChars]; rfl
  rw [h1, h2]
  have hesc : ∀ s : List Char, (∀ c ∈ s, 32 ≤ c.toNat ∧ c.toNat ≤ 126 ∧ c ≠ '"' ∧ c ≠ '\\') →
      (s.map escJChar).flatten = s := by
    intro s hs
    induction s with
    | nil => rfl
    | cons c t iht =>
      obtain ⟨hc1, hc2, hc3, hc4⟩ := hs c (List.mem_cons_self c t)
      simp only [List.map_cons, List.flatten_cons,
        iht fun d hd => hs d (List.mem_cons_of_mem c hd)]
      rw [escJChar, if_neg hc3, if_neg hc4]
      have hn : c ≠ '\n' := by intro hh; subst hh; simp at hc1
      have hr : c ≠ '\r' := by intro hh; subst hh; simp at hc1
      have ht' : c ≠ '\t' := by intro hh; subst hh; simp at hc1
      rw [if_neg hn, if_neg hr, if_neg ht']
      rw [if_neg (by omega), if_neg (by omega), if_pos ⟨hc1, hc2⟩]
      rfl
  rw [hesc ("id".data) (by decide), hesc ("name".data) (by decide),
    hesc ("***".data) (by decide)]
  rfl

/-! ## CSV writer/reader round trip -/

theorem step_startRecord (c : Char) (cs : List Char) (h1 : c ≠ '\n') (h2 : c ≠ '\r') :
    csvRun .startRecord (c :: cs) = csvRun (.startField []) (c :: cs) := by
  simp only [csvRun]
  rw [if_neg h1, if_neg h2, if_neg h1, if_neg h2]
  by_cases h3 : c = '"'
  · rw [if_pos h3, if_pos h3]
  · rw [if_neg h3, if_neg h3]
    by_cases h4 : c = ','
    · rw [if_pos h4, if_pos h4]
      simp
    · rw [if_neg h4, if_neg h4]

theorem step_startField_quote (rec : List (List Char)) (cs : List Char) :
    csvRun (.startField rec) ('"' :: cs) = csvRun (.inQuoted [] rec) cs := by
  rfl

theorem step_startField_comma (rec : List (List Char)) (cs : List Char) :
    csvRun (.startField rec) (',' :: cs) = csvRun (.startField (rec ++ [[]])) cs := by
  rfl

theorem step_startField_cr (rec : List (List Char)) (cs : List Char) :
    csvRun (.startField rec) ('\r' :: cs) = csvRun (.eatCrnl (rec ++ [[]])) cs := by
  rfl

theorem step_startField_other (c : Char) (rec : List (List Char)) (cs : List Char)
    (h1 : c ≠ '\n') (h2 : c ≠ '\r') (h3 : c ≠ '"') (h4 : c ≠ ',') :
    csvRun (.startField rec) (c :: cs) = csvRun (.inField [c] rec) cs := by
  simp only [csvRun]
  rw [if_neg h1, if_neg h2, if_neg h3, if_neg h4]

theorem step_inField_comma (fld : List Char) (rec : List (List Char)) (cs : List Char) :
    csvRun (.inField fld rec) (',' :: cs) = csvRun (.startField (rec ++ [fld])) cs := by
  rfl

theorem step_inField_cr (fld : List Char) (rec : List (List Char)) (cs : List Char) :
    csvRun (.inField fld rec) ('\r' :: cs) = csvRun (.eatCrnl (rec ++ [fld])) cs := by
  rfl

theorem step_inField_other (c : Char) (fld : List Char) (rec : List (List Char))
    (cs : List Char) (h1 : c ≠ '\n') (h2 : c ≠ '\r') (h4 : c ≠ ',') :
    csvRun (.inField fld rec) (c :: cs) = csvRun (.inField (fld ++ [c]) rec) cs := by
  simp only [csvRun]
  rw [if_neg h1, if_neg h2, if_neg h4]

theorem step_inQuoted_quote (fld : List Char) (rec : List (List Char)) (cs : List Char) :
    csvRun (.inQuoted fld rec) ('"' :: cs) = csvRun (.quoteInQuoted fld rec) cs := by
  rfl

theorem step_inQuoted_other (c : Char) (fld : List Char) (rec : List (List Char))
    (cs : List Char) (h : c ≠ '"') :
    csvRun (.inQuoted fld rec) (c :: cs) = csvRun (.inQuoted (fld ++ [c]) rec) cs := by
  simp only [csvRun]
  rw [if_neg h]

theorem step_quoteInQuoted_quote (fld : List Char) (rec : List (List Char)) (cs : List Char) :
    csvRun (.quoteInQuoted fld rec) ('"' :: cs) = csvRun (.inQuoted (fld ++ ['"']) rec) cs := by
  rfl

theorem step_quoteInQuoted_comma (fld : List Char) (rec : List (List Char)) (cs : List Char) :
    csvRun (.quoteInQuoted fld rec) (',' :: cs) = csvRun (.startField (rec ++ [fld])) cs := by
  rfl

theorem step_quoteInQuoted_cr (fld : List Char) (rec : List (List Char)) (cs : List Char) :
    csvRun (.quoteInQuoted fld rec) ('\r' :: cs) = csvRun (.eatCrnl (rec ++ [fld])) cs := by
  rfl

theorem step_eatCrnl_lf (rec : List (List Char)) (cs : List Char) :
    csvRun (.eatCrnl rec) ('\n' :: cs) = consRec rec (csvRun .startRecord cs) := by
  rfl

theorem csvRun_inField_safe :
    ∀ (xs : List Char), (∀ c ∈ xs, c ≠ ',' ∧ c ≠ '\r' ∧ c ≠ '\n') →
    ∀ fld rec rest,
      csvRun (.inField fld rec) (xs ++ rest) = csvRun (.inField (fld ++ xs) rec) rest := by
  intro xs
  induction xs with
  | nil =>
    intro _ fld rec rest
    simp
  | cons x t ih =>
    intro hsafe fld rec rest
    obtain ⟨h1, h2, h3⟩ := hsafe x (List.mem_cons_self x t)
    rw [List.cons_append, step_inField_other x fld rec _ h3 h2 h1,
      ih (fun c hc => hsafe c (List.mem_cons_of_mem x hc))]
    simp

theorem csvRun_inQuoted_escQ :
    ∀ (xs : List Char) (fld : List Char) (rec : List (List Char)) (rest : List Char),
      csvRun (.inQuoted fld rec) (escQ xs ++ '"' :: rest) =
        csvRun (.quoteInQuoted (fld ++ xs) rec) rest := by
  intro xs
  induction xs with
  | nil =>
    intro fld rec rest
    rw [show escQ [] = [] from rfl, List.nil_append, step_inQuoted_quote]
    simp
  | cons x t ih =>
    intro fld rec rest
    by_cases hx : x = '"'
    · subst hx
      rw [show escQ ('"' :: t) = '"' :: '"' :: escQ t from rfl, List.cons_append,
        List.cons_append, step_inQuoted_quote, step_quoteInQuoted_quote, ih]
      simp
    · rw [show escQ (x :: t) = x :: escQ t from by simp [escQ, hx], List.cons_append,
        step_inQuoted_other x fld rec _ hx, ih]
      simp

theorem needsQuote_false_safe (f : List Char) (h : needsQuote f = false) :
    ∀ c ∈ f, c ≠ ',' ∧ c ≠ '"' ∧ c ≠ '\r' ∧ c ≠ '\n' := by
  intro c hc
  rw [needsQuote, List.any_eq_false] at h
  have := h c hc
  simp only [Bool.or_eq_true, decide_eq_true_eq] at this
  push_neg at this
  exact ⟨this.1.1.1, this.1.1.2, this.1.2, this.2⟩

theorem csvRun_field_comma (f : List Char) (rec : List (List Char)) (rest : List Char) :
    csvRun (.startField rec) (quoteField f ++ ',' :: rest) =
      csvRun (.startField (rec ++ [f])) rest := by
  by_cases hq : needsQuote f = true
  · rw [quoteField, if_pos hq, List.cons_append, List.append_assoc, List.cons_append,
      List.nil_append, step_startField_quote, csvRun_inQuoted_escQ, List.nil_append,
      step_quoteInQuoted_comma]
  · rw [Bool.not_eq_true] at hq
    rw [quoteField, if_neg (by rw [hq]; exact Bool.false_ne_true)]
    cases f with
    | nil =>
      rw [List.nil_append, step_startField_comma]
    | cons c t =>
      obtain ⟨h1, h2, h3, h4⟩ := needsQuote_false_safe _ hq c (List.mem_cons_self c t)
      rw [List.cons_append, step_startField_other c rec _ h4 h3 h2 h1,
        csvRun_inField_safe t
          (fun e he =>
            let hs := needsQuote_false_safe _ hq e (List.mem_cons_of_mem c he)
            ⟨hs.1, hs.2.2.1, hs.2.2.2⟩),
        step_inField_comma]
      simp

theorem csvRun_field_cr (f : List Char) (rec : List (List Char)) (rest : List Char) :
    csvRun (.startField rec) (quoteField f ++ '\r' :: rest) =
      csvRun (.eatCrnl (rec ++ [f])) rest := by
  by_cases hq : needsQuote f = true
  · rw [quoteField, if_pos hq, List.cons_append, List.append_assoc, List.cons_append,
      List.nil_append, step_startField_quote, csvRun_inQuoted_escQ, List.nil_append,
      step_quoteInQuoted_cr]
  · rw [Bool.not_eq_true] at hq
    rw [quoteField, if_neg (by rw [hq]; exact Bool.false_ne_true)]
    cases f with
    | nil =>
      rw [List.nil_append, step_startField_cr]
    | cons c t =>
      obtain ⟨h1, h2, h3, h4⟩ := needsQuote_false_safe _ hq c (List.mem_cons_self c t)
      rw [List.cons_append, step_startField_other c rec _ h4 h3 h2 h1,
        csvRun_inField_safe t
          (fun e he =>
            let hs := needsQuote_false_safe _ hq e (List.mem_cons_of_mem c he)
            ⟨hs.1, hs.2.2.1, hs.2.2.2⟩),
        step_inField_cr]
      simp

theorem csvRun_cells :
    ∀ (cells : List (List Char)), cells ≠ [] →
    ∀ (rec : List (List Char)) (rest : List Char),
      csvRun (.startField rec)
          (joinSep [','] (cells.map quoteField) ++ '\r' :: '\n' :: rest) =
        consRec (rec ++ cells) (csvRun .startRecord rest) := by
  intro cells
  induction cells with
  | nil => intro h; exact absurd rfl h
  | cons f t ih =>
    intro _ rec rest
    cases t with
    | nil =>
      rw [show joinSep [','] ([f].map quoteField) = quoteField f from rfl,
        csvRun_field_cr, step_eatCrnl_lf]
    | cons g t2 =>
      have hjoin : joinSep [','] ((f :: g :: t2).map quoteField) =
          quoteField f ++ ',' :: joinSep [','] ((g :: t2).map quoteField) := by
        simp [joinSep]
      rw [hjoin]
      have hassoc : (quoteField f ++ ',' :: joinSep [','] ((g :: t2).map quoteField))
          ++ '\r' :: '\n' :: rest =
          quoteField f ++ ',' :: (joinSep [','] ((g :: t2).map quoteField)
            ++ '\r' :: '\n' :: rest) := by
        simp
      rw [hassoc, csvRun_field_comma, ih (by simp)]
      simp

theorem csvRun_writeLine :
    ∀ (cells : List (List Char)), cells ≠ [] →
    ∀ (rest : List Char),
      csvRun .startRecord (writeLine cells ++ rest) =
        consRec cells (csvRun .startRecord rest) := by
  intro cells hne rest
  by_cases hsingle : cells = [[]]
  · subst hsingle
    rw [show writeLine [[]] = '"' :: '"' :: '\r' :: '\n' :: [] from rfl]
    rw [show ('"' :: '"' :: '\r' :: '\n' :: []) ++ rest
        = '"' :: '"' :: '\r' :: '\n' :: rest from rfl]
    rw [show csvRun .startRecord ('"' :: '"' :: '\r' :: '\n' :: rest)
        = csvRun (.inQuoted [] []) ('"' :: '\r' :: '\n' :: rest) from rfl,
      step_inQuoted_quote, step_quoteInQuoted_cr, step_eatCrnl_lf]
    simp
  · rw [writeLine, if_neg hsingle]
    have hshift : csvRun .startRecord
        ((joinSep [','] (cells.map quoteField) ++ ['\r', '\n']) ++ rest) =
        csvRun (.startField [])
          ((joinSep [','] (cells.map quoteField) ++ ['\r', '\n']) ++ rest) := by
      cases cells with
      | nil => exact absurd rfl hne
      | cons f t =>
        have hbody : ∃ x xs, joinSep [','] ((f :: t).map quoteField) ++ ['\r', '\n'] ++ rest
            = x :: xs ∧ x ≠ '\r' ∧ x ≠ '\n' := by
          by_cases hq : needsQuote f = true
          · refine ⟨'"', escQ f ++ ['"'] ++
              (match t with
               | [] => []
               | g :: t2 => ',' :: joinSep [','] ((g :: t2).map quoteField)) ++ '\r' :: '\n' :: rest,
              ?_, by decide, by decide⟩
            cases t with
            | nil => simp [joinSep, quoteField, hq]
            | cons g t2 => simp [joinSep, quoteField, hq]
          · rw [Bool.not_eq_true] at hq
            cases f with
            | nil =>
              cases t with
              | nil => exact absurd rfl hsingle
              | cons g t2 =>
                refine ⟨',', joinSep [','] ((g :: t2).map quoteField) ++ '\r' :: '\n' :: rest,
                  ?_, by decide, by decide⟩
                simp [joinSep, quoteField, needsQuote]
            | cons c cf =>
              obtain ⟨h1, h2, h3, h4⟩ := needsQuote_false_safe _ hq c (List.mem_cons_self c cf)
              cases t with
              | nil =>
                refine ⟨c, cf ++ '\r' :: '\n' :: rest, ?_, h3, h4⟩
                simp [joinSep, quoteField, hq]
              | cons g t2 =>
                refine ⟨c, cf ++ ',' :: joinSep [','] ((g :: t2).map quoteField)
                  ++ '\r' :: '\n' :: rest, ?_, h3, h4⟩
                simp [joinSep, quoteField, hq]
        obtain ⟨x, xs, heq, hx1, hx2⟩ := hbody
        rw [List.append_assoc] at heq ⊢
        rw [heq, step_startRecord x xs hx2 hx1]
    rw [List.append_assoc] at hshift ⊢
    rw [hshift]
    rw [show (['\r', '\n'] : List Char) ++ rest = '\r' :: '\n' :: rest from rfl]
    rw [csvRun_cells cells hne [] rest]
    simp

theorem csvRun_writeLines :
    ∀ (rows : List (List (List Char))), (∀ r ∈ rows, r ≠ []) → ∀ (rest : List Char),
      csvRun .startRecord ((rows.map writeLine).flatten ++ rest) =
        (rows ++ (csvRun .startRecord rest).1, (csvRun .startRecord rest).2) := by
  intro rows
  induction rows with
  | nil =>
    intro _ rest
    simp
  | cons r rs ih =>
    intro hne rest
    rw [List.map_cons, List.flatten_cons, List.append_assoc,
      csvRun_writeLine r (hne r (List.mem_cons_self r rs)),
      ih (fun x hx => hne x (List.mem_cons_of_mem r hx))]
    simp [consRec]

/-! ## Row dict lemmas -/

theorem getA_eq_none_of_not_mem_keys [DecidableEq K] :
    ∀ (d : List (K × V)) (k : K), k ∉ d.map Prod.fst → getA d k = none := by
  intro d
  induction d with
  | nil => intro k _; rfl
  | cons kv t ih =>
    intro k hk
    obtain ⟨k0, v0⟩ := kv
    simp only [List.map_cons, List.mem_cons] at hk
    push_neg at hk
    simp only [getA]
    rw [if_neg (fun hh => hk.1 hh.symm)]
    exact ih k hk.2

theorem getA_isSome_of_mem_keys [DecidableEq K] :
    ∀ (d : List (K × V)) (k : K), k ∈ d.map Prod.fst → (getA d k).isSome = true := by
  intro d
  induction d with
  | nil => intro k hk; cases hk
  | cons kv t ih =>
    intro k hk
    obtain ⟨k0, v0⟩ := kv
    simp only [getA]
    by_cases h : k0 = k
    · rw [if_pos h]; rfl
    · rw [if_neg h]
      apply ih
      simp only [List.map_cons, List.mem_cons] at hk
      rcases hk with h1 | h1
      · exact absurd h1.symm h
      · exact h1

theorem mem_keys_setA_self [DecidableEq K] :
    ∀ (d : List (K × V)) (k : K) (v : V), k ∈ (setA d k v).map Prod.fst := by
  intro d
  induction d with
  | nil => intro k v; simp [setA]
  | cons kv t ih =>
    intro k v
    obtain ⟨k0, v0⟩ := kv
    simp only [setA]
    by_cases h : k0 = k
    · rw [if_pos h]; simp
    · rw [if_neg h]
      simp only [List.map_cons, List.mem_cons]
      exact Or.inr (ih k v)

theorem mem_keys_setA_iff [DecidableEq K] :
    ∀ (d : List (K × V)) (k k' : K) (v : V),
      k' ∈ (setA d k v).map Prod.fst ↔ k' = k ∨ k' ∈ d.map Prod.fst := by
  intro d
  induction d with
  | nil => intro k k' v; simp [setA]
  | cons kv t ih =>
    intro k k' v
    obtain ⟨k0, v0⟩ := kv
    simp only [setA]
    by_cases h : k0 = k
    · subst h
      rw [if_pos rfl]
      simp only [List.map_cons, List.mem_cons]
      tauto
    · rw [if_neg h]
      simp only [List.map_cons, List.mem_cons, ih]
      constructor
      · rintro (h1 | h1 | h1)
        · exact Or.inr (Or.inl h1)
        · exact Or.inl h1
        · exact Or.inr (Or.inr h1)
      · rintro (h1 | h1 | h1)
        · exact Or.inr (Or.inl h1)
        · exact Or.inl h1
        · exact Or.inr (Or.inr h1)

theorem getA_hdr_fold (g : List Char → CVal) :
    ∀ (hdr : List (List Char)) (d : CDict) (k : List Char),
      getA (hdr.foldl (fun d h => setA d (some h) (g h)) d) (some k) =
        if k ∈ hdr then some (g k) else getA d (some k) := by
  intro hdr
  induction hdr with
  | nil =>
    intro d k
    simp
  | cons h0 t ih =>
    intro d k
    simp only [List.foldl_cons]
    rw [ih]
    by_cases hmem : k ∈ t
    · rw [if_pos hmem, if_pos (List.mem_cons_of_mem h0 hmem)]
    · rw [if_neg hmem, getA_setA]
      by_cases hk : k = h0
      · subst hk
        rw [if_pos (Option.some.injEq .. ▸ rfl), if_pos (List.mem_cons_self k t)]
      · rw [if_neg (fun hh => hk (Option.some.inj hh)),
          if_neg (fun hh => (List.mem_cons.mp hh).elim hk hmem)]

theorem getA_hdr_fold_none (g : List Char → CVal) :
    ∀ (hdr : List (List Char)) (d : CDict),
      getA (hdr.foldl (fun d h => setA d (some h) (g h)) d) none = getA d none := by
  intro hdr
  induction hdr with
  | nil => intro d; rfl
  | cons h0 t ih =>
    intro d
    simp only [List.foldl_cons]
    rw [ih, getA_setA, if_neg (fun hh => Option.noConfusion hh)]

theorem zip_self_map (g : List Char → List Char) :
    ∀ (hdr : List (List Char)), List.zip hdr (hdr.map g) = hdr.map fun h => (h, g h) := by
  intro hdr
  induction hdr with
  | nil => rfl
  | cons h0 t ih => simp [List.zip_cons_cons, ih]

theorem zipUpd_self_map (g : List Char → List Char) (hdr : List (List Char)) :
    zipUpd hdr (hdr.map g) =
      hdr.foldl (fun d h => setA d (some h) (CVal.str (g h))) [] := by
  rw [zipUpd, zip_self_map, List.foldl_map]

theorem mkRowDict_exact (hdr row : List (List Char)) (h : row.length = hdr.length) :
    mkRowDict hdr row = zipUpd hdr row := by
  rw [mkRowDict]
  rw [if_neg (by omega)]
  rw [h, List.drop_length]
  rfl

theorem getA_redactRowDict (k : List Char) :
    ∀ (pii : List (List Char)) (d : CDict),
      getA (redactRowDict pii d) (some k) =
        if k ∈ pii ∧ (getA d (some k)).isSome = true then some (CVal.str marker)
        else getA d (some k) := by
  intro pii
  induction pii with
  | nil =>
    intro d
    simp [redactRowDict]
  | cons f rest ih =>
    intro d
    have hstep : redactRowDict (f :: rest) d =
        redactRowDict rest (if memA d (some f) = true then setA d (some f) (.str marker) else d) := by
      simp only [redactRowDict, List.foldl_cons]
    rw [hstep, ih]
    by_cases hm : memA d (some f) = true
    · rw [if_pos hm]
      rw [getA_setA]
      by_cases hk : k = f
      · subst hk
        have hks : (getA d (some k)).isSome = true := hm
        rw [if_pos rfl, ite_self, if_pos ⟨List.mem_cons_self k rest, hks⟩]
      · rw [if_neg (fun hh => hk (Option.some.inj hh))]
        by_cases hr : k ∈ rest ∧ (getA d (some k)).isSome = true
        · rw [if_pos hr, if_pos ⟨List.mem_cons_of_mem f hr.1, hr.2⟩]
        · rw [if_neg hr, if_neg ?hneg]
          case hneg =>
            rintro ⟨hkmem, hksome⟩
            rcases List.mem_cons.mp hkmem with h1 | h1
            · exact hk h1
            · exact hr ⟨h1, hksome⟩
    · rw [if_neg hm]
      by_cases hr : k ∈ rest ∧ (getA d (some k)).isSome = true
      · rw [if_pos hr, if_pos ⟨List.mem_cons_of_mem f hr.1, hr.2⟩]
      · rw [if_neg hr, if_neg ?hneg2]
        case hneg2 =>
          rintro ⟨hkmem, hksome⟩
          rcases List.mem_cons.mp hkmem with h1 | h1
          · subst h1
            exact hm hksome
          · exact hr ⟨h1, hksome⟩

theorem getA_redactRowDict_none :
    ∀ (pii : List (List Char)) (d : CDict),
      getA (redactRowDict pii d) none = getA d none := by
  intro pii
  induction pii with
  | nil => intro d; rfl
  | cons f rest ih =>
    intro d
    have hstep : redactRowDict (f :: rest) d =
        redactRowDict rest (if memA d (some f) = true then setA d (some f) (.str marker) else d) := by
      simp only [redactRowDict, List.foldl_cons]
    rw [hstep, ih]
    by_cases hm : memA d (some f) = true
    · rw [if_pos hm, getA_setA, if_neg (fun hh => Option.noConfusion hh)]
    · rw [if_neg hm]

theorem keys_redactRowDict :
    ∀ (pii : List (List Char)) (d : CDict),
      (redactRowDict pii d).map Prod.fst = d.map Prod.fst := by
  intro pii
  induction pii with
  | nil => intro d; rfl
  | cons f rest ih =>
    intro d
    have hstep : redactRowDict (f :: rest) d =
        redactRowDict rest (if memA d (some f) = true then setA d (some f) (.str marker) else d) := by
      simp only [redactRowDict, List.foldl_cons]
    rw [hstep, ih]
    by_cases hm : memA d (some f) = true
    · rw [if_pos hm, keys_setA_of_mem _ _ _ hm]
    · rw [if_neg hm]

theorem setA_append_of_not_mem [DecidableEq K] :
    ∀ (d : List (K × V)) (k : K) (v : V), k ∉ d.map Prod.fst →
      setA d k v = d ++ [(k, v)] := by
  intro d
  induction d with
  | nil => intro k v _; rfl
  | cons kv t ih =>
    intro k v hk
    obtain ⟨k0, v0⟩ := kv
    simp only [List.map_cons, List.mem_cons] at hk
    push_neg at hk
    simp only [setA]
    rw [if_neg (fun hh => hk.1 hh.symm), ih k v hk.2]
    rfl

theorem mem_keys_foldl_setA_iff [DecidableEq K] (g : A → K) (f : A → V) :
    ∀ (l : List A) (d : List (K × V)) (k : K),
      k ∈ (l.foldl (fun d a => setA d (g a) (f a)) d).map Prod.fst ↔
        k ∈ d.map Prod.fst ∨ ∃ a ∈ l, k = g a := by
  intro l
  induction l with
  | nil => intro d k; simp
  | cons a t ih =>
    intro d k
    simp only [List.foldl_cons]
    rw [ih, mem_keys_setA_iff]
    simp only [List.mem_cons]
    constructor
    · rintro ((h1 | h1) | ⟨b, hb, h1⟩)
      · exact Or.inr ⟨a, Or.inl rfl, h1⟩
      · exact Or.inl h1
      · exact Or.inr ⟨b, Or.inr hb, h1⟩
    · rintro (h1 | ⟨b, (hb | hb), h1⟩)
      · exact Or.inl (Or.inr h1)
      · exact Or.inl (Or.inl (hb ▸ h1))
      · exact Or.inr ⟨b, hb, h1⟩

theorem getA_foldl_setA_not_mem [DecidableEq K] (g : A → K) (f : A → V) :
    ∀ (l : List A) (d : List (K × V)) (k : K), (∀ a ∈ l, g a ≠ k) →
      getA (l.foldl (fun d a => setA d (g a) (f a)) d) k = getA d k := by
  intro l
  induction l with
  | nil => intro d k _; rfl
  | cons a t ih =>
    intro d k hk
    simp only [List.foldl_cons]
    rw [ih _ _ (fun b hb => hk b (List.mem_cons_of_mem a hb)), getA_setA,
      if_neg (fun hh => hk a (List.mem_cons_self a t) hh.symm)]

theorem getA_foldl_setA_init [DecidableEq K] (g : A → K) (f : A → V) :
    ∀ (l : List A) (d₁ d₂ : List (K × V)) (k : K), getA d₁ k = getA d₂ k →
      getA (l.foldl (fun d a => setA d (g a) (f a)) d₁) k =
        getA (l.foldl (fun d a => setA d (g a) (f a)) d₂) k := by
  intro l
  induction l with
  | nil => intro d₁ d₂ k h; exact h
  | cons a t ih =>
    intro d₁ d₂ k h
    simp only [List.foldl_cons]
    apply ih
    rw [getA_setA, getA_setA]
    by_cases hk : k = g a
    · rw [if_pos hk, if_pos hk]
    · rw [if_neg hk, if_neg hk, h]

theorem mem_hdr_split :
    ∀ (hdr row : List (List Char)) (h : List Char), h ∈ hdr →
      (∃ p ∈ List.zip hdr row, p.1 = h) ∨ h ∈ hdr.drop row.length := by
  intro hdr
  induction hdr with
  | nil => intro row h hh; cases hh
  | cons h0 t ih =>
    intro row h hh
    cases row with
    | nil => exact Or.inr hh
    | cons v w =>
      rcases List.mem_cons.mp hh with h1 | h1
      · exact Or.inl ⟨(h0, v), List.mem_cons_self _ _, h1.symm⟩
      · rcases ih w h h1 with ⟨p, hp, hp1⟩ | h2
        · exact Or.inl ⟨p, List.mem_cons_of_mem _ hp, hp1⟩
        · exact Or.inr h2

theorem mem_keys_zipUpd_iff (hdr row : List (List Char)) (k : CKey) :
    k ∈ (zipUpd hdr row).map Prod.fst ↔ ∃ p ∈ List.zip hdr row, k = some p.1 := by
  rw [zipUpd, mem_keys_foldl_setA_iff]
  simp

theorem mem_keys_mkRowDict_short (hdr r : List (List Char))
    (hlen : r.length ≤ hdr.length) (k : CKey) :
    k ∈ (mkRowDict hdr r).map Prod.fst → ∃ h ∈ hdr, k = some h := by
  intro hk
  rw [mkRowDict] at hk
  rw [if_neg (by omega)] at hk
  rw [mem_keys_foldl_setA_iff] at hk
  rcases hk with hk | ⟨a, ha, hk⟩
  · rw [mem_keys_zipUpd_iff] at hk
    obtain ⟨p, hp, hk⟩ := hk
    exact ⟨p.1, (List.of_mem_zip hp).1, hk⟩
  · exact ⟨a, List.mem_of_mem_drop ha, hk⟩

theorem none_mem_keys_mkRowDict_long (hdr r : List (List Char))
    (hlen : hdr.length < r.length) :
    (none : CKey) ∈ (mkRowDict hdr r).map Prod.fst := by
  rw [mkRowDict]
  rw [if_pos hlen]
  exact mem_keys_setA_self _ _ _

theorem memA_mkRowDict_of_mem_hdr (hdr r : List (List Char)) (h : List Char)
    (hh : h ∈ hdr) : memA (mkRowDict hdr r) (some h) = true := by
  apply getA_isSome_of_mem_keys
  rcases mem_hdr_split hdr r h hh with ⟨p, hp, hp1⟩ | h2
  · have hz : (some h : CKey) ∈ (zipUpd hdr r).map Prod.fst :=
      (mem_keys_zipUpd_iff hdr r (some h)).2 ⟨p, hp, by rw [hp1]⟩
    rw [mkRowDict]
    by_cases hl : hdr.length < r.length
    · rw [if_pos hl]
      exact (mem_keys_setA_iff _ _ _ _).2 (Or.inr hz)
    · rw [if_neg hl, mem_keys_foldl_setA_iff]
      exact Or.inl hz
  · have hlen : r.length ≤ hdr.length := by
      by_contra hc
      rw [List.drop_eq_nil_of_le (by omega)] at h2
      cases h2
    rw [mkRowDict, if_neg (by omega), mem_keys_foldl_setA_iff]
    exact Or.inr ⟨h, h2, rfl⟩

theorem writeDictRow_ok_of_short (hdr pii r : List (List Char))
    (hlen : r.length ≤ hdr.length) :
    writeDictRow hdr (redactRowDict pii (mkRowDict hdr r)) =
      .ok (writeLine (rowCells hdr pii r)) := by
  rw [writeDictRow]
  have hwrong : ((redactRowDict pii (mkRowDict hdr r)).map Prod.fst).filter
      (fun k => match k with
        | none => true
        | some s => !(hdr.contains s)) = [] := by
    rw [List.filter_eq_nil_iff]
    intro k hk
    rw [keys_redactRowDict] at hk
    obtain ⟨h, hh, hkh⟩ := mem_keys_mkRowDict_short hdr r hlen k hk
    subst hkh
    simp
    exact hh
  rw [hwrong]
  rfl

theorem writeDictRow_error_of_long (hdr pii r : List (List Char))
    (hlen : hdr.length < r.length) :
    ∃ msg, writeDictRow hdr (redactRowDict pii (mkRowDict hdr r)) =
      .error (.valueError msg) := by
  rw [writeDictRow]
  have hmem : (none : CKey) ∈ ((redactRowDict pii (mkRowDict hdr r)).map Prod.fst).filter
      (fun k => match k with
        | none => true
        | some s => !(hdr.contains s)) := by
    rw [List.mem_filter]
    refine ⟨?_, rfl⟩
    rw [keys_redactRowDict]
    exact none_mem_keys_mkRowDict_long hdr r hlen
  have hne := List.ne_nil_of_mem hmem
  rw [if_neg hne]
  exact ⟨_, rfl⟩

theorem obfuscate_rows_ok (hdr pii : List (List Char)) :
    ∀ (rows : List (List (List Char))), (∀ r ∈ rows, r.length ≤ hdr.length) →
      obfuscate_rows hdr pii rows =
        .ok (rows.map fun r => writeLine (rowCells hdr pii r)) := by
  intro rows
  induction rows with
  | nil => intro _; rfl
  | cons r rs ih =>
    intro hlen
    rw [obfuscate_rows,
      writeDictRow_ok_of_short hdr pii r (hlen r (List.mem_cons_self r rs)),
      ih (fun x hx => hlen x (List.mem_cons_of_mem r hx))]
    rfl

theorem obfuscate_rows_ok_inv (hdr pii : List (List Char)) :
    ∀ (rows : List (List (List Char))) (lines : List (List Char)),
      obfuscate_rows hdr pii rows = .ok lines →
      (∀ r ∈ rows, r.length ≤ hdr.length) ∧
        lines = rows.map fun r => writeLine (rowCells hdr pii r) := by
  intro rows
  induction rows with
  | nil =>
    intro lines h
    rw [obfuscate_rows] at h
    exact ⟨fun r hr => absurd hr (List.not_mem_nil r), by injection h; simp_all⟩
  | cons r rs ih =>
    intro lines h
    rw [obfuscate_rows] at h
    by_cases hr : r.length ≤ hdr.length
    · rw [writeDictRow_ok_of_short hdr pii r hr] at h
      rcases hrs : obfuscate_rows hdr pii rs with e | ls
      · rw [hrs] at h; exact absurd h (by simp)
      · rw [hrs] at h
        obtain ⟨hlen, hls⟩ := ih ls hrs
        refine ⟨fun x hx => ?_, ?_⟩
        · rcases List.mem_cons.mp hx with h1 | h1
          · exact h1 ▸ hr
          · exact hlen x h1
        · injection h with h
          rw [← h, hls, List.map_cons]
    · obtain ⟨msg, hmsg⟩ := writeDictRow_error_of_long hdr pii r (by omega)
      rw [hmsg] at h
      exact absurd h (by simp)

theorem obfuscate_csv_ok_of (data : List Char) (pii hdr : List (List Char))
    (rows : List (List (List Char)))
    (hp : parseCSV data = (hdr :: rows, none))
    (hlen : ∀ r ∈ rows, r ≠ [] → r.length ≤ hdr.length) :
    obfuscate_csv data pii = .ok (writeLine hdr ++
      ((rows.filter fun r => r ≠ []).map fun r =>
        writeLine (rowCells hdr pii r)).flatten) := by
  simp only [obfuscate_csv, hp]
  rw [obfuscate_rows_ok hdr pii _ (fun r hr => by
    rw [List.mem_filter] at hr
    exact hlen r hr.1 (by simpa using hr.2))]

theorem obfuscate_csv_ok_inv (data : List Char) (pii : List (List Char))
    (out : List Char) (h : obfuscate_csv data pii = .ok out) :
    ∃ hdr rows, parseCSV data = (hdr :: rows, none) ∧
      (∀ r ∈ rows.filter (fun r => r ≠ []), r.length ≤ hdr.length) ∧
      out = writeLine hdr ++ ((rows.filter fun r => r ≠ []).map fun r =>
        writeLine (rowCells hdr pii r)).flatten := by
  rcases hpe : parseCSV data with ⟨records, perr⟩
  cases records with
  | nil =>
    simp only [obfuscate_csv, hpe] at h
    cases perr <;> exact absurd h (by simp)
  | cons hdr rest =>
    simp only [obfuscate_csv, hpe] at h
    rcases hob : obfuscate_rows hdr pii (rest.filter fun r => r ≠ []) with e | lines
    · rw [hob] at h; exact absurd h (by simp)
    · rw [hob] at h
      cases perr with
      | some e => exact absurd h (by simp)
      | none =>
        obtain ⟨hlen, hls⟩ := obfuscate_rows_ok_inv hdr pii _ lines hob
        simp only [Except.ok.injEq] at h
        exact ⟨hdr, rest, rfl, hlen, by rw [← h, hls]⟩

theorem step_startRecord_crlf (t : List Char) :
    csvRun .startRecord ('\r' :: '\n' :: t) = consRec [] (csvRun .startRecord t) := rfl

theorem parseCSV_output (hdr : List (List Char)) (cellRows : List (List (List Char)))
    (hne : ∀ r ∈ cellRows, r ≠ []) :
    parseCSV (writeLine hdr ++ (cellRows.map writeLine).flatten) =
      (hdr :: cellRows, none) := by
  have htail : csvRun .startRecord ((cellRows.map writeLine).flatten) =
      (cellRows, none) := by
    have := csvRun_writeLines cellRows hne []
    rw [List.append_nil] at this
    rw [this]
    simp [csvRun, csvEnd]
  by_cases hh : hdr = []
  · subst hh
    rw [show writeLine [] = ['\r', '\n'] from rfl, parseCSV]
    rw [show (['\r', '\n'] : List Char) ++ (cellRows.map writeLine).flatten =
      '\r' :: '\n' :: (cellRows.map writeLine).flatten from rfl]
    rw [step_startRecord_crlf, htail]
    rfl
  · rw [parseCSV, csvRun_writeLine hdr hh, htail]
    rfl

theorem rowCells_length (hdr pii r : List (List Char)) :
    (rowCells hdr pii r).length = hdr.length := by
  simp [rowCells]

theorem rowCells_map (G : List Char → List Char) (hdr pii : List (List Char)) :
    rowCells hdr pii (hdr.map G) = hdr.map fun h => if h ∈ pii then marker else G h := by
  rw [rowCells]
  rw [mkRowDict_exact hdr (hdr.map G) (List.length_map hdr G), zipUpd_self_map]
  apply List.map_congr_left
  intro h hh
  rw [getA_redactRowDict, getA_hdr_fold, if_pos hh]
  by_cases hp : h ∈ pii
  · rw [if_pos ⟨hp, rfl⟩, if_pos hp]
    rfl
  · rw [if_neg (fun hc => hp hc.1), if_neg hp]
    rfl

theorem rowCells_idem (hdr pii r : List (List Char)) :
    rowCells hdr pii (rowCells hdr pii r) = rowCells hdr pii r := by
  have h1 : rowCells hdr pii r = hdr.map fun h =>
      match getA (redactRowDict pii (mkRowDict hdr r)) (some h) with
      | some v => renderCVal v
      | none => [] := rfl
  rw [h1, rowCells_map, ← h1]
  rw [h1]
  apply List.map_congr_left
  intro h hh
  by_cases hp : h ∈ pii
  · rw [if_pos hp, getA_redactRowDict,
      if_pos ⟨hp, memA_mkRowDict_of_mem_hdr hdr r h hh⟩]
    rfl
  · rw [if_neg hp]

theorem getA_zipUpd_nodup :
    ∀ (hdr r : List (List Char)), hdr.Nodup → r.length = hdr.length →
      ∀ (i : Nat) (hi : i < hdr.length) (hir : i < r.length),
        getA (zipUpd hdr r) (some hdr[i]) = some (.str r[i]) := by
  intro hdr
  induction hdr with
  | nil => intro r _ _ i hi; simp at hi
  | cons h0 t ih =>
    intro r hnd hlen i hi hir
    cases r with
    | nil => simp at hlen
    | cons v0 w =>
      have hzip : zipUpd (h0 :: t) (v0 :: w) =
          (List.zip t w).foldl (fun d kv => setA d (some kv.1) (CVal.str kv.2))
            [(some h0, CVal.str v0)] := by
        rw [zipUpd, List.zip_cons_cons, List.foldl_cons]
        rfl
      rw [hzip]
      have hh0 : h0 ∉ t := (List.nodup_cons.mp hnd).1
      cases i with
      | zero =>
        rw [List.getElem_cons_zero, List.getElem_cons_zero,
          getA_foldl_setA_not_mem]
        · simp [getA]
        · intro p hp hc
          exact hh0 ((Option.some.inj hc) ▸ (List.of_mem_zip hp).1)
      | succ j =>
        rw [List.getElem_cons_succ, List.getElem_cons_succ]
        have hjt : j < t.length := by simpa using hi
        have hne : t[j] ≠ h0 := fun he => hh0 (he ▸ List.getElem_mem hjt)
        rw [getA_foldl_setA_init _ _ (List.zip t w) [(some h0, CVal.str v0)] []
          (some t[j]) (by simp [getA]; exact fun he => hne he.symm)]
        exact ih w (List.nodup_cons.mp hnd).2 (by simpa using hlen) j hjt
          (by simpa using hir)

theorem rowCells_nodup_exact (hdr pii r : List (List Char)) (hnd : hdr.Nodup)
    (hl : r.length = hdr.length) :
    rowCells hdr pii r =
      List.zipWith (fun h v => if h ∈ pii then marker else v) hdr r := by
  apply List.ext_getElem
  · rw [rowCells_length, List.length_zipWith]
    omega
  · intro i h1 h2
    have hi : i < hdr.length := by rw [rowCells_length] at h1; exact h1
    have hir : i < r.length := by omega
    simp only [rowCells, List.getElem_map, List.getElem_zipWith]
    have hget : getA (redactRowDict pii (mkRowDict hdr r)) (some hdr[i]) =
        if hdr[i] ∈ pii then some (CVal.str marker) else some (CVal.str r[i]) := by
      rw [getA_redactRowDict, mkRowDict_exact hdr r hl,
        getA_zipUpd_nodup hdr r hnd hl i hi hir]
      by_cases hp : hdr[i] ∈ pii
      · simp [hp]
      · simp [hp]
    rw [hget]
    by_cases hp : hdr[i] ∈ pii
    · rw [if_pos hp, if_pos hp]
      rfl
    · rw [if_neg hp, if_neg hp]
      rfl

/-- C1 counterexample: a delimited-text input with a header row on which
`obfuscate_csv` does not produce redacted output at all: a data row with more
fields than the header puts the surplus under the `None` restkey, and
`DictWriter.writerow` (default `extrasaction="raise"`) raises `ValueError`,
so "fields named in the target list but absent from the header ... cause no
error" fails, and so does "every data row has ... in the output". -/
theorem obfuscate_csv_counterexample :
    obfuscate_csv ("a\n1,2\n".data) [("name".data)] =
      .error (.valueError ("dict contains fields not in fieldnames: None".data)) := rfl

/-- C1 (amended): for delimited-text input whose records parse cleanly, with
pairwise-distinct header names and every non-blank data row having exactly
the header's number of fields, `obfuscate_csv` succeeds and its output, read
back with the same csv reader, is the header followed by exactly the input's
non-blank data rows with each target field that exists in the header replaced
by the marker and every other field's value identical to the input. -/
theorem obfuscate_csv_redacts (data : List Char) (pii hdr : List (List Char))
    (rows : List (List (List Char)))
    (hp : parseCSV data = (hdr :: rows, none)) (hnd : hdr.Nodup)
    (hlen : ∀ r ∈ rows, r ≠ [] → r.length = hdr.length) :
    obfuscate_csv data pii = .ok (writeLine hdr ++
      (((rows.filter fun r => r ≠ []).map fun r =>
        writeLine (List.zipWith (fun h v => if h ∈ pii then marker else v) hdr r)).flatten)) ∧
    parseCSV (writeLine hdr ++
      (((rows.filter fun r => r ≠ []).map fun r =>
        writeLine (List.zipWith (fun h v => if h ∈ pii then marker else v) hdr r)).flatten)) =
      (hdr :: ((rows.filter fun r => r ≠ []).map fun r =>
        List.zipWith (fun h v => if h ∈ pii then marker else v) hdr r), none) := by
  have hle : ∀ r ∈ rows, r ≠ [] → r.length ≤ hdr.length :=
    fun r hr hne => le_of_eq (hlen r hr hne)
  have hcells : ∀ r ∈ rows.filter (fun r => r ≠ []), rowCells hdr pii r =
      List.zipWith (fun h v => if h ∈ pii then marker else v) hdr r := by
    intro r hr
    rw [List.mem_filter] at hr
    exact rowCells_nodup_exact hdr pii r hnd (hlen r hr.1 (by simpa using hr.2))
  have hmapeq : ((rows.filter fun r => r ≠ []).map fun r =>
      writeLine (rowCells hdr pii r)) =
      ((rows.filter fun r => r ≠ []).map fun r =>
        writeLine (List.zipWith (fun h v => if h ∈ pii then marker else v) hdr r)) :=
    List.map_congr_left fun r hr => by rw [hcells r hr]
  constructor
  · rw [obfuscate_csv_ok_of data pii hdr rows hp hle, hmapeq]
  · have hne2 : ∀ c ∈ (rows.filter fun r => r ≠ []).map (fun r =>
        List.zipWith (fun h v => if h ∈ pii then marker else v) hdr r), c ≠ [] := by
      intro c hc
      rw [List.mem_map] at hc
      obtain ⟨r, hr, hrc⟩ := hc
      rw [List.mem_filter] at hr
      have hrne : r ≠ [] := by simpa using hr.2
      have hrl := hlen r hr.1 hrne
      rw [← hrc]
      have hpos : 0 < r.length := List.length_pos.mpr hrne
      have : (List.zipWith (fun h v => if h ∈ pii then marker else v) hdr r).length =
          min hdr.length r.length := List.length_zipWith _ _ _
      intro hnil
      rw [hnil] at this
      simp at this
      omega
    have hout := parseCSV_output hdr ((rows.filter fun r => r ≠ []).map fun r =>
      List.zipWith (fun h v => if h ∈ pii then marker else v) hdr r) hne2
    rw [List.map_map] at hout
    exact hout

/-- C1 witness: the amended theorem applied to `"name,age\r\nAlice,30\r\n"`
with target list `["name"]`. -/
theorem obfuscate_csv_redacts_witness :
    obfuscate_csv ("name,age\r\nAlice,30\r\n".data) [("name".data)] =
      .ok (writeLine [("name".data), ("age".data)] ++
        ((([[("Alice".data), ("30".data)]].filter fun r => r ≠ []).map fun r =>
          writeLine (List.zipWith
            (fun h v => if h ∈ [("name".data)] then marker else v)
            [("name".data), ("age".data)] r)).flatten)) ∧
    parseCSV (writeLine [("name".data), ("age".data)] ++
        ((([[("Alice".data), ("30".data)]].filter fun r => r ≠ []).map fun r =>
          writeLine (List.zipWith
            (fun h v => if h ∈ [("name".data)] then marker else v)
            [("name".data), ("age".data)] r)).flatten)) =
      ([("name".data), ("age".data)] ::
        (([[("Alice".data), ("30".data)]].filter fun r => r ≠ []).map fun r =>
          List.zipWith (fun h v => if h ∈ [("name".data)] then marker else v)
            [("name".data), ("age".data)] r), none) :=
  obfuscate_csv_redacts ("name,age\r\nAlice,30\r\n".data) [("name".data)]
    [("name".data), ("age".data)] [[("Alice".data), ("30".data)]]
    (by rfl) (by decide) (by decide)

theorem obfuscate_csv_idem_h (data : List Char) (pii : List (List Char))
    (out : List Char) (h : obfuscate_csv data pii = .ok out) :
    obfuscate_csv out pii = .ok out := by
  obtain ⟨hdr, rows, hp, hlen, hout⟩ := obfuscate_csv_ok_inv data pii out h
  by_cases hh : hdr = []
  · subst hh
    have hfe : rows.filter (fun r => r ≠ []) = [] := by
      rcases hfe : rows.filter (fun r => r ≠ []) with _ | ⟨r, rs⟩
      · exact hfe
      · exfalso
        have hr : r ∈ rows.filter (fun r => r ≠ []) := hfe ▸ List.mem_cons_self r rs
        have hl0 := hlen r hr
        rw [List.mem_filter] at hr
        have hrne : r ≠ [] := by simpa using hr.2
        have hpos := List.length_pos.mpr hrne
        have hl0' : r.length = 0 := by simpa using hl0
        omega
    rw [hfe] at hout
    simp only [List.map_nil, List.flatten_nil, List.append_nil] at hout
    subst hout
    rfl
  · have hcells_ne : ∀ c ∈ (rows.filter (fun r => r ≠ [])).map
        (fun r => rowCells hdr pii r), c ≠ [] := by
      intro c hc
      rw [List.mem_map] at hc
      obtain ⟨r, _, hrc⟩ := hc
      rw [← hrc]
      intro hnil
      have hlc := rowCells_length hdr pii r
      rw [hnil] at hlc
      exact hh (List.eq_nil_of_length_eq_zero hlc.symm)
    have hpout : parseCSV out =
        (hdr :: (rows.filter (fun r => r ≠ [])).map (fun r => rowCells hdr pii r),
          none) := by
      rw [hout]
      have hpo := parseCSV_output hdr
        ((rows.filter (fun r => r ≠ [])).map fun r => rowCells hdr pii r) hcells_ne
      rw [List.map_map] at hpo
      exact hpo
    have hlen2 : ∀ c ∈ (rows.filter (fun r => r ≠ [])).map
        (fun r => rowCells hdr pii r), c ≠ [] → c.length ≤ hdr.length := by
      intro c hc _
      rw [List.mem_map] at hc
      obtain ⟨r, _, hrc⟩ := hc
      rw [← hrc, rowCells_length]
    have h2 := obfuscate_csv_ok_of out pii hdr _ hpout hlen2
    rw [h2, hout]
    have hfself : ((rows.filter (fun r => r ≠ [])).map
        (fun r => rowCells hdr pii r)).filter (fun r => r ≠ []) =
        (rows.filter (fun r => r ≠ [])).map (fun r => rowCells hdr pii r) :=
      List.filter_eq_self.mpr fun c hc => by
        simpa using hcells_ne c hc
    rw [hfself, List.map_map]
    have hcong : ∀ r ∈ rows.filter (fun r => r ≠ []),
        ((fun c => writeLine (rowCells hdr pii c)) ∘ fun r => rowCells hdr pii r) r =
          writeLine (rowCells hdr pii r) := by
      intro r _
      simp only [Function.comp]
      rw [rowCells_idem]
    rw [List.map_congr_left hcong]

theorem redactedCol_idem (c : PqCol) : redactedCol (redactedCol c) = redactedCol c := by
  simp [redactedCol]

theorem obfuscate_parquet_idem_h (t : PqTable) (pii : List (List Char)) :
    obfuscate_parquet (obfuscate_parquet t pii) pii = obfuscate_parquet t pii := by
  rw [obfuscate_parquet_as_map, obfuscate_parquet_as_map]
  simp only [List.map_map]
  congr 1
  apply List.map_congr_left
  intro nc _
  by_cases hc : nc.1 ∈ pii
  · simp [Function.comp, hc, redactedCol_idem]
  · simp [Function.comp, hc]

/-! ## Character and digit facts for the json scanner roundtrip -/

theorem char_le_iff (a b : Char) : (a ≤ b) ↔ a.toNat ≤ b.toNat := Iff.rfl

theorem char_eq_iff (a b : Char) : a = b ↔ a.toNat = b.toNat := by
  constructor
  · intro h; rw [h]
  · intro h
    have hh := Char.ofNat_toNat a
    rw [h, Char.ofNat_toNat] at hh
    exact hh.symm

theorem char_toNat_ofNat (n : Nat) (h : Nat.isValidChar n) : (Char.ofNat n).toNat = n := by
  unfold Char.ofNat
  rw [dif_pos h]
  unfold Char.ofNatAux Char.toNat
  simp [UInt32.toNat, BitVec.toNat_ofNatLt]

theorem char_toNat_bounds (c : Char) :
    c.toNat < 55296 ∨ (57343 < c.toNat ∧ c.toNat < 1114112) := by
  have h := c.valid
  unfold UInt32.isValidChar Nat.isValidChar at h
  exact h

theorem natToChars_ne_nil (n : Nat) : natToChars n ≠ [] := by
  rw [natToChars]
  split <;> simp

theorem natToChars_digits :
    ∀ n : Nat, ∀ c ∈ natToChars n, 48 ≤ c.toNat ∧ c.toNat ≤ 57 := by
  intro n
  induction n using Nat.strong_induction_on with
  | _ n ih =>
    intro c hc
    rw [natToChars] at hc
    by_cases h : n < 10
    · rw [if_pos h] at hc
      simp only [List.mem_singleton] at hc
      subst hc
      rw [char_toNat_ofNat _ (Or.inl (by omega))]
      omega
    · rw [if_neg h] at hc
      rcases List.mem_append.mp hc with h1 | h1
      · exact ih (n / 10) (Nat.div_lt_self (by omega) (by omega)) c h1
      · simp only [List.mem_singleton] at h1
        subst h1
        rw [char_toNat_ofNat _ (Or.inl (by omega))]
        have hm : n % 10 < 10 := Nat.mod_lt n (by omega)
        omega

theorem natToChars_head_ne_zero :
    ∀ n : Nat, 1 ≤ n → ∀ c cs, natToChars n = c :: cs → 49 ≤ c.toNat := by
  intro n
  induction n using Nat.strong_induction_on with
  | _ n ih =>
    intro hn c cs hc
    rw [natToChars] at hc
    by_cases h : n < 10
    · rw [if_pos h] at hc
      injection hc with h1 _
      subst h1
      rw [char_toNat_ofNat _ (Or.inl (by omega))]
      omega
    · rw [if_neg h] at hc
      rcases hne : natToChars (n / 10) with _ | ⟨c0, cs0⟩
      · exact absurd hne (natToChars_ne_nil _)
      · rw [hne, List.cons_append] at hc
        injection hc with h1 _
        subst h1
        exact ih (n / 10) (Nat.div_lt_self (by omega) (by omega))
          (by rw [Nat.one_le_div_iff (by omega)]; omega) c0 cs0 hne

theorem digitsToNat_append (ds : List Char) (c : Char) :
    digitsToNat (ds ++ [c]) = digitsToNat ds * 10 + (c.toNat - 48) := by
  simp [digitsToNat, List.foldl_append]

theorem digitsToNat_natToChars : ∀ n : Nat, digitsToNat (natToChars n) = n := by
  intro n
  induction n using Nat.strong_induction_on with
  | _ n ih =>
    rw [natToChars]
    by_cases h : n < 10
    · rw [if_pos h]
      simp only [digitsToNat, List.foldl_cons, List.foldl_nil]
      rw [char_toNat_ofNat _ (Or.inl (by omega))]
      omega
    · rw [if_neg h, digitsToNat_append,
        ih (n / 10) (Nat.div_lt_self (by omega) (by omega)),
        char_toNat_ofNat _ (Or.inl (by omega))]
      have hm : n % 10 < 10 := Nat.mod_lt n (by omega)
      omega

theorem sepOk_not_digit (rest : List Char) (h : sepOk rest = true) :
    ∀ r rs, rest = r :: rs → ¬('0' ≤ r ∧ r ≤ '9') := by
  intro r rs hr
  subst hr
  simp only [sepOk, Bool.or_eq_true, decide_eq_true_eq] at h
  rcases h with (h | h) | h <;> subst h <;> decide

theorem isFloatCont_of_sepOk (rest : List Char) (h : sepOk rest = true) :
    isFloatCont rest = false := by
  cases rest with
  | nil => rfl
  | cons r rs =>
    simp only [sepOk, Bool.or_eq_true, decide_eq_true_eq] at h
    rcases h with (h | h) | h <;> subst h <;> rfl

theorem takeDigits_digits :
    ∀ (ds rest : List Char), (∀ c ∈ ds, 48 ≤ c.toNat ∧ c.toNat ≤ 57) →
      sepOk rest = true → takeDigits (ds ++ rest) = (ds, rest) := by
  intro ds
  induction ds with
  | nil =>
    intro rest _ hrest
    cases rest with
    | nil => rfl
    | cons r rs =>
      rw [List.nil_append, takeDigits,
        if_neg (sepOk_not_digit (r :: rs) hrest r rs rfl)]
  | cons d t ih =>
    intro rest hds hrest
    have hd := hds d (List.mem_cons_self d t)
    rw [List.cons_append, takeDigits,
      if_pos (by
        rw [char_le_iff, char_le_iff]
        have h0 : ('0').toNat = 48 := rfl
        have h9 : ('9').toNat = 57 := rfl
        omega),
      ih rest (fun c hc => hds c (List.mem_cons_of_mem d hc)) hrest]

theorem parseUIntLit_natToChars (n : Nat) (rest : List Char)
    (hrest : sepOk rest = true) :
    parseUIntLit (natToChars n ++ rest) = some (n, rest) := by
  by_cases h0 : n = 0
  · subst h0
    have hz : natToChars 0 = ['0'] := by
      rw [natToChars]
      norm_num
    rw [hz, List.cons_append, List.nil_append, parseUIntLit, if_pos rfl,
      isFloatCont_of_sepOk rest hrest]
    rfl
  · obtain ⟨c, cs, hc⟩ : ∃ c cs, natToChars n = c :: cs := by
      rcases h : natToChars n with _ | ⟨c, cs⟩
      · exact absurd h (natToChars_ne_nil n)
      · exact ⟨c, cs, rfl⟩
    have hdig := natToChars_digits n
    have hhead := natToChars_head_ne_zero n (by omega) c cs hc
    have hc57 : c.toNat ≤ 57 := (hdig c (hc ▸ List.mem_cons_self c cs)).2
    rw [hc, List.cons_append, parseUIntLit,
      if_neg (fun hh => by
        rw [char_eq_iff] at hh
        have h48 : ('0').toNat = 48 := rfl
        omega),
      if_pos (by
        rw [char_le_iff, char_le_iff]
        have h1 : ('1').toNat = 49 := rfl
        have h9 : ('9').toNat = 57 := rfl
        omega),
      takeDigits_digits cs rest
        (fun x hx => hdig x (hc ▸ List.mem_cons_of_mem c hx)) hrest]
    show (if isFloatCont rest = true then none
      else some (digitsToNat (c :: cs), rest)) = some (n, rest)
    rw [isFloatCont_of_sepOk rest hrest, if_neg (by simp), ← hc,
      digitsToNat_natToChars]

theorem parseIntLit_intToChars (i : Int) (rest : List Char)
    (hrest : sepOk rest = true) :
    parseIntLit (intToChars i ++ rest) = some (i, rest) := by
  cases i with
  | ofNat n =>
    obtain ⟨c, cs, hc⟩ : ∃ c cs, natToChars n = c :: cs := by
      rcases h : natToChars n with _ | ⟨c, cs⟩
      · exact absurd h (natToChars_ne_nil n)
      · exact ⟨c, cs, rfl⟩
    have hd := (natToChars_digits n c (hc ▸ List.mem_cons_self c cs)).1
    rw [intToChars, hc, List.cons_append, parseIntLit,
      if_neg (fun hh => by
        rw [char_eq_iff] at hh
        have h45 : ('-').toNat = 45 := rfl
        omega),
      ← List.cons_append, ← hc, parseUIntLit_natToChars n rest hrest]
    rfl
  | negSucc m =>
    rw [intToChars, List.cons_append, parseIntLit, if_pos rfl,
      parseUIntLit_natToChars (m + 1) rest hrest]
    simp [Int.negSucc_eq]

theorem hexVal_hexDigit (m : Nat) (h : m < 16) : hexVal (hexDigit m) = some m := by
  interval_cases m <;> rfl

theorem parseHex4_hex4 (n : Nat) (h : n < 65536) (rest : List Char) :
    parseHex4 (hex4 n ++ rest) = some (n, rest) := by
  rw [hex4]
  simp only [List.cons_append, List.nil_append]
  rw [parseHex4]
  rw [hexVal_hexDigit (n / 4096 % 16) (Nat.mod_lt _ (by omega)),
    hexVal_hexDigit (n / 256 % 16) (Nat.mod_lt _ (by omega)),
    hexVal_hexDigit (n / 16 % 16) (Nat.mod_lt _ (by omega)),
    hexVal_hexDigit (n % 16) (Nat.mod_lt _ (by omega))]
  simp only [Option.some.injEq, Prod.mk.injEq]
  constructor
  · omega
  · trivial

theorem psb_close (f : Nat) (rest : List Char) :
    parseStrBody (f + 1) ('"' :: rest) = some ([], rest) := rfl

theorem psb_esc_quote (f : Nat) (X : List Char) :
    parseStrBody (f + 1) ('\\' :: '"' :: X) =
      (parseStrBody f X).map fun p => ('"' :: p.1, p.2) := rfl

theorem psb_esc_back (f : Nat) (X : List Char) :
    parseStrBody (f + 1) ('\\' :: '\\' :: X) =
      (parseStrBody f X).map fun p => ('\\' :: p.1, p.2) := rfl

theorem psb_esc_b (f : Nat) (X : List Char) :
    parseStrBody (f + 1) ('\\' :: 'b' :: X) =
      (parseStrBody f X).map fun p => (Char.ofNat 8 :: p.1, p.2) := rfl

theorem psb_esc_ff (f : Nat) (X : List Char) :
    parseStrBody (f + 1) ('\\' :: 'f' :: X) =
      (parseStrBody f X).map fun p => (Char.ofNat 12 :: p.1, p.2) := rfl

theorem psb_esc_n (f : Nat) (X : List Char) :
    parseStrBody (f + 1) ('\\' :: 'n' :: X) =
      (parseStrBody f X).map fun p => ('\n' :: p.1, p.2) := rfl

theorem psb_esc_r (f : Nat) (X : List Char) :
    parseStrBody (f + 1) ('\\' :: 'r' :: X) =
      (parseStrBody f X).map fun p => ('\r' :: p.1, p.2) := rfl

theorem psb_esc_t (f : Nat) (X : List Char) :
    parseStrBody (f + 1) ('\\' :: 't' :: X) =
      (parseStrBody f X).map fun p => ('\t' :: p.1, p.2) := rfl

theorem psb_u_step (f : Nat) (Y : List Char) :
    parseStrBody (f + 1) ('\\' :: 'u' :: Y) =
      match parseHex4 Y with
      | none => none
      | some (v, rest3) =>
        if 55296 ≤ v ∧ v < 56320 then
          match rest3 with
          | b1 :: b2 :: rest4 =>
            if b1 = '\\' ∧ b2 = 'u' then
              match parseHex4 rest4 with
              | none => none
              | some (lo, rest5) =>
                if 56320 ≤ lo ∧ lo < 57344 then
                  (parseStrBody f rest5).map fun p =>
                    (Char.ofNat (65536 + (v - 55296) * 1024 + (lo - 56320)) :: p.1, p.2)
                else none
            else none
          | _ => none
        else if 56320 ≤ v ∧ v < 57344 then none
        else (parseStrBody f rest3).map fun p => (Char.ofNat v :: p.1, p.2) := rfl

theorem psb_plain (f : Nat) (c : Char) (X : List Char) (h1 : c ≠ '"')
    (h2 : c ≠ '\\') (h3 : ¬(c.toNat < 32)) :
    parseStrBody (f + 1) (c :: X) =
      (parseStrBody f X).map fun p => (c :: p.1, p.2) := by
  simp only [parseStrBody]
  rw [if_neg h1, if_neg h2, if_neg h3]

theorem psb_u_scalar (f : Nat) (v : Nat) (hv : v < 65536)
    (hnosur : v < 55296 ∨ 57343 < v) (X : List Char) :
    parseStrBody (f + 1) ('\\' :: 'u' :: (hex4 v ++ X)) =
      (parseStrBody f X).map fun p => (Char.ofNat v :: p.1, p.2) := by
  rw [psb_u_step]
  simp only [parseHex4_hex4 v hv X]
  rw [if_neg (by omega), if_neg (by omega)]

theorem psb_u_pair (f : Nat) (hi lo : Nat) (hhi : 55296 ≤ hi ∧ hi < 56320)
    (hlo : 56320 ≤ lo ∧ lo < 57344) (X : List Char) :
    parseStrBody (f + 1) ('\\' :: 'u' :: (hex4 hi ++ ('\\' :: 'u' :: (hex4 lo ++ X)))) =
      (parseStrBody f X).map fun p =>
        (Char.ofNat (65536 + (hi - 55296) * 1024 + (lo - 56320)) :: p.1, p.2) := by
  rw [psb_u_step]
  simp only [parseHex4_hex4 hi (by omega), parseHex4_hex4 lo (by omega)]
  rw [if_pos hhi, if_pos (by simp), if_pos hlo]

theorem parseStrBody_roundtrip :
    ∀ (s : List Char) (fuel : Nat) (rest : List Char), s.length < fuel →
      parseStrBody fuel ((s.map escJChar).flatten ++ '"' :: rest) = some (s, rest) := by
  intro s
  induction s with
  | nil =>
    intro fuel rest hf
    cases fuel with
    | zero => omega
    | succ f => exact psb_close f rest
  | cons c t ih =>
    intro fuel rest hf
    cases fuel with
    | zero => omega
    | succ f =>
      have hf' : t.length < f := by simp at hf; omega
      rw [List.map_cons, List.flatten_cons, List.append_assoc]
      have hih := ih f rest hf'
      by_cases h1 : c = '"'
      · subst h1
        rw [show escJChar '"' = ['\\', '"'] from rfl, List.cons_append,
          List.cons_append, List.nil_append, psb_esc_quote, hih]
        rfl
      by_cases h2 : c = '\\'
      · subst h2
        rw [show escJChar '\\' = ['\\', '\\'] from rfl, List.cons_append,
          List.cons_append, List.nil_append, psb_esc_back, hih]
        rfl
      by_cases h3 : c = '\n'
      · subst h3
        rw [show escJChar '\n' = ['\\', 'n'] from rfl, List.cons_append,
          List.cons_append, List.nil_append, psb_esc_n, hih]
        rfl
      by_cases h4 : c = '\r'
      · subst h4
        rw [show escJChar '\r' = ['\\', 'r'] from rfl, List.cons_append,
          List.cons_append, List.nil_append, psb_esc_r, hih]
        rfl
      by_cases h5 : c = '\t'
      · subst h5
        rw [show escJChar '\t' = ['\\', 't'] from rfl, List.cons_append,
          List.cons_append, List.nil_append, psb_esc_t, hih]
        rfl
      by_cases h6 : c.toNat = 8
      · have hesc : escJChar c = ['\\', 'b'] := by
          rw [escJChar, if_neg h1, if_neg h2, if_neg h3, if_neg h4, if_neg h5,
            if_pos h6]
        rw [hesc, List.cons_append, List.cons_append, List.nil_append,
          psb_esc_b, hih]
        have hc8 : Char.ofNat 8 = c := by rw [← h6, Char.ofNat_toNat]
        rw [hc8]
        rfl
      by_cases h7 : c.toNat = 12
      · have hesc : escJChar c = ['\\', 'f'] := by
          rw [escJChar, if_neg h1, if_neg h2, if_neg h3, if_neg h4, if_neg h5,
            if_neg h6, if_pos h7]
        rw [hesc, List.cons_append, List.cons_append, List.nil_append,
          psb_esc_ff, hih]
        have hc12 : Char.ofNat 12 = c := by rw [← h7, Char.ofNat_toNat]
        rw [hc12]
        rfl
      by_cases h8 : 32 ≤ c.toNat ∧ c.toNat ≤ 126
      · have hesc : escJChar c = [c] := by
          rw [escJChar, if_neg h1, if_neg h2, if_neg h3, if_neg h4, if_neg h5,
            if_neg h6, if_neg h7, if_pos h8]
        rw [hesc, List.cons_append, List.nil_append,
          psb_plain f c _ h1 h2 (by omega), hih]
        rfl
      by_cases h9 : c.toNat < 65536
      · have hesc : escJChar c = '\\' :: 'u' :: hex4 c.toNat := by
          rw [escJChar, if_neg h1, if_neg h2, if_neg h3, if_neg h4, if_neg h5,
            if_neg h6, if_neg h7, if_neg h8, if_pos h9]
        have hnosur : c.toNat < 55296 ∨ 57343 < c.toNat := by
          rcases char_toNat_bounds c with hb | hb
          · exact Or.inl hb
          · exact Or.inr hb.1
        rw [hesc, List.cons_append, List.cons_append,
          psb_u_scalar f c.toNat h9 hnosur _, hih, Char.ofNat_toNat]
        rfl
      · have hesc : escJChar c =
            '\\' :: 'u' :: hex4 (55296 + (c.toNat - 65536) / 1024)
              ++ '\\' :: 'u' :: hex4 (56320 + (c.toNat - 65536) % 1024) := by
          rw [escJChar, if_neg h1, if_neg h2, if_neg h3, if_neg h4, if_neg h5,
            if_neg h6, if_neg h7, if_neg h8, if_neg h9]
        have hbig : c.toNat < 1114112 := by
          rcases char_toNat_bounds c with hb | hb
          · omega
          · exact hb.2
        rw [hesc]
        have hshape : ('\\' :: 'u' :: hex4 (55296 + (c.toNat - 65536) / 1024)
              ++ '\\' :: 'u' :: hex4 (56320 + (c.toNat - 65536) % 1024))
              ++ ((t.map escJChar).flatten ++ '"' :: rest)
            = '\\' :: 'u' :: (hex4 (55296 + (c.toNat - 65536) / 1024)
              ++ ('\\' :: 'u' :: (hex4 (56320 + (c.toNat - 65536) % 1024)
                ++ ((t.map escJChar).flatten ++ '"' :: rest)))) := by
          simp
        rw [hshape, psb_u_pair f _ _ (by omega) (by omega) _, hih]
        have hchar : Char.ofNat (65536 + (55296 + (c.toNat - 65536) / 1024 - 55296) * 1024
            + (56320 + (c.toNat - 65536) % 1024 - 56320)) = c := by
          have harith : 65536 + (55296 + (c.toNat - 65536) / 1024 - 55296) * 1024
              + (56320 + (c.toNat - 65536) % 1024 - 56320) = c.toNat := by
            omega
          rw [harith, Char.ofNat_toNat]
        rw [hchar]
        rfl

theorem escJChar_length (c : Char) : 1 ≤ (escJChar c).length := by
  rw [escJChar]
  repeat' split
  all_goals simp

theorem flatten_escJ_length :
    ∀ s : List Char, s.length ≤ ((s.map escJChar).flatten).length := by
  intro s
  induction s with
  | nil => simp
  | cons c t ih =>
    rw [List.map_cons, List.flatten_cons, List.length_append, List.length_cons]
    have := escJChar_length c
    omega

theorem nodupB_iff : ∀ l : List (List Char), nodupB l = true ↔ l.Nodup := by
  intro l
  induction l with
  | nil => simp [nodupB]
  | cons k t ih =>
    rw [nodupB, List.nodup_cons, Bool.and_eq_true, ih]
    constructor
    · rintro ⟨h1, h2⟩
      refine ⟨fun hm => ?_, h2⟩
      rw [Bool.not_eq_true', ← Bool.not_eq_true] at h1
      exact h1 (List.elem_eq_true_of_mem hm)
    · rintro ⟨h1, h2⟩
      refine ⟨?_, h2⟩
      rw [Bool.not_eq_true', ← Bool.not_eq_true]
      intro hc
      exact h1 (List.mem_of_elem_eq_true hc)

theorem jfuelV_pos (v : JVal) : 1 ≤ jfuelV v := by
  cases v <;> simp [jfuelV]

theorem jfuelArr_pos (l : List JVal) : 1 ≤ jfuelArr l := by
  cases l with
  | nil => simp [jfuelArr]
  | cons x xs => simp [jfuelArr]; omega

theorem jfuelObj_pos (l : List (List Char × JVal)) : 1 ≤ jfuelObj l := by
  cases l with
  | nil => simp [jfuelObj]
  | cons x xs => simp [jfuelObj]; omega

theorem jval_sizeOf_pos (v : JVal) : 1 ≤ sizeOf v := by
  cases v <;> simp

theorem skipWs_quote (Z : List Char) : skipWs ('"' :: Z) = '"' :: Z := rfl

theorem skipWs_comma (Z : List Char) : skipWs (',' :: Z) = ',' :: Z := rfl

theorem skipWs_colon (Z : List Char) : skipWs (':' :: Z) = ':' :: Z := rfl

theorem skipWs_rbrack (Z : List Char) : skipWs (']' :: Z) = ']' :: Z := rfl

theorem skipWs_rbrace (Z : List Char) : skipWs ('}' :: Z) = '}' :: Z := rfl

theorem skipWs_space (Z : List Char) : skipWs (' ' :: Z) = skipWs Z := rfl

theorem skipWs_cons_of (c : Char) (cs : List Char)
    (h : ¬(c = ' ' ∨ c = '\t' ∨ c = '\n' ∨ c = '\r')) : skipWs (c :: cs) = c :: cs := by
  rw [skipWs, if_neg (by simp only [Bool.or_eq_true, decide_eq_true_eq]; tauto)]

theorem dumps_head (v : JVal) : ∃ c cs, dumpsJson v = c :: cs ∧
    ¬(c = ' ' ∨ c = '\t' ∨ c = '\n' ∨ c = '\r') ∧ c ≠ ']' ∧ c ≠ '}' := by
  cases v with
  | str s =>
    refine ⟨'"', (s.map escJChar).flatten ++ ['"'], ?_, by decide, by decide, by decide⟩
    simp only [dumpsJson, dumpJStr]
    rfl
  | int n =>
    cases n with
    | ofNat m =>
      obtain ⟨c, cs, hc⟩ : ∃ c cs, natToChars m = c :: cs := by
        rcases h : natToChars m with _ | ⟨c, cs⟩
        · exact absurd h (natToChars_ne_nil m)
        · exact ⟨c, cs, rfl⟩
      have hd := natToChars_digits m c (hc ▸ List.mem_cons_self c cs)
      refine ⟨c, cs, ?_, ?_, ?_, ?_⟩
      · simp only [dumpsJson, intToChars]
        exact hc
      · have h32 : (' ').toNat = 32 := rfl
        have ht9 : ('\t').toNat = 9 := rfl
        have ht10 : ('\n').toNat = 10 := rfl
        have ht13 : ('\r').toNat = 13 := rfl
        rintro (h | h | h | h) <;> rw [char_eq_iff] at h <;> omega
      · intro h
        rw [char_eq_iff] at h
        have h93 : (']').toNat = 93 := rfl
        omega
      · intro h
        rw [char_eq_iff] at h
        have h125 : ('}').toNat = 125 := rfl
        omega
    | negSucc m =>
      refine ⟨'-', natToChars (m + 1), ?_, by decide, by decide, by decide⟩
      simp only [dumpsJson, intToChars]
  | bool b =>
    cases b with
    | true =>
      refine ⟨'t', "rue".data, ?_, by decide, by decide, by decide⟩
      simp only [dumpsJson]
    | false =>
      refine ⟨'f', "alse".data, ?_, by decide, by decide, by decide⟩
      simp only [dumpsJson]
  | null =>
    refine ⟨'n', "ull".data, ?_, by decide, by decide, by decide⟩
    simp only [dumpsJson]
  | arr items =>
    refine ⟨'[', joinSep (", ".data) (dumpsArr items) ++ [']'], ?_, by decide,
      by decide, by decide⟩
    simp only [dumpsJson]
    rfl
  | obj fields =>
    refine ⟨'{', joinSep (", ".data) (dumpsObj fields) ++ ['}'], ?_, by decide,
      by decide, by decide⟩
    simp only [dumpsJson]
    rfl

theorem skipWs_dumps_append (v : JVal) (X : List Char) :
    skipWs (dumpsJson v ++ X) = dumpsJson v ++ X := by
  obtain ⟨c, cs, hc, hws, _, _⟩ := dumps_head v
  rw [hc, List.cons_append, skipWs_cons_of c (cs ++ X) hws]

theorem dumpsArr_cons (x : JVal) (xs : List JVal) :
    dumpsArr (x :: xs) = dumpsJson x :: dumpsArr xs := by
  rw [dumpsArr]

theorem dumpsObj_cons (kv : List Char × JVal) (t : List (List Char × JVal)) :
    dumpsObj (kv :: t) = (dumpJStr kv.1 ++ ": ".data ++ dumpsJson kv.2) :: dumpsObj t := by
  rw [dumpsObj]

theorem joinSep_single (sep : List Char) (a : List Char) :
    joinSep sep [a] = a := rfl

theorem dumpsArr_nil : dumpsArr [] = [] := by rw [dumpsArr]

theorem dumpsObj_nil : dumpsObj [] = [] := by rw [dumpsObj]

theorem joinSep_cons2 (sep a b : List Char) (t : List (List Char)) :
    joinSep sep (a :: b :: t) = a ++ sep ++ joinSep sep (b :: t) := rfl

theorem joinArr_decomp (x : JVal) (xs : List JVal) :
    ∃ Z, joinSep (", ".data) (dumpsArr (x :: xs)) = dumpsJson x ++ Z := by
  rw [dumpsArr_cons]
  cases xs with
  | nil => exact ⟨[], by rw [dumpsArr_nil, joinSep_single, List.append_nil]⟩
  | cons y ys =>
    rw [dumpsArr_cons, joinSep_cons2]
    exact ⟨", ".data ++ joinSep (", ".data) (dumpsJson y :: dumpsArr ys),
      by rw [List.append_assoc]⟩

theorem skipWs_joinArr (x : JVal) (xs : List JVal) (X : List Char) :
    skipWs (joinSep (", ".data) (dumpsArr (x :: xs)) ++ X) =
      joinSep (", ".data) (dumpsArr (x :: xs)) ++ X := by
  obtain ⟨Z, hZ⟩ := joinArr_decomp x xs
  rw [hZ, List.append_assoc, skipWs_dumps_append, ← List.append_assoc]

theorem joinObj_decomp (kv : List Char × JVal) (t : List (List Char × JVal)) :
    ∃ Z, joinSep (", ".data) (dumpsObj (kv :: t)) =
      '"' :: ((kv.1.map escJChar).flatten ++ '"' :: Z) := by
  rw [dumpsObj_cons]
  cases t with
  | nil =>
    refine ⟨": ".data ++ dumpsJson kv.2, ?_⟩
    rw [dumpsObj_nil, joinSep_single, dumpJStr]
    simp
  | cons kv2 t2 =>
    refine ⟨": ".data ++ dumpsJson kv.2 ++ ", ".data ++
      joinSep (", ".data) (dumpsObj (kv2 :: t2)), ?_⟩
    rw [dumpsObj_cons kv2 t2, joinSep_cons2, dumpJStr, ← dumpsObj_cons kv2 t2]
    simp

theorem skipWs_joinObj (kv : List Char × JVal) (t : List (List Char × JVal))
    (X : List Char) :
    skipWs (joinSep (", ".data) (dumpsObj (kv :: t)) ++ X) =
      joinSep (", ".data) (dumpsObj (kv :: t)) ++ X := by
  obtain ⟨Z, hZ⟩ := joinObj_decomp kv t
  rw [hZ, List.cons_append, skipWs_quote]

theorem pv_str_step (f : Nat) (Y : List Char) :
    parseVal (f + 1) ('"' :: Y) =
      (parseStrBody (Y.length + 1) Y).map fun p => (JVal.str p.1, p.2) := rfl

theorem pv_arr_step (f : Nat) (Y : List Char) :
    parseVal (f + 1) ('[' :: Y) =
      match skipWs Y with
      | [] => none
      | c2 :: r2 => if c2 = ']' then some (.arr [], r2) else parseArrLoop f [] (c2 :: r2) := rfl

theorem pv_obj_step (f : Nat) (Y : List Char) :
    parseVal (f + 1) ('{' :: Y) =
      match skipWs Y with
      | [] => none
      | c2 :: r2 => if c2 = '}' then some (.obj [], r2) else parseObjLoop f [] (c2 :: r2) := rfl

theorem pv_true_step (f : Nat) (Y : List Char) :
    parseVal (f + 1) ('t' :: Y) =
      if hasPre ("rue".data) Y then some (.bool true, Y.drop 3) else none := rfl

theorem pv_false_step (f : Nat) (Y : List Char) :
    parseVal (f + 1) ('f' :: Y) =
      if hasPre ("alse".data) Y then some (.bool false, Y.drop 4) else none := rfl

theorem pv_null_step (f : Nat) (Y : List Char) :
    parseVal (f + 1) ('n' :: Y) =
      if hasPre ("ull".data) Y then some (.null, Y.drop 3) else none := rfl

theorem pv_num_step (f : Nat) (c : Char) (Y : List Char)
    (h1 : c ≠ '"') (h2 : c ≠ '[') (h3 : c ≠ '{') (h4 : c ≠ 't') (h5 : c ≠ 'f')
    (h6 : c ≠ 'n') (h7 : c = '-' ∨ ('0' ≤ c ∧ c ≤ '9')) :
    parseVal (f + 1) (c :: Y) =
      (parseIntLit (c :: Y)).map fun p => (JVal.int p.1, p.2) := by
  simp only [parseVal]
  rw [if_neg h1, if_neg h2, if_neg h3, if_neg h4, if_neg h5, if_neg h6, if_pos h7]

theorem pal_step (f : Nat) (acc : List JVal) (cs : List Char) :
    parseArrLoop (f + 1) acc cs =
      match parseVal f cs with
      | none => none
      | some (v, r) =>
        match skipWs r with
        | [] => none
        | c :: r2 =>
          if c = ',' then parseArrLoop f (acc ++ [v]) (skipWs r2)
          else if c = ']' then some (.arr (acc ++ [v]), r2)
          else none := rfl

theorem pol_step (f : Nat) (acc : List (List Char × JVal)) (Y : List Char) :
    parseObjLoop (f + 1) acc ('"' :: Y) =
      match parseStrBody (Y.length + 1) Y with
      | none => none
      | some (k, r) =>
        match skipWs r with
        | [] => none
        | c2 :: r2 =>
          if c2 = ':' then
            match parseVal f (skipWs r2) with
            | none => none
            | some (v, r3) =>
              match skipWs r3 with
              | [] => none
              | c3 :: r5 =>
                if c3 = ',' then parseObjLoop f (setA acc k v) (skipWs r5)
                else if c3 = '}' then some (.obj (setA acc k v), r5)
                else none
          else none := rfl

theorem json_roundtrip : ∀ N : Nat,
    (∀ v : JVal, sizeOf v ≤ N → wfJ v = true → ∀ (fuel : Nat) (rest : List Char),
      jfuelV v ≤ fuel → sepOk rest = true →
      parseVal fuel (dumpsJson v ++ rest) = some (v, rest)) ∧
    (∀ items : List JVal, sizeOf items ≤ N → items ≠ [] → wfArr items = true →
      ∀ (acc : List JVal) (fuel : Nat) (rest : List Char), jfuelArr items ≤ fuel →
      parseArrLoop fuel acc (joinSep (", ".data) (dumpsArr items) ++ ']' :: rest) =
        some (.arr (acc ++ items), rest)) ∧
    (∀ fields : List (List Char × JVal), sizeOf fields ≤ N → fields ≠ [] →
      wfObj fields = true → (fields.map Prod.fst).Nodup →
      ∀ acc : List (List Char × JVal),
        (∀ k ∈ fields.map Prod.fst, k ∉ acc.map Prod.fst) →
      ∀ (fuel : Nat) (rest : List Char), jfuelObj fields ≤ fuel →
      parseObjLoop fuel acc (joinSep (", ".data) (dumpsObj fields) ++ '}' :: rest) =
        some (.obj (acc ++ fields), rest)) := by
  intro N
  induction N with
  | zero =>
    refine ⟨?_, ?_, ?_⟩
    · intro v hsz
      have := jval_sizeOf_pos v
      omega
    · intro items hsz hne
      cases items with
      | nil => exact absurd rfl hne
      | cons x xs =>
        rw [List.cons.sizeOf_spec] at hsz
        have := jval_sizeOf_pos x
        omega
    · intro fields hsz hne
      cases fields with
      | nil => exact absurd rfl hne
      | cons kv t =>
        rw [List.cons.sizeOf_spec] at hsz
        omega
  | succ N IH =>
    obtain ⟨IHv, IHa, IHo⟩ := IH
    refine ⟨?_, ?_, ?_⟩
    · -- one value
      intro v hsz hwf fuel rest hfuel hsep
      cases fuel with
      | zero =>
        have := jfuelV_pos v
        omega
      | succ f =>
        cases v with
        | str s =>
          rw [show dumpsJson (.str s) = dumpJStr s from by rw [dumpsJson]]
          rw [dumpJStr]
          rw [show ((('"' :: (s.map escJChar).flatten) ++ ['"']) ++ rest)
              = '"' :: ((s.map escJChar).flatten ++ '"' :: rest) from by simp]
          rw [pv_str_step,
            parseStrBody_roundtrip s _ rest (by
              have h1 := flatten_escJ_length s
              simp only [List.length_append, List.length_cons]
              omega)]
          rfl
        | int n =>
          cases n with
          | ofNat m =>
            obtain ⟨c, cs, hc⟩ : ∃ c cs, natToChars m = c :: cs := by
              rcases h : natToChars m with _ | ⟨c, cs⟩
              · exact absurd h (natToChars_ne_nil m)
              · exact ⟨c, cs, rfl⟩
            have hd := natToChars_digits m c (hc ▸ List.mem_cons_self c cs)
            have h34 : ('"').toNat = 34 := rfl
            have h91 : ('[').toNat = 91 := rfl
            have h123 : ('{').toNat = 123 := rfl
            have h116 : ('t').toNat = 116 := rfl
            have h102 : ('f').toNat = 102 := rfl
            have h110 : ('n').toNat = 110 := rfl
            have h48 : ('0').toNat = 48 := rfl
            have h57 : ('9').toNat = 57 := rfl
            rw [show dumpsJson (.int (Int.ofNat m)) = natToChars m from by
              rw [dumpsJson]; rfl]
            rw [hc, List.cons_append,
              pv_num_step f c _
                (fun hh => by rw [char_eq_iff] at hh; omega)
                (fun hh => by rw [char_eq_iff] at hh; omega)
                (fun hh => by rw [char_eq_iff] at hh; omega)
                (fun hh => by rw [char_eq_iff] at hh; omega)
                (fun hh => by rw [char_eq_iff] at hh; omega)
                (fun hh => by rw [char_eq_iff] at hh; omega)
                (Or.inr (by rw [char_le_iff, char_le_iff]; omega)),
              ← List.cons_append, ← hc,
              show natToChars m ++ rest = intToChars (Int.ofNat m) ++ rest from by
                rw [intToChars],
              parseIntLit_intToChars _ rest hsep]
            rfl
          | negSucc m =>
            rw [show dumpsJson (.int (Int.negSucc m)) = '-' :: natToChars (m + 1) from by
              rw [dumpsJson]; rfl]
            rw [List.cons_append,
              pv_num_step f '-' _ (by decide) (by decide) (by decide) (by decide)
                (by decide) (by decide) (Or.inl rfl),
              show '-' :: (natToChars (m + 1) ++ rest) =
                intToChars (Int.negSucc m) ++ rest from by rw [intToChars]; rfl,
              parseIntLit_intToChars _ rest hsep]
            rfl
        | bool b =>
          cases b with
          | true =>
            rw [show dumpsJson (.bool true) = 't' :: "rue".data from by
              rw [dumpsJson]]
            rw [List.cons_append, pv_true_step,
              if_pos ((hasPre_iff_append _ _).2 ⟨rest, rfl⟩),
              show ("rue".data ++ rest).drop 3 = rest from by
                have hdl := List.drop_left ("rue".data) rest
                exact hdl]
          | false =>
            rw [show dumpsJson (.bool false) = 'f' :: "alse".data from by
              rw [dumpsJson]]
            rw [List.cons_append, pv_false_step,
              if_pos ((hasPre_iff_append _ _).2 ⟨rest, rfl⟩),
              show ("alse".data ++ rest).drop 4 = rest from by
                have hdl := List.drop_left ("alse".data) rest
                exact hdl]
        | null =>
          rw [show dumpsJson JVal.null = 'n' :: "ull".data from by
            rw [dumpsJson]]
          rw [List.cons_append, pv_null_step,
            if_pos ((hasPre_iff_append _ _).2 ⟨rest, rfl⟩),
            show ("ull".data ++ rest).drop 3 = rest from by
              have hdl := List.drop_left ("ull".data) rest
              exact hdl]
        | arr items =>
          have hsz' : sizeOf items ≤ N := by
            rw [JVal.arr.sizeOf_spec] at hsz
            omega
          have hwf' : wfArr items = true := by
            simp only [wfJ] at hwf
            exact hwf
          rw [show dumpsJson (.arr items) =
            '[' :: joinSep (", ".data) (dumpsArr items) ++ [']'] from by
              rw [dumpsJson]]
          cases items with
          | nil =>
            rw [show ('[' :: joinSep (", ".data) (dumpsArr ([] : List JVal)) ++ [']'])
                ++ rest = '[' :: ']' :: rest from by
              rw [dumpsArr_nil]; rfl]
            rw [pv_arr_step, skipWs_rbrack]
            rfl
          | cons x xs =>
            rw [show ('[' :: joinSep (", ".data) (dumpsArr (x :: xs)) ++ [']']) ++ rest
                = '[' :: (joinSep (", ".data) (dumpsArr (x :: xs)) ++ ']' :: rest) from by
              simp]
            rw [pv_arr_step, skipWs_joinArr]
            obtain ⟨Z, hZ⟩ := joinArr_decomp x xs
            obtain ⟨c, cs, hc, hws, hbr, hbc⟩ := dumps_head x
            rw [hZ, hc,
              show ((c :: cs) ++ Z) ++ ']' :: rest
                = c :: (cs ++ Z ++ ']' :: rest) from by simp]
            show (if c = ']' then some (JVal.arr [], cs ++ Z ++ ']' :: rest)
              else parseArrLoop f [] (c :: (cs ++ Z ++ ']' :: rest))) =
              some (JVal.arr (x :: xs), rest)
            rw [if_neg hbr,
              show c :: (cs ++ Z ++ ']' :: rest)
                = ((c :: cs) ++ Z) ++ ']' :: rest from by simp,
              ← hc, ← hZ]
            have hfa : jfuelArr (x :: xs) ≤ f := by
              simp only [jfuelV] at hfuel
              omega
            rw [IHa (x :: xs) hsz' (by simp) hwf' [] f rest hfa]
            rfl
        | obj fields =>
          have hsz' : sizeOf fields ≤ N := by
            rw [JVal.obj.sizeOf_spec] at hsz
            omega
          have hwf2 : nodupB (fields.map Prod.fst) = true ∧ wfObj fields = true := by
            simp only [wfJ, Bool.and_eq_true] at hwf
            exact hwf
          rw [show dumpsJson (.obj fields) =
            '{' :: joinSep (", ".data) (dumpsObj fields) ++ ['}'] from by
              rw [dumpsJson]]
          cases fields with
          | nil =>
            rw [show ('{' :: joinSep (", ".data)
                  (dumpsObj ([] : List (List Char × JVal))) ++ ['}']) ++ rest
                = '{' :: '}' :: rest from by
              rw [dumpsObj_nil]; rfl]
            rw [pv_obj_step, skipWs_rbrace]
            rfl
          | cons kv t =>
            rw [show ('{' :: joinSep (", ".data) (dumpsObj (kv :: t)) ++ ['}']) ++ rest
                = '{' :: (joinSep (", ".data) (dumpsObj (kv :: t)) ++ '}' :: rest) from by
              simp]
            rw [pv_obj_step, skipWs_joinObj]
            obtain ⟨Z, hZ⟩ := joinObj_decomp kv t
            rw [hZ,
              show ('"' :: ((kv.1.map escJChar).flatten ++ '"' :: Z)) ++ '}' :: rest
                = '"' :: (((kv.1.map escJChar).flatten ++ '"' :: Z) ++ '}' :: rest) from by
              simp]
            show (if ('"' : Char) = '}' then
                some (JVal.obj [], ((kv.1.map escJChar).flatten ++ '"' :: Z) ++ '}' :: rest)
              else parseObjLoop f []
                ('"' :: (((kv.1.map escJChar).flatten ++ '"' :: Z) ++ '}' :: rest))) =
              some (JVal.obj (kv :: t), rest)
            rw [if_neg (by decide),
              show '"' :: (((kv.1.map escJChar).flatten ++ '"' :: Z) ++ '}' :: rest)
                = ('"' :: ((kv.1.map escJChar).flatten ++ '"' :: Z)) ++ '}' :: rest from by
              simp,
              ← hZ]
            have hfo : jfuelObj (kv :: t) ≤ f := by
              simp only [jfuelV] at hfuel
              omega
            rw [IHo (kv :: t) hsz' (by simp) hwf2.2
              (by rw [← nodupB_iff]; exact hwf2.1) []
              (fun k _ hk => List.not_mem_nil k hk) f rest hfo]
            rfl
    · -- array loop
      intro items hsz hne hwf acc fuel rest hfuel
      cases items with
      | nil => exact absurd rfl hne
      | cons x xs =>
        cases fuel with
        | zero =>
          have := jfuelArr_pos (x :: xs)
          omega
        | succ f =>
          have hszx : sizeOf x ≤ N := by
            rw [List.cons.sizeOf_spec] at hsz
            omega
          have hwf2 : wfJ x = true ∧ wfArr xs = true := by
            simp only [wfArr, Bool.and_eq_true] at hwf
            exact hwf
          have hfuel2 : jfuelV x ≤ f ∧ jfuelArr xs ≤ f := by
            simp only [jfuelArr] at hfuel
            omega
          rw [pal_step]
          cases xs with
          | nil =>
            rw [show joinSep (", ".data) (dumpsArr [x]) = dumpsJson x from by
              rw [dumpsArr_cons, dumpsArr_nil, joinSep_single]]
            rw [IHv x hszx hwf2.1 f (']' :: rest) hfuel2.1 (by rfl)]
            rfl
          | cons y ys =>
            rw [show joinSep (", ".data) (dumpsArr (x :: y :: ys))
                = dumpsJson x ++ ", ".data ++
                  joinSep (", ".data) (dumpsArr (y :: ys)) from by
              rw [dumpsArr_cons x, dumpsArr_cons y, joinSep_cons2, ← dumpsArr_cons y]]
            rw [show (dumpsJson x ++ ", ".data ++
                  joinSep (", ".data) (dumpsArr (y :: ys))) ++ ']' :: rest
                = dumpsJson x ++ (',' :: ' ' ::
                  (joinSep (", ".data) (dumpsArr (y :: ys)) ++ ']' :: rest)) from by
              simp [show (", ".data : List Char) = [',', ' '] from rfl]]
            rw [IHv x hszx hwf2.1 f _ hfuel2.1 (by rfl)]
            show parseArrLoop f (acc ++ [x]) (skipWs (' ' ::
                (joinSep (", ".data) (dumpsArr (y :: ys)) ++ ']' :: rest))) =
              some (JVal.arr (acc ++ x :: y :: ys), rest)
            rw [skipWs_space, skipWs_joinArr y ys]
            have hszy : sizeOf (y :: ys) ≤ N := by
              rw [List.cons.sizeOf_spec] at hsz
              have := jval_sizeOf_pos x
              omega
            rw [IHa (y :: ys) hszy (by simp) hwf2.2 (acc ++ [x]) f rest hfuel2.2]
            simp
    · -- object loop
      intro fields hsz hne hwf hnd acc hfresh fuel rest hfuel
      cases fields with
      | nil => exact absurd rfl hne
      | cons kv t =>
        obtain ⟨k, v⟩ := kv
        cases fuel with
        | zero =>
          have := jfuelObj_pos ((k, v) :: t)
          omega
        | succ f =>
          have hszv : sizeOf v ≤ N := by
            rw [List.cons.sizeOf_spec, Prod.mk.sizeOf_spec] at hsz
            omega
          have hwf2 : wfJ v = true ∧ wfObj t = true := by
            simp only [wfObj, Bool.and_eq_true] at hwf
            exact hwf
          have hfuel2 : jfuelV v ≤ f ∧ jfuelObj t ≤ f := by
            simp only [jfuelObj] at hfuel
            omega
          have hk : k ∉ acc.map Prod.fst :=
            hfresh k (by rw [List.map_cons]; exact List.mem_cons_self _ _)
          cases t with
          | nil =>
            have hcs : joinSep (", ".data) (dumpsObj [(k, v)]) ++ '}' :: rest
                = '"' :: ((k.map escJChar).flatten ++ '"' ::
                  (':' :: ' ' :: (dumpsJson v ++ '}' :: rest))) := by
              rw [dumpsObj_cons, dumpsObj_nil, joinSep_single, dumpJStr]
              simp [show (": ".data : List Char) = [':', ' '] from rfl]
            rw [hcs, pol_step,
              parseStrBody_roundtrip k _ _ (by
                have h1 := flatten_escJ_length k
                simp only [List.length_append, List.length_cons]
                omega)]
            show (match parseVal f (skipWs (' ' :: (dumpsJson v ++ '}' :: rest))) with
              | none => none
              | some (v', r3) =>
                match skipWs r3 with
                | [] => none
                | c3 :: r5 =>
                  if c3 = ',' then parseObjLoop f (setA acc k v') (skipWs r5)
                  else if c3 = '}' then some (.obj (setA acc k v'), r5)
                  else none) = some (JVal.obj (acc ++ [(k, v)]), rest)
            rw [skipWs_space, skipWs_dumps_append,
              IHv v hszv hwf2.1 f ('}' :: rest) hfuel2.1 (by rfl)]
            show some (JVal.obj (setA acc k v), rest) =
              some (JVal.obj (acc ++ [(k, v)]), rest)
            rw [setA_append_of_not_mem acc k v hk]
          | cons kv2 t2 =>
            have hcs : joinSep (", ".data) (dumpsObj ((k, v) :: kv2 :: t2)) ++ '}' :: rest
                = '"' :: ((k.map escJChar).flatten ++ '"' ::
                  (':' :: ' ' :: (dumpsJson v ++ ',' :: ' ' ::
                    (joinSep (", ".data) (dumpsObj (kv2 :: t2)) ++ '}' :: rest)))) := by
              rw [dumpsObj_cons (k, v), dumpsObj_cons kv2, joinSep_cons2,
                ← dumpsObj_cons kv2, dumpJStr]
              simp [show (": ".data : List Char) = [':', ' '] from rfl,
                show (", ".data : List Char) = [',', ' '] from rfl]
            rw [hcs, pol_step,
              parseStrBody_roundtrip k _ _ (by
                have h1 := flatten_escJ_length k
                simp only [List.length_append, List.length_cons]
                omega)]
            show (match parseVal f (skipWs (' ' :: (dumpsJson v ++ ',' :: ' ' ::
                  (joinSep (", ".data) (dumpsObj (kv2 :: t2)) ++ '}' :: rest)))) with
              | none => none
              | some (v', r3) =>
                match skipWs r3 with
                | [] => none
                | c3 :: r5 =>
                  if c3 = ',' then parseObjLoop f (setA acc k v') (skipWs r5)
                  else if c3 = '}' then some (.obj (setA acc k v'), r5)
                  else none) = some (JVal.obj (acc ++ (k, v) :: kv2 :: t2), rest)
            rw [skipWs_space, skipWs_dumps_append,
              IHv v hszv hwf2.1 f _ hfuel2.1 (by rfl)]
            show parseObjLoop f (setA acc k v) (skipWs (' ' ::
                (joinSep (", ".data) (dumpsObj (kv2 :: t2)) ++ '}' :: rest))) =
              some (JVal.obj (acc ++ (k, v) :: kv2 :: t2), rest)
            rw [skipWs_space, skipWs_joinObj kv2 t2,
              setA_append_of_not_mem acc k v hk]
            have hszt : sizeOf (kv2 :: t2) ≤ N := by
              rw [List.cons.sizeOf_spec, Prod.mk.sizeOf_spec] at hsz
              omega
            have hnd2 : ((kv2 :: t2).map Prod.fst).Nodup := by
              rw [List.map_cons] at hnd
              exact (List.nodup_cons.mp hnd).2
            have hkne : k ∉ (kv2 :: t2).map Prod.fst := by
              rw [List.map_cons] at hnd
              exact (List.nodup_cons.mp hnd).1
            have hfresh2 : ∀ k' ∈ (kv2 :: t2).map Prod.fst,
                k' ∉ (acc ++ [(k, v)]).map Prod.fst := by
              intro k' hk'
              rw [List.map_append, List.mem_append]
              rintro (hc | hc)
              · exact hfresh k' (List.mem_cons_of_mem _ hk') hc
              · simp only [List.map_cons, List.map_nil, List.mem_singleton] at hc
                subst hc
                exact hkne hk'
            rw [IHo (kv2 :: t2) hszt (by simp) hwf2.2 hnd2 (acc ++ [(k, v)])
              hfresh2 f rest hfuel2.2]
            simp

/-! ## Well-formedness of parsed values and idempotence of the row loops -/

theorem setA_self [DecidableEq K] :
    ∀ (d : List (K × V)) (k : K) (v : V), getA d k = some v → setA d k v = d := by
  intro d
  induction d with
  | nil => intro k v h; cases h
  | cons kv t ih =>
    intro k v h
    obtain ⟨k0, v0⟩ := kv
    rw [getA] at h
    rw [setA]
    by_cases hk : k0 = k
    · rw [if_pos hk] at h
      injection h with h
      rw [if_pos hk, hk, h]
    · rw [if_neg hk] at h
      rw [if_neg hk, ih k v h]

theorem wfArr_append :
    ∀ (a b : List JVal), wfArr (a ++ b) = (wfArr a && wfArr b) := by
  intro a
  induction a with
  | nil =>
    intro b
    rw [List.nil_append]
    have h : wfArr ([] : List JVal) = true := by rw [wfArr]
    rw [h, Bool.true_and]
  | cons x xs ih =>
    intro b
    rw [List.cons_append, wfArr, wfArr, ih, Bool.and_assoc]

theorem nodupB_keys_setA :
    ∀ (acc : List (List Char × JVal)) (k : List Char) (v : JVal),
      nodupB (acc.map Prod.fst) = true →
      nodupB ((setA acc k v).map Prod.fst) = true := by
  intro acc
  induction acc with
  | nil =>
    intro k v _
    rw [show setA ([] : List (List Char × JVal)) k v = [(k, v)] from rfl]
    rw [List.map_cons, List.map_nil, nodupB, nodupB]
    rfl
  | cons kv t ih =>
    intro k v h
    obtain ⟨k0, v0⟩ := kv
    rw [List.map_cons, nodupB, Bool.and_eq_true] at h
    rw [setA]
    by_cases hk : k0 = k
    · rw [if_pos hk, List.map_cons, nodupB, Bool.and_eq_true]
      subst hk
      exact h
    · rw [if_neg hk, List.map_cons, nodupB, Bool.and_eq_true]
      refine ⟨?_, ih k v h.2⟩
      rw [Bool.not_eq_true', ← Bool.not_eq_true]
      intro hc
      have hmem := List.mem_of_elem_eq_true hc
      rw [show (setA t k v).map Prod.fst = List.map Prod.fst (setA t k v) from rfl,
        mem_keys_setA_iff] at hmem
      rcases hmem with hmem | hmem
      · exact hk hmem
      · have := h.1
        rw [Bool.not_eq_true', ← Bool.not_eq_true] at this
        exact this (List.elem_eq_true_of_mem hmem)

theorem wfObj_setA :
    ∀ (acc : List (List Char × JVal)) (k : List Char) (v : JVal),
      wfObj acc = true → wfJ v = true → wfObj (setA acc k v) = true := by
  intro acc
  induction acc with
  | nil =>
    intro k v _ hv
    rw [show setA ([] : List (List Char × JVal)) k v = [(k, v)] from rfl]
    rw [wfObj, Bool.and_eq_true]
    exact ⟨hv, by rw [wfObj]⟩
  | cons kv t ih =>
    intro k v h hv
    obtain ⟨k0, v0⟩ := kv
    rw [wfObj, Bool.and_eq_true] at h
    rw [setA]
    by_cases hk : k0 = k
    · rw [if_pos hk, wfObj, Bool.and_eq_true]
      exact ⟨hv, h.2⟩
    · rw [if_neg hk, wfObj, Bool.and_eq_true]
      exact ⟨h.1, ih k v h.2 hv⟩

theorem wf_marker : wfJ (JVal.str marker) = true := by simp [wfJ]

theorem redactObj_wf (pii : List (List Char)) :
    ∀ kvs : List (List Char × JVal),
      nodupB (kvs.map Prod.fst) = true → wfObj kvs = true →
      nodupB ((redactObj pii kvs).map Prod.fst) = true ∧
        wfObj (redactObj pii kvs) = true := by
  induction pii with
  | nil => intro kvs h1 h2; exact ⟨h1, h2⟩
  | cons f rest ih =>
    intro kvs h1 h2
    have hstep : redactObj (f :: rest) kvs =
        redactObj rest (if memA kvs f = true then setA kvs f (.str marker) else kvs) := by
      simp only [redactObj, List.foldl_cons]
    rw [hstep]
    by_cases hm : memA kvs f = true
    · rw [if_pos hm]
      exact ih _ (nodupB_keys_setA kvs f _ h1) (wfObj_setA kvs f _ h2 wf_marker)
    · rw [if_neg hm]
      exact ih kvs h1 h2

theorem pv_none_step (f : Nat) (c : Char) (Y : List Char)
    (h1 : c ≠ '"') (h2 : c ≠ '[') (h3 : c ≠ '{') (h4 : c ≠ 't') (h5 : c ≠ 'f')
    (h6 : c ≠ 'n') (h7 : ¬(c = '-' ∨ ('0' ≤ c ∧ c ≤ '9'))) :
    parseVal (f + 1) (c :: Y) = none := by
  simp only [parseVal]
  rw [if_neg h1, if_neg h2, if_neg h3, if_neg h4, if_neg h5, if_neg h6, if_neg h7]

theorem pol_none_step (f : Nat) (acc : List (List Char × JVal)) (c : Char)
    (Y : List Char) (h : c ≠ '"') : parseObjLoop (f + 1) acc (c :: Y) = none := by
  simp only [parseObjLoop]
  rw [if_neg h]


theorem parse_wf : ∀ fuel : Nat,
    (∀ cs v r, parseVal fuel cs = some (v, r) → wfJ v = true) ∧
    (∀ acc cs v r, wfArr acc = true → parseArrLoop fuel acc cs = some (v, r) →
      wfJ v = true) ∧
    (∀ acc cs v r, wfObj acc = true → nodupB (acc.map Prod.fst) = true →
      parseObjLoop fuel acc cs = some (v, r) → wfJ v = true) := by
  intro fuel
  induction fuel with
  | zero =>
    refine ⟨?_, ?_, ?_⟩
    · intro cs v r h
      exact Option.noConfusion h
    · intro acc cs v r _ h
      exact Option.noConfusion h
    · intro acc cs v r _ _ h
      exact Option.noConfusion h
  | succ f ih =>
    obtain ⟨ihv, iha, iho⟩ := ih
    refine ⟨?_, ?_, ?_⟩
    · intro cs v r h
      cases cs with
      | nil => exact Option.noConfusion h
      | cons c rest =>
        by_cases h1 : c = '"'
        · subst h1
          rw [pv_str_step] at h
          rcases hsb : parseStrBody (rest.length + 1) rest with _ | p <;> rw [hsb] at h
          · exact Option.noConfusion h
          · simp only [Option.map_some', Option.some.injEq, Prod.mk.injEq] at h
            obtain ⟨hv, _⟩ := h
            subst hv
            simp [wfJ]
        by_cases h2 : c = '['
        · subst h2
          rw [pv_arr_step] at h
          rcases hsw : skipWs rest with _ | ⟨c2, r2⟩ <;> rw [hsw] at h
          · exact Option.noConfusion h
          · replace h : (if c2 = ']' then some (JVal.arr [], r2)
                else parseArrLoop f [] (c2 :: r2)) = some (v, r) := h
            by_cases hc2 : c2 = ']'
            · rw [if_pos hc2] at h
              simp only [Option.some.injEq, Prod.mk.injEq] at h
              obtain ⟨hv, _⟩ := h
              subst hv
              simp [wfJ, wfArr]
            · rw [if_neg hc2] at h
              exact iha [] _ v r (by rw [wfArr]) h
        by_cases h3 : c = '{'
        · subst h3
          rw [pv_obj_step] at h
          rcases hsw : skipWs rest with _ | ⟨c2, r2⟩ <;> rw [hsw] at h
          · exact Option.noConfusion h
          · replace h : (if c2 = '}' then some (JVal.obj [], r2)
                else parseObjLoop f [] (c2 :: r2)) = some (v, r) := h
            by_cases hc2 : c2 = '}'
            · rw [if_pos hc2] at h
              simp only [Option.some.injEq, Prod.mk.injEq] at h
              obtain ⟨hv, _⟩ := h
              subst hv
              simp [wfJ, wfObj, nodupB]
            · rw [if_neg hc2] at h
              exact iho [] _ v r (by rw [wfObj]) (by rw [List.map_nil, nodupB]) h
        by_cases h4 : c = 't'
        · subst h4
          rw [pv_true_step] at h
          by_cases hp : hasPre ("rue".data) rest = true
          · rw [if_pos hp] at h
            simp only [Option.some.injEq, Prod.mk.injEq] at h
            obtain ⟨hv, _⟩ := h
            subst hv
            simp [wfJ]
          · rw [if_neg hp] at h
            exact Option.noConfusion h
        by_cases h5 : c = 'f'
        · subst h5
          rw [pv_false_step] at h
          by_cases hp : hasPre ("alse".data) rest = true
          · rw [if_pos hp] at h
            simp only [Option.some.injEq, Prod.mk.injEq] at h
            obtain ⟨hv, _⟩ := h
            subst hv
            simp [wfJ]
          · rw [if_neg hp] at h
            exact Option.noConfusion h
        by_cases h6 : c = 'n'
        · subst h6
          rw [pv_null_step] at h
          by_cases hp : hasPre ("ull".data) rest = true
          · rw [if_pos hp] at h
            simp only [Option.some.injEq, Prod.mk.injEq] at h
            obtain ⟨hv, _⟩ := h
            subst hv
            simp [wfJ]
          · rw [if_neg hp] at h
            exact Option.noConfusion h
        by_cases h7 : c = '-' ∨ ('0' ≤ c ∧ c ≤ '9')
        · rw [pv_num_step f c rest h1 h2 h3 h4 h5 h6 h7] at h
          rcases hil : parseIntLit (c :: rest) with _ | p <;> rw [hil] at h
          · exact Option.noConfusion h
          · simp only [Option.map_some', Option.some.injEq, Prod.mk.injEq] at h
            obtain ⟨hv, _⟩ := h
            subst hv
            simp [wfJ]
        · rw [pv_none_step f c rest h1 h2 h3 h4 h5 h6 h7] at h
          exact Option.noConfusion h
    · intro acc cs v r hacc h
      rw [pal_step] at h
      rcases hpv : parseVal f cs with _ | p <;> rw [hpv] at h
      · exact Option.noConfusion h
      · obtain ⟨v0, r0⟩ := p
        replace h : (match skipWs r0 with
            | [] => none
            | c2 :: r2 =>
              if c2 = ',' then parseArrLoop f (acc ++ [v0]) (skipWs r2)
              else if c2 = ']' then some (JVal.arr (acc ++ [v0]), r2)
              else none) = some (v, r) := h
        have hwf0 := ihv cs v0 r0 hpv
        rcases hsw : skipWs r0 with _ | ⟨c2, r2⟩ <;> rw [hsw] at h
        · exact Option.noConfusion h
        · replace h : (if c2 = ',' then parseArrLoop f (acc ++ [v0]) (skipWs r2)
              else if c2 = ']' then some (JVal.arr (acc ++ [v0]), r2)
              else none) = some (v, r) := h
          by_cases hc2 : c2 = ','
          · rw [if_pos hc2] at h
            refine iha (acc ++ [v0]) _ v r ?_ h
            rw [wfArr_append, hacc, Bool.true_and, wfArr, hwf0, Bool.true_and, wfArr]
          · by_cases hc2' : c2 = ']'
            · rw [if_neg hc2, if_pos hc2'] at h
              simp only [Option.some.injEq, Prod.mk.injEq] at h
              obtain ⟨hv, _⟩ := h
              subst hv
              rw [show wfJ (JVal.arr (acc ++ [v0])) = wfArr (acc ++ [v0]) from by
                simp [wfJ]]
              rw [wfArr_append, hacc, Bool.true_and, wfArr, hwf0, Bool.true_and, wfArr]
            · rw [if_neg hc2, if_neg hc2'] at h
              exact Option.noConfusion h
    · intro acc cs v r hacc hnd h
      cases cs with
      | nil => exact Option.noConfusion h
      | cons c rest =>
        by_cases h1 : c = '"'
        · subst h1
          rw [pol_step] at h
          rcases hsb : parseStrBody (rest.length + 1) rest with _ | kp <;> rw [hsb] at h
          · exact Option.noConfusion h
          · obtain ⟨k, r0⟩ := kp
            replace h : (match skipWs r0 with
                | [] => none
                | c2 :: r2 =>
                  if c2 = ':' then
                    match parseVal f (skipWs r2) with
                    | none => none
                    | some (v0, r3) =>
                      match skipWs r3 with
                      | [] => none
                      | c3 :: r5 =>
                        if c3 = ',' then parseObjLoop f (setA acc k v0) (skipWs r5)
                        else if c3 = '}' then some (JVal.obj (setA acc k v0), r5)
                        else none
                  else none) = some (v, r) := h
            rcases hsw : skipWs r0 with _ | ⟨c2, r2⟩ <;> rw [hsw] at h
            · exact Option.noConfusion h
            · replace h : (if c2 = ':' then
                  (match parseVal f (skipWs r2) with
                   | none => none
                   | some (v0, r3) =>
                     match skipWs r3 with
                     | [] => none
                     | c3 :: r5 =>
                       if c3 = ',' then parseObjLoop f (setA acc k v0) (skipWs r5)
                       else if c3 = '}' then some (JVal.obj (setA acc k v0), r5)
                       else none)
                  else none) = some (v, r) := h
              by_cases hc2 : c2 = ':'
              · rw [if_pos hc2] at h
                rcases hpv : parseVal f (skipWs r2) with _ | vp <;> rw [hpv] at h
                · exact Option.noConfusion h
                · obtain ⟨v0, r3⟩ := vp
                  replace h : (match skipWs r3 with
                      | [] => none
                      | c3 :: r5 =>
                        if c3 = ',' then parseObjLoop f (setA acc k v0) (skipWs r5)
                        else if c3 = '}' then some (JVal.obj (setA acc k v0), r5)
                        else none) = some (v, r) := h
                  have hwf0 := ihv _ v0 r3 hpv
                  rcases hsw3 : skipWs r3 with _ | ⟨c3, r5⟩ <;> rw [hsw3] at h
                  · exact Option.noConfusion h
                  · replace h : (if c3 = ',' then
                        parseObjLoop f (setA acc k v0) (skipWs r5)
                      else if c3 = '}' then some (JVal.obj (setA acc k v0), r5)
                      else none) = some (v, r) := h
                    by_cases hc3 : c3 = ','
                    · rw [if_pos hc3] at h
                      exact iho (setA acc k v0) _ v r
                        (wfObj_setA acc k v0 hacc hwf0)
                        (nodupB_keys_setA acc k v0 hnd) h
                    · by_cases hc3' : c3 = '}'
                      · rw [if_neg hc3, if_pos hc3'] at h
                        simp only [Option.some.injEq, Prod.mk.injEq] at h
                        obtain ⟨hv, _⟩ := h
                        subst hv
                        rw [show wfJ (JVal.obj (setA acc k v0)) =
                            (nodupB ((setA acc k v0).map Prod.fst) &&
                              wfObj (setA acc k v0)) from by simp [wfJ]]
                        rw [nodupB_keys_setA acc k v0 hnd, Bool.true_and,
                          wfObj_setA acc k v0 hacc hwf0]
                      · rw [if_neg hc3, if_neg hc3'] at h
                        exact Option.noConfusion h
              · rw [if_neg hc2] at h
                exact Option.noConfusion h
        · rw [pol_none_step f acc c rest h1] at h
          exact Option.noConfusion h

theorem jfuel_le : ∀ N : Nat,
    (∀ v : JVal, sizeOf v ≤ N → jfuelV v ≤ 2 * (dumpsJson v).length) ∧
    (∀ items : List JVal, sizeOf items ≤ N →
      jfuelArr items ≤ 2 * (joinSep (", ".data) (dumpsArr items)).length + 2) ∧
    (∀ fields : List (List Char × JVal), sizeOf fields ≤ N →
      jfuelObj fields ≤ 2 * (joinSep (", ".data) (dumpsObj fields)).length + 2) := by
  intro N
  induction N with
  | zero =>
    refine ⟨?_, ?_, ?_⟩
    · intro v hsz
      have := jval_sizeOf_pos v
      omega
    · intro items hsz
      cases items with
      | nil =>
        rw [show jfuelArr ([] : List JVal) = 1 from by simp [jfuelArr]]
        omega
      | cons x xs =>
        rw [List.cons.sizeOf_spec] at hsz
        have := jval_sizeOf_pos x
        omega
    · intro fields hsz
      cases fields with
      | nil =>
        rw [show jfuelObj ([] : List (List Char × JVal)) = 1 from by simp [jfuelObj]]
        omega
      | cons kv t =>
        rw [List.cons.sizeOf_spec] at hsz
        omega
  | succ N IH =>
    obtain ⟨IHv, IHa, IHo⟩ := IH
    refine ⟨?_, ?_, ?_⟩
    · intro v hsz
      cases v with
      | str s =>
        rw [show jfuelV (.str s) = 1 from by simp [jfuelV],
          show dumpsJson (.str s) = dumpJStr s from by rw [dumpsJson], dumpJStr]
        simp only [List.length_append, List.length_cons]
        omega
      | int n =>
        rw [show jfuelV (.int n) = 1 from by simp [jfuelV]]
        cases n with
        | ofNat m =>
          rw [show dumpsJson (.int (Int.ofNat m)) = natToChars m from by
            rw [dumpsJson]; rfl]
          have := List.length_pos.mpr (natToChars_ne_nil m)
          omega
        | negSucc m =>
          rw [show dumpsJson (.int (Int.negSucc m)) = '-' :: natToChars (m + 1) from by
            rw [dumpsJson]; rfl]
          simp only [List.length_cons]
          omega
      | bool b =>
        cases b
        · rw [show jfuelV (.bool false) = 1 from by simp [jfuelV],
            show dumpsJson (.bool false) = "false".data from by rw [dumpsJson]]
          have h5 : ("false".data : List Char).length = 5 := rfl
          omega
        · rw [show jfuelV (.bool true) = 1 from by simp [jfuelV],
            show dumpsJson (.bool true) = "true".data from by rw [dumpsJson]]
          have h4 : ("true".data : List Char).length = 4 := rfl
          omega
      | null =>
        rw [show jfuelV JVal.null = 1 from by simp [jfuelV],
          show dumpsJson JVal.null = "null".data from by rw [dumpsJson]]
        have h4 : ("null".data : List Char).length = 4 := rfl
        omega
      | arr items =>
        rw [show jfuelV (.arr items) = 1 + jfuelArr items from by simp [jfuelV]]
        have hlen : (dumpsJson (.arr items)).length =
            (joinSep (", ".data) (dumpsArr items)).length + 2 := by
          rw [show dumpsJson (.arr items) =
            ('[' :: joinSep (", ".data) (dumpsArr items)) ++ [']'] from by
              rw [dumpsJson]]
          simp
        have hind := IHa items (by rw [JVal.arr.sizeOf_spec] at hsz; omega)
        omega
      | obj fields =>
        rw [show jfuelV (.obj fields) = 1 + jfuelObj fields from by simp [jfuelV]]
        have hlen : (dumpsJson (.obj fields)).length =
            (joinSep (", ".data) (dumpsObj fields)).length + 2 := by
          rw [show dumpsJson (.obj fields) =
            ('{' :: joinSep (", ".data) (dumpsObj fields)) ++ ['}'] from by
              rw [dumpsJson]]
          simp
        have hind := IHo fields (by rw [JVal.obj.sizeOf_spec] at hsz; omega)
        omega
    · intro items hsz
      cases items with
      | nil =>
        rw [show jfuelArr ([] : List JVal) = 1 from by simp [jfuelArr]]
        omega
      | cons x xs =>
        have hx := IHv x (by rw [List.cons.sizeOf_spec] at hsz; omega)
        rw [show jfuelArr (x :: xs) = 1 + jfuelV x + jfuelArr xs from by
          simp [jfuelArr]]
        cases xs with
        | nil =>
          rw [dumpsArr_cons, dumpsArr_nil, joinSep_single,
            show jfuelArr ([] : List JVal) = 1 from by simp [jfuelArr]]
          omega
        | cons y ys =>
          have hys := IHa (y :: ys) (by
            rw [List.cons.sizeOf_spec] at hsz
            have := jval_sizeOf_pos x
            omega)
          rw [dumpsArr_cons x, dumpsArr_cons y, joinSep_cons2, ← dumpsArr_cons y]
          rw [show (", ".data : List Char) = [',', ' '] from rfl] at hys ⊢
          simp only [List.length_append]
          have h2 : ([',', ' '] : List Char).length = 2 := rfl
          omega
    · intro fields hsz
      cases fields with
      | nil =>
        rw [show jfuelObj ([] : List (List Char × JVal)) = 1 from by simp [jfuelObj]]
        omega
      | cons kv t =>
        have hv := IHv kv.2 (by
          obtain ⟨k, v⟩ := kv
          rw [List.cons.sizeOf_spec, Prod.mk.sizeOf_spec] at hsz
          show sizeOf v ≤ N
          omega)
        rw [show jfuelObj (kv :: t) = 1 + jfuelV kv.2 + jfuelObj t from by
          simp [jfuelObj]]
        cases t with
        | nil =>
          rw [dumpsObj_cons, dumpsObj_nil, joinSep_single,
            show jfuelObj ([] : List (List Char × JVal)) = 1 from by simp [jfuelObj]]
          simp only [List.length_append]
          have h2 : ((": ".data : List Char)).length = 2 := rfl
          have h2b : (([':', ' '] : List Char)).length = 2 := rfl
          omega
        | cons kv2 t2 =>
          have ht := IHo (kv2 :: t2) (by
            rw [List.cons.sizeOf_spec] at hsz
            omega)
          rw [dumpsObj_cons kv, dumpsObj_cons kv2, joinSep_cons2, ← dumpsObj_cons kv2]
          rw [show (", ".data : List Char) = [',', ' '] from rfl] at ht ⊢
          simp only [List.length_append]
          have h2 : ((": ".data : List Char)).length = 2 := rfl
          have h2b : (([':', ' '] : List Char)).length = 2 := rfl
          have h2c : (([',', ' '] : List Char)).length = 2 := rfl
          omega

theorem parseJsonTop_dumps (v : JVal) (hwf : wfJ v = true) :
    parseJsonTop (dumpsJson v) = some v := by
  rw [parseJsonTop]
  have h1 : skipWs (dumpsJson v) = dumpsJson v := by
    have hh := skipWs_dumps_append v []
    simpa using hh
  rw [h1]
  have h2 : parseVal (jsonFuel (dumpsJson v)) (dumpsJson v) = some (v, []) := by
    have hh := (json_roundtrip (sizeOf v)).1 v le_rfl hwf (jsonFuel (dumpsJson v)) []
      (by
        rw [jsonFuel]
        have := (jfuel_le (sizeOf v)).1 v le_rfl
        omega)
      (by rfl)
    simpa using hh
  rw [h2]
  rfl

theorem parseJsonTop_wf (data : List Char) (v : JVal)
    (h : parseJsonTop data = some v) : wfJ v = true := by
  rw [parseJsonTop] at h
  rcases hpv : parseVal (jsonFuel data) (skipWs data) with _ | p <;> rw [hpv] at h
  · exact Option.noConfusion h
  · obtain ⟨v0, r⟩ := p
    replace h : (if skipWs r = [] then some v0 else none) = some v := h
    by_cases hr : skipWs r = []
    · rw [if_pos hr] at h
      injection h with h
      subst h
      exact (parse_wf (jsonFuel data)).1 _ v0 r hpv
    · rw [if_neg hr] at h
      exact Option.noConfusion h

theorem processRow_ok_eq_of_nonobj :
    ∀ (pii : List (List Char)) (row row' : JVal),
      (∀ kvs, row ≠ .obj kvs) → processRow pii row = .ok row' → row' = row := by
  intro pii
  induction pii with
  | nil =>
    intro row row' _ h
    rw [processRow] at h
    injection h with h
    exact h.symm
  | cons f rest ih =>
    intro row row' hno h
    rw [processRow] at h
    cases row with
    | obj kvs => exact absurd rfl (hno kvs)
    | str s =>
      rw [redactStep] at h
      by_cases hs : substrB f s = true
      · rw [if_pos hs] at h
        exact Except.noConfusion h
      · rw [if_neg hs] at h
        exact ih (.str s) row' (fun kvs hk => JVal.noConfusion hk) h
    | arr xs =>
      rw [redactStep] at h
      by_cases hs : xs.any (pyEqStr f) = true
      · rw [if_pos hs] at h
        exact Except.noConfusion h
      · rw [if_neg hs] at h
        exact ih (.arr xs) row' (fun kvs hk => JVal.noConfusion hk) h
    | int n =>
      rw [redactStep] at h
      exact Except.noConfusion h
    | bool b =>
      rw [redactStep] at h
      exact Except.noConfusion h
    | null =>
      rw [redactStep] at h
      exact Except.noConfusion h

theorem processRow_wf (pii : List (List Char)) (row row' : JVal)
    (hwf : wfJ row = true) (h : processRow pii row = .ok row') : wfJ row' = true := by
  cases row with
  | obj kvs =>
    rw [processRow_obj] at h
    injection h with h
    subst h
    rw [show wfJ (JVal.obj kvs) = (nodupB (kvs.map Prod.fst) && wfObj kvs) from by
      simp [wfJ], Bool.and_eq_true] at hwf
    have hr := redactObj_wf pii kvs hwf.1 hwf.2
    rw [show wfJ (JVal.obj (redactObj pii kvs)) =
      (nodupB ((redactObj pii kvs).map Prod.fst) && wfObj (redactObj pii kvs)) from by
      simp [wfJ], Bool.and_eq_true]
    exact hr
  | str s =>
    rw [processRow_ok_eq_of_nonobj pii _ row' (fun _ hk => JVal.noConfusion hk) h]
    exact hwf
  | arr xs =>
    rw [processRow_ok_eq_of_nonobj pii _ row' (fun _ hk => JVal.noConfusion hk) h]
    exact hwf
  | int n =>
    rw [processRow_ok_eq_of_nonobj pii _ row' (fun _ hk => JVal.noConfusion hk) h]
    exact hwf
  | bool b =>
    rw [processRow_ok_eq_of_nonobj pii _ row' (fun _ hk => JVal.noConfusion hk) h]
    exact hwf
  | null =>
    rw [processRow_ok_eq_of_nonobj pii _ row' (fun _ hk => JVal.noConfusion hk) h]
    exact hwf

theorem redactObj_id_of_marked :
    ∀ (pii : List (List Char)) (d : List (List Char × JVal)),
      (∀ f ∈ pii, memA d f = false ∨ getA d f = some (.str marker)) →
      redactObj pii d = d := by
  intro pii
  induction pii with
  | nil => intro d _; rfl
  | cons f rest ih =>
    intro d h
    have hstep : redactObj (f :: rest) d =
        redactObj rest (if memA d f = true then setA d f (.str marker) else d) := by
      simp only [redactObj, List.foldl_cons]
    rw [hstep]
    rcases h f (List.mem_cons_self f rest) with hm | hm
    · rw [if_neg (by rw [hm]; simp)]
      exact ih d (fun g hg => h g (List.mem_cons_of_mem f hg))
    · have hmem : memA d f = true := by rw [memA, hm]; rfl
      rw [if_pos hmem, setA_self d f _ hm]
      exact ih d (fun g hg => h g (List.mem_cons_of_mem f hg))

theorem redactObj_idem (pii : List (List Char)) (kvs : List (List Char × JVal)) :
    redactObj pii (redactObj pii kvs) = redactObj pii kvs := by
  apply redactObj_id_of_marked
  intro f hf
  by_cases hm : (getA kvs f).isSome = true
  · right
    rw [getA_redactObj, if_pos ⟨hf, hm⟩]
  · left
    rw [memA, getA_redactObj, if_neg (fun hc => hm hc.2)]
    simpa using hm

theorem processRow_idem (pii : List (List Char)) (row row' : JVal)
    (h : processRow pii row = .ok row') : processRow pii row' = .ok row' := by
  cases row with
  | obj kvs =>
    rw [processRow_obj] at h
    injection h with h
    subst h
    rw [processRow_obj, redactObj_idem]
  | str s =>
    have he := processRow_ok_eq_of_nonobj pii _ row' (fun _ hk => JVal.noConfusion hk) h
    subst he
    exact h
  | arr xs =>
    have he := processRow_ok_eq_of_nonobj pii _ row' (fun _ hk => JVal.noConfusion hk) h
    subst he
    exact h
  | int n =>
    have he := processRow_ok_eq_of_nonobj pii _ row' (fun _ hk => JVal.noConfusion hk) h
    subst he
    exact h
  | bool b =>
    have he := processRow_ok_eq_of_nonobj pii _ row' (fun _ hk => JVal.noConfusion hk) h
    subst he
    exact h
  | null =>
    have he := processRow_ok_eq_of_nonobj pii _ row' (fun _ hk => JVal.noConfusion hk) h
    subst he
    exact h

theorem processRows_idem_wf (pii : List (List Char)) :
    ∀ (items items' : List JVal), processRows pii items = .ok items' →
      processRows pii items' = .ok items' ∧
        (wfArr items = true → wfArr items' = true) := by
  intro items
  induction items with
  | nil =>
    intro items' h
    rw [processRows] at h
    injection h with h
    subst h
    exact ⟨rfl, fun hh => hh⟩
  | cons r rs ih =>
    intro items' h
    rw [processRows] at h
    rcases hpr : processRow pii r with e | r' <;> rw [hpr] at h
    · exact Except.noConfusion h
    · replace h : (match processRows pii rs with
          | Except.error e => (Except.error e : Except PyErr (List JVal))
          | Except.ok rs' => Except.ok (r' :: rs')) = .ok items' := h
      rcases hprs : processRows pii rs with e | rs' <;> rw [hprs] at h
      · exact Except.noConfusion h
      · replace h : (Except.ok (r' :: rs') : Except PyErr (List JVal)) = .ok items' := h
        injection h with h
        subst h
        obtain ⟨hidem, hwfp⟩ := ih rs' hprs
        constructor
        · rw [processRows, processRow_idem pii r r' hpr]
          show (match processRows pii rs' with
            | Except.error e => (Except.error e : Except PyErr (List JVal))
            | Except.ok rs'' => Except.ok (r' :: rs'')) = .ok (r' :: rs')
          rw [hidem]
        · intro hwf
          rw [wfArr, Bool.and_eq_true] at hwf ⊢
          exact ⟨processRow_wf pii r r' hwf.1 hpr, hwfp hwf.2⟩

theorem processTop_idem (pii : List (List Char)) (v v' : JVal)
    (h : processTop pii v = .ok v') : processTop pii v' = .ok v' := by
  cases v with
  | arr items =>
    rw [processTop] at h
    rcases hpr : processRows pii items with e | items' <;> rw [hpr] at h
    · exact Except.noConfusion h
    · replace h : (Except.ok (JVal.arr items') : Except PyErr JVal) = .ok v' := h
      injection h with h
      subst h
      rw [processTop, (processRows_idem_wf pii items items' hpr).1]
  | obj kvs =>
    rw [processTop] at h
    rcases hck : checkKeys pii kvs with e | u <;> rw [hck] at h
    · exact Except.noConfusion h
    · replace h : (Except.ok (JVal.obj kvs) : Except PyErr JVal) = .ok v' := h
      injection h with h
      subst h
      rw [processTop, hck]
  | str s =>
    rw [processTop] at h
    rcases hck : checkChars pii s with e | u <;> rw [hck] at h
    · exact Except.noConfusion h
    · replace h : (Except.ok (JVal.str s) : Except PyErr JVal) = .ok v' := h
      injection h with h
      subst h
      rw [processTop, hck]
  | int n =>
    rw [processTop] at h
    exact Except.noConfusion h
  | bool b =>
    rw [processTop] at h
    exact Except.noConfusion h
  | null =>
    rw [processTop] at h
    exact Except.noConfusion h

theorem processTop_wf (pii : List (List Char)) (v v' : JVal)
    (hwf : wfJ v = true) (h : processTop pii v = .ok v') : wfJ v' = true := by
  cases v with
  | arr items =>
    rw [processTop] at h
    rcases hpr : processRows pii items with e | items' <;> rw [hpr] at h
    · exact Except.noConfusion h
    · replace h : (Except.ok (JVal.arr items') : Except PyErr JVal) = .ok v' := h
      injection h with h
      subst h
      rw [show wfJ (JVal.arr items) = wfArr items from by simp [wfJ]] at hwf
      rw [show wfJ (JVal.arr items') = wfArr items' from by simp [wfJ]]
      exact (processRows_idem_wf pii items items' hpr).2 hwf
  | obj kvs =>
    rw [processTop] at h
    rcases hck : checkKeys pii kvs with e | u <;> rw [hck] at h
    · exact Except.noConfusion h
    · replace h : (Except.ok (JVal.obj kvs) : Except PyErr JVal) = .ok v' := h
      injection h with h
      subst h
      exact hwf
  | str s =>
    rw [processTop] at h
    rcases hck : checkChars pii s with e | u <;> rw [hck] at h
    · exact Except.noConfusion h
    · replace h : (Except.ok (JVal.str s) : Except PyErr JVal) = .ok v' := h
      injection h with h
      subst h
      exact hwf
  | int n =>
    rw [processTop] at h
    exact Except.noConfusion h
  | bool b =>
    rw [processTop] at h
    exact Except.noConfusion h
  | null =>
    rw [processTop] at h
    exact Except.noConfusion h

theorem processRows_nil_pii : ∀ items : List JVal, processRows [] items = .ok items := by
  intro items
  induction items with
  | nil => rfl
  | cons r rs ih =>
    rw [processRows]
    show (match processRows [] rs with
      | Except.error e => (Except.error e : Except PyErr (List JVal))
      | Except.ok rs' => Except.ok (r :: rs')) = .ok (r :: rs)
    rw [ih]

theorem checkKeys_nil_pii : ∀ kvs : List (List Char × JVal), checkKeys [] kvs = .ok () := by
  intro kvs
  induction kvs with
  | nil => rfl
  | cons kv t ih =>
    rw [checkKeys]
    exact ih

theorem checkChars_nil_pii : ∀ s : List Char, checkChars [] s = .ok () := by
  intro s
  induction s with
  | nil => rfl
  | cons c t ih =>
    rw [checkChars]
    exact ih

theorem processTop_nil_pii (v v' : JVal) (h : processTop [] v = .ok v') : v' = v := by
  cases v with
  | arr items =>
    rw [processTop, processRows_nil_pii items] at h
    injection h with h
    exact h.symm
  | obj kvs =>
    rw [processTop, checkKeys_nil_pii kvs] at h
    injection h with h
    exact h.symm
  | str s =>
    rw [processTop, checkChars_nil_pii s] at h
    injection h with h
    exact h.symm
  | int n =>
    rw [processTop] at h
    exact Except.noConfusion h
  | bool b =>
    rw [processTop] at h
    exact Except.noConfusion h
  | null =>
    rw [processTop] at h
    exact Except.noConfusion h

theorem obfuscate_json_idem_h (data : List Char) (pii : List (List Char))
    (out : List Char) (h : obfuscate_json data pii = .ok out) :
    obfuscate_json out pii = .ok out := by
  rw [obfuscate_json] at h
  rcases hp : parseJsonTop data with _ | v <;> rw [hp] at h
  · exact Except.noConfusion h
  · replace h : Except.map dumpsJson (processTop pii v) = Except.ok out := h
    rcases hpt : processTop pii v with e | v' <;> rw [hpt] at h
    · exact Except.noConfusion h
    · replace h : (Except.ok (dumpsJson v') : Except PyErr (List Char)) = .ok out := h
      injection h with h
      subst h
      have hwf := parseJsonTop_wf data v hp
      have hwf' := processTop_wf pii v v' hwf hpt
      rw [obfuscate_json, parseJsonTop_dumps v' hwf']
      show Except.map dumpsJson (processTop pii v') = Except.ok (dumpsJson v')
      rw [processTop_idem pii v v' hpt]
      rfl

theorem obfuscate_json_nil_h (data out : List Char)
    (h : obfuscate_json data [] = .ok out) : parseJsonTop out = parseJsonTop data := by
  rw [obfuscate_json] at h
  rcases hp : parseJsonTop data with _ | v <;> rw [hp] at h
  · exact Except.noConfusion h
  · replace h : Except.map dumpsJson (processTop [] v) = Except.ok out := h
    rcases hpt : processTop [] v with e | v' <;> rw [hpt] at h
    · exact Except.noConfusion h
    · replace h : (Except.ok (dumpsJson v') : Except PyErr (List Char)) = .ok out := h
      injection h with h
      subst h
      have hv' := processTop_nil_pii v v' hpt
      subst hv'
      rw [parseJsonTop_dumps v' (parseJsonTop_wf data v' hp)]

theorem escJ_id (s : List Char)
    (hs : ∀ c ∈ s, 32 ≤ c.toNat ∧ c.toNat ≤ 126 ∧ c ≠ '"' ∧ c ≠ '\\') :
    (s.map escJChar).flatten = s := by
  induction s with
  | nil => rfl
  | cons c t iht =>
    obtain ⟨hc1, hc2, hc3, hc4⟩ := hs c (List.mem_cons_self c t)
    simp only [List.map_cons, List.flatten_cons,
      iht fun d hd => hs d (List.mem_cons_of_mem c hd)]
    rw [escJChar, if_neg hc3, if_neg hc4]
    have hn : c ≠ '\n' := by intro hh; subst hh; simp at hc1
    have hr : c ≠ '\r' := by intro hh; subst hh; simp at hc1
    have ht' : c ≠ '\t' := by intro hh; subst hh; simp at hc1
    rw [if_neg hn, if_neg hr, if_neg ht']
    rw [if_neg (by omega), if_neg (by omega), if_pos ⟨hc1, hc2⟩]
    rfl

theorem zipWith_nil_pii :
    ∀ (hdr r : List (List Char)),
      List.zipWith (fun h v => if h ∈ ([] : List (List Char)) then marker else v)
        hdr r = r.take hdr.length := by
  intro hdr
  induction hdr with
  | nil => intro r; rfl
  | cons h0 t ih =>
    intro r
    cases r with
    | nil => rfl
    | cons v0 w =>
      rw [List.zipWith_cons_cons, if_neg (List.not_mem_nil h0), ih w]
      rfl

theorem obfuscate_parquet_nil (t : PqTable) : obfuscate_parquet t [] = t := rfl

/-- C7: each of the three transforms is idempotent: whenever a transform
succeeds, running it again with the same target-field list on its own output
succeeds and returns that output unchanged (the marker is overwritten with
itself; non-target values are re-serialised identically). -/
theorem transforms_idempotent :
    (∀ (data : List Char) (pii : List (List Char)) (out : List Char),
      obfuscate_csv data pii = .ok out → obfuscate_csv out pii = .ok out) ∧
    (∀ (data : List Char) (pii : List (List Char)) (out : List Char),
      obfuscate_json data pii = .ok out → obfuscate_json out pii = .ok out) ∧
    (∀ (t : PqTable) (pii : List (List Char)),
      obfuscate_parquet (obfuscate_parquet t pii) pii = obfuscate_parquet t pii) :=
  ⟨obfuscate_csv_idem_h, obfuscate_json_idem_h, obfuscate_parquet_idem_h⟩

/-- C7 witness: idempotence instantiated on a CSV file, a JSON record list
and a one-column table. -/
theorem transforms_idempotent_witness :
    obfuscate_csv ("name,age\r\n***,30\r\n".data) [("name".data)] =
      .ok ("name,age\r\n***,30\r\n".data) ∧
    obfuscate_json ("[\x7b\"name\": \"***\"\x7d]".data) [("name".data)] =
      .ok ("[\x7b\"name\": \"***\"\x7d]".data) ∧
    obfuscate_parquet
      (obfuscate_parquet ⟨[(("a".data), ⟨"int64".data, [PqVal.int 1]⟩)]⟩ [("a".data)])
      [("a".data)] =
      obfuscate_parquet ⟨[(("a".data), ⟨"int64".data, [PqVal.int 1]⟩)]⟩ [("a".data)] := by
  have hjson : obfuscate_json ("[\x7b\"name\": \"Bob\"\x7d]".data) [("name".data)] =
      .ok ("[\x7b\"name\": \"***\"\x7d]".data) := by
    rw [obfuscate_json,
      show parseJsonTop ("[\x7b\"name\": \"Bob\"\x7d]".data) =
        some (JVal.arr [JVal.obj [(("name".data), JVal.str ("Bob".data))]]) from rfl]
    show Except.map dumpsJson (processTop [("name".data)]
        (JVal.arr [JVal.obj [(("name".data), JVal.str ("Bob".data))]])) =
      Except.ok ("[\x7b\"name\": \"***\"\x7d]".data)
    rw [show processTop [("name".data)]
          (JVal.arr [JVal.obj [(("name".data), JVal.str ("Bob".data))]]) =
        .ok (JVal.arr [JVal.obj [(("name".data), JVal.str marker)]]) from rfl]
    show Except.ok (dumpsJson (JVal.arr [JVal.obj [(("name".data), JVal.str marker)]])) =
      Except.ok ("[\x7b\"name\": \"***\"\x7d]".data)
    simp only [dumpsJson, dumpsArr, dumpsObj, dumpJStr, joinSep, marker]
    rw [escJ_id ("name".data) (by decide), escJ_id ("***".data) (by decide)]
    rfl
  refine ⟨?_, ?_, ?_⟩
  · exact transforms_idempotent.1 ("name,age\r\nAlice,30\r\n".data) [("name".data)]
      ("name,age\r\n***,30\r\n".data) (by rfl)
  · exact transforms_idempotent.2.1 ("[\x7b\"name\": \"Bob\"\x7d]".data)
      [("name".data)] ("[\x7b\"name\": \"***\"\x7d]".data) hjson
  · exact transforms_idempotent.2.2 ⟨[(("a".data), ⟨"int64".data, [PqVal.int 1]⟩)]⟩
      [("a".data)]

/-- C8 counterexample: a CSV data row shorter than the header is not
round-tripped structurally: the reader's `restval` makes the missing field
`None`, the writer renders it as the empty string, and parsing the output
yields a record with one more field than the input's record. -/
theorem roundtrip_counterexample :
    obfuscate_csv ("a,b\n1\n".data) [] = .ok ("a,b\r\n1,\r\n".data) ∧
    parseCSV ("a,b\n1\n".data) = ([[("a".data), ("b".data)], [("1".data)]], none) ∧
    parseCSV ("a,b\r\n1,\r\n".data) =
      ([[("a".data), ("b".data)], [("1".data), ([] : List Char)]], none) :=
  ⟨rfl, rfl, rfl⟩

/-- C8 (amended): with an empty target list the transforms preserve
structure up to serialisation formatting, with the delimited-text caveats
that blank lines are dropped and every non-blank data row must have exactly
the header's number of fields (shorter rows gain restval fields, longer rows
raise): under those hypotheses the CSV output parses back to exactly the
header and the non-blank input rows; a JSON output parses back to exactly
the input's parse; a table is returned untouched. -/
theorem empty_pii_roundtrip :
    (∀ (data : List Char) (hdr : List (List Char)) (rows : List (List (List Char))),
      parseCSV data = (hdr :: rows, none) → hdr.Nodup →
      (∀ r ∈ rows, r ≠ [] → r.length = hdr.length) →
      ∃ out, obfuscate_csv data [] = .ok out ∧
        parseCSV out = (hdr :: rows.filter (fun r => r ≠ []), none)) ∧
    (∀ (data out : List Char), obfuscate_json data [] = .ok out →
      parseJsonTop out = parseJsonTop data) ∧
    (∀ t : PqTable, obfuscate_parquet t [] = t) := by
  refine ⟨?_, obfuscate_json_nil_h, obfuscate_parquet_nil⟩
  intro data hdr rows hp hnd hlen
  obtain ⟨h1, h2⟩ := obfuscate_csv_redacts data [] hdr rows hp hnd hlen
  refine ⟨_, h1, ?_⟩
  rw [h2]
  have hcong : ∀ r ∈ rows.filter (fun r => r ≠ []),
      (fun r => List.zipWith
        (fun h v => if h ∈ ([] : List (List Char)) then marker else v) hdr r) r
        = id r := by
    intro r hr
    rw [List.mem_filter] at hr
    show List.zipWith _ hdr r = r
    rw [zipWith_nil_pii hdr r, ← hlen r hr.1 (by simpa using hr.2),
      List.take_length]
  rw [List.map_congr_left hcong, List.map_id]

/-- C8 witness: the amended round-trip applied to a two-column CSV file, the
record list `[1,2]` (whose re-serialisation differs only in whitespace), and
a one-column table. -/
theorem empty_pii_roundtrip_witness :
    (∃ out, obfuscate_csv ("a,b\r\n1,2\r\n".data) [] = .ok out ∧
      parseCSV out =
        ([("a".data), ("b".data)] ::
          [[("1".data), ("2".data)]].filter (fun r => r ≠ []), none)) ∧
    parseJsonTop ("[1, 2]".data) = parseJsonTop ("[1,2]".data) ∧
    obfuscate_parquet ⟨[(("a".data), ⟨"int64".data, [PqVal.int 1]⟩)]⟩ [] =
      ⟨[(("a".data), ⟨"int64".data, [PqVal.int 1]⟩)]⟩ := by
  have hn1 : natToChars 1 = ['1'] := by rw [natToChars]; norm_num
  have hn2 : natToChars 2 = ['2'] := by rw [natToChars]; norm_num
  have hi1 : intToChars 1 = ['1'] := by
    rw [show (1 : Int) = Int.ofNat 1 from rfl, intToChars]
    exact hn1
  have hi2 : intToChars 2 = ['2'] := by
    rw [show (2 : Int) = Int.ofNat 2 from rfl, intToChars]
    exact hn2
  have hj : obfuscate_json ("[1,2]".data) [] = .ok ("[1, 2]".data) := by
    rw [obfuscate_json,
      show parseJsonTop ("[1,2]".data) = some (JVal.arr [JVal.int 1, JVal.int 2])
        from rfl]
    show Except.map dumpsJson (processTop [] (JVal.arr [JVal.int 1, JVal.int 2])) =
      Except.ok ("[1, 2]".data)
    rw [show processTop [] (JVal.arr [JVal.int 1, JVal.int 2]) =
      .ok (JVal.arr [JVal.int 1, JVal.int 2]) from rfl]
    show Except.ok (dumpsJson (JVal.arr [JVal.int 1, JVal.int 2])) =
      Except.ok ("[1, 2]".data)
    simp only [dumpsJson, dumpsArr, joinSep]
    rw [hi1, hi2]
    rfl
  refine ⟨?_, ?_, empty_pii_roundtrip.2.2 _⟩
  · exact empty_pii_roundtrip.1 ("a,b\r\n1,2\r\n".data)
      [("a".data), ("b".data)] [[("1".data), ("2".data)]] (by rfl) (by decide)
      (by decide)
  · exact empty_pii_roundtrip.2.1 ("[1,2]".data) ("[1, 2]".data) hj
